import Mathlib

/-!
# nitro-editor: the `.nitro` archive codec and the furniture document

A shallow embedding of `backend/nitro.go`, of the projection `getDetailedInfo`
of `backend/main.go` and of the choice of the direction in `backend/renderer.go`.

* Go `string` and `[]byte` values are byte sequences: `List Byte`.
* A Go `map` is an association list with pairwise distinct keys.  The order in
  which `range` visits a map is not specified by Go, so every function that
  ranges over a map takes the visiting order as an argument (`RangeOf`).
* A reader is the list of bytes that it has not delivered yet.
* `compress/zlib` and `encoding/json` are libraries outside the repository;
  they are parameters of the embedding (`Zlib`, `Json`).
* A `float64` of a decoded document is a rational number; the arithmetic on
  `float64` is a parameter of the embedding (`FloatOps`).
* A call that can end in a run-time panic has a result of type `Run`.
-/

namespace NitroEditor

deriving instance DecidableEq for Except

/-! ## Bytes, strings, errors -/

abbrev Byte := Fin 256

/-- Go `string`: a sequence of bytes. -/
abbrev GoString := List Byte

/-- The low eight bits of a number, as Go's `byte(v)`. -/
def byteOf (n : Nat) : Byte := ⟨n % 256, Nat.mod_lt n (by decide)⟩

/-- Go conversion `uint16(n)` of a non-negative `int`. -/
def uint16 (n : Nat) : Nat := n % 65536

/-- Go conversion `uint32(n)` of a non-negative `int`. -/
def uint32 (n : Nat) : Nat := n % 4294967296

/-- The bytes `binary.Write(w, binary.BigEndian, v)` writes for a `uint16`. -/
def putUint16 (v : Nat) : List Byte := [byteOf (v / 256), byteOf v]

/-- The bytes `binary.Write(w, binary.BigEndian, v)` writes for a `uint32`. -/
def putUint32 (v : Nat) : List Byte :=
  [byteOf (v / 16777216), byteOf (v / 65536), byteOf (v / 256), byteOf v]

/-- The errors the embedded functions return. -/
inductive Error where
  /-- Go `io.EOF`. -/
  | eof
  /-- Go `io.ErrUnexpectedEOF`. -/
  | unexpectedEOF
  /-- Any error of the zlib reader (bad header, corrupt or short stream, bad checksum) -/
  | zlib
  /-- An error of `os.Open`. -/
  | os
  /-- An error value made by `fmt.Errorf` or returned by `encoding/json` -/
  | msg (text : String)
  deriving DecidableEq, Repr

/-- The literal `".json"`. -/
def dotJson : GoString := [46, 106, 115, 111, 110]

/-- Go `strings.HasSuffix(s, suffix)`. -/
def hasSuffix (s suffix : GoString) : Bool :=
  decide (suffix.length ≤ s.length) && decide (s.drop (s.length - suffix.length) = suffix)

/-! ## Go maps -/

/-- Go `m[k] = v`: an existing key keeps its place and gets the new value, a new
key is added. -/
def mapSet {K V : Type} [DecidableEq K] : List (K × V) → K → V → List (K × V)
  | [], k, v => [(k, v)]
  | (k', v') :: t, k, v => if k' = k then (k, v) :: t else (k', v') :: mapSet t k v

/-- Go `v, ok := m[k]`. -/
def mapGet {K V : Type} [DecidableEq K] : List (K × V) → K → Option V
  | [], _ => none
  | (k', v') :: t, k => if k' = k then some v' else mapGet t k

/-- The keys of a map are pairwise distinct. -/
def MapOK {K V : Type} (m : List (K × V)) : Prop := (m.map Prod.fst).Nodup

/-- The sequence `order` is one that `for k, v := range m` may visit: every entry
of the map exactly once, in any order. -/
def RangeOf {K V : Type} (m order : List (K × V)) : Prop := order.Perm m

/-! ## The archive -/

/-- Go `type NitroFile struct { Name string; Data []byte }`. -/
structure NitroFile where
  Name : GoString
  Data : List Byte
  deriving DecidableEq, Repr

/-- Go `type NitroArchive struct { Files map[string]NitroFile }`. -/
structure NitroArchive where
  Files : List (GoString × NitroFile)
  deriving DecidableEq, Repr

/-- Every entry of the archive is stored under its own name. -/
def KeyedByName (a : NitroArchive) : Prop := ∀ e ∈ a.Files, e.2.Name = e.1

/-- The library `compress/zlib`, as far as the archive codec uses it. -/
structure Zlib where
  /-- The bytes that `zlib.NewWriter(&buf)`, `Write(data)`, `Close()` leave in `buf`. -/
  deflate : List Byte → List Byte
  /-- The run of `zlib.NewReader(io.LimitReader(r, n))` followed by `io.Copy`,
  where `src` is what the limited reader can deliver: the next `n` bytes of `r`,
  or all that is left of `r` when that is less.  The result is `none` when the
  zlib reader reports an error, and otherwise the inflated data together with
  the number of bytes of `src` that were taken from `r` (the zlib reader reads
  through a buffer of its own, so it may take more than the stream it inflates). -/
  inflate : List Byte → Option (List Byte × Nat)

/-! ## Reading (`NitroReader`) -/

/-- Go `(r *NitroReader) readShort`: `io.ReadFull` of two bytes, big-endian. -/
def readShort : List Byte → Except Error (Nat × List Byte)
  | b0 :: b1 :: rest => .ok (b0.val * 256 + b1.val, rest)
  | [_] => .error .unexpectedEOF
  | [] => .error .eof

/-- Go `(r *NitroReader) readInt`: `io.ReadFull` of four bytes, big-endian. -/
def readInt : List Byte → Except Error (Nat × List Byte)
  | b0 :: b1 :: b2 :: b3 :: rest =>
    .ok (b0.val * 16777216 + b1.val * 65536 + b2.val * 256 + b3.val, rest)
  | [] => .error .eof
  | _ => .error .unexpectedEOF

/-- Go `io.ReadFull(r, buf)` with `len(buf) = n`. -/
def readFull (inp : List Byte) (n : Nat) : Except Error (List Byte × List Byte) :=
  if n ≤ inp.length then .ok (inp.take n, inp.drop n)
  else if inp.length = 0 then .error .eof
  else .error .unexpectedEOF

/-- Go `(r *NitroReader) readString`. -/
def readString (inp : List Byte) : Except Error (GoString × List Byte) :=
  match readShort inp with
  | .error e => .error e
  | .ok (length, rest) =>
    match readFull rest length with
    | .error e => .error e
    | .ok (buf, rest') => .ok (buf, rest')

/-- Go `(r *NitroReader) ReadFile`: the file read and the bytes left in the reader. -/
def ReadFile (z : Zlib) (inp : List Byte) : Except Error (NitroFile × List Byte) :=
  match readString inp with
  | .error e => .error e
  | .ok (name, rest) =>
    match readInt rest with
    | .error e => .error e
    | .ok (length, rest') =>
      match z.inflate (rest'.take length) with
      | none => .error .zlib
      | some (data, taken) => .ok ({ Name := name, Data := data }, rest'.drop taken)

/-- The loop of `ReadArchive`: `n` more files are to be read into `archive`.
Returns the archive as it stands when the loop ends, the error that ended it
(if any) and the bytes left. -/
def readFiles (z : Zlib) : Nat → NitroArchive → List Byte → NitroArchive × Option Error × List Byte
  | 0, archive, inp => (archive, none, inp)
  | n + 1, archive, inp =>
    match ReadFile z inp with
    | .error e => (archive, some e, inp)
    | .ok (file, rest) => readFiles z n { Files := mapSet archive.Files file.Name file } rest

/-- Go `(r *NitroReader) ReadArchive`: the values `(archive, err)` it returns.
On an error the archive holds the files read before the error. -/
def ReadArchive (z : Zlib) (inp : List Byte) : NitroArchive × Option Error :=
  match readShort inp with
  | .error e => ({ Files := [] }, some e)
  | .ok (fileCount, rest) =>
    let r := readFiles z fileCount { Files := [] } rest
    (r.1, r.2.1)

/-- The file system: the content of the file at a path, `none` when `os.Open` fails. -/
abbrev FileSystem := GoString → Option (List Byte)

/-- Go `loadNitroArchive`. -/
def loadNitroArchive (z : Zlib) (fs : FileSystem) (filepath : GoString) : Except Error NitroArchive :=
  match fs filepath with
  | none => .error .os
  | some content =>
    match ReadArchive z content with
    | (_, some e) => .error e
    | (archive, none) => .ok archive

/-! ## Writing (`createNitroArchive`) -/

/-- The body of the loop of `createNitroArchive`: what one file appends to `buffer`. -/
def writeFile (z : Zlib) (buffer : List Byte) (file : NitroFile) : List Byte :=
  let nameLength := uint16 file.Name.length
  let buffer := buffer ++ putUint16 nameLength
  let buffer := buffer ++ file.Name
  let compressedData := z.deflate file.Data
  let compressedLength := uint32 compressedData.length
  let buffer := buffer ++ putUint32 compressedLength
  buffer ++ compressedData

/-- Go `createNitroArchive`; `order` is the order in which `range archive.Files`
visits the files.  Writes to a `bytes.Buffer` do not fail, so the error
returns of the Go function are never taken. -/
def createNitroArchive (z : Zlib) (archive : NitroArchive) (order : List (GoString × NitroFile)) :
    Except Error (List Byte) :=
  let fileCount := uint16 archive.Files.length
  let buffer := putUint16 fileCount
  .ok (order.foldl (fun buffer e => writeFile z buffer e.2) buffer)

/-! ## A zlib codec that stores

A codec with the interface of `Zlib` that follows RFC 1950 and RFC 1951 but
writes stored (uncompressed) blocks only, and reads stored blocks only.  Its
streams are valid zlib streams; it is used to evaluate the codec on concrete
archives. -/

/-- Adler-32 checksum (RFC 1950), as `hash/adler32`. -/
def adler32 (d : List Byte) : Nat :=
  let s := d.foldl
    (fun (s : Nat × Nat) x => ((s.1 + x.val) % 65521, (s.2 + (s.1 + x.val) % 65521) % 65521))
    (1, 0)
  s.2 * 65536 + s.1

/-- A 16-bit number, least significant byte first (RFC 1951 `LEN`, `NLEN`). -/
def putUint16LE (v : Nat) : List Byte := [byteOf v, byteOf (v / 256)]

/-- The stored blocks of a payload: blocks of 65535 bytes, the last one marked final. -/
def storedBlocks : Nat → List Byte → List Byte
  | 0, d => [1] ++ putUint16LE d.length ++ putUint16LE (65535 - d.length) ++ d
  | fuel + 1, d =>
    if d.length ≤ 65535 then
      [1] ++ putUint16LE d.length ++ putUint16LE (65535 - d.length) ++ d
    else
      [0] ++ putUint16LE 65535 ++ putUint16LE 0 ++ d.take 65535
        ++ storedBlocks fuel (d.drop 65535)

/-- The zlib stream of a payload: header `78 01`, stored blocks, Adler-32. -/
def storedDeflate (d : List Byte) : List Byte :=
  [0x78, 0x01] ++ storedBlocks d.length d ++ putUint32 (adler32 d)

/-- Reads stored blocks up to and including the final one; the payload read
and the bytes after the final block.  A block of another type, a block whose
`NLEN` is not the complement of `LEN`, and a short block are errors. -/
def inflateBlocks : Nat → List Byte → Option (List Byte × List Byte)
  | 0, _ => none
  | fuel + 1, hdr :: l0 :: l1 :: n0 :: n1 :: rest =>
    let len := l0.val + 256 * l1.val
    let nlen := n0.val + 256 * n1.val
    if hdr.val / 2 % 4 ≠ 0 then none
    else if len + nlen ≠ 65535 then none
    else if rest.length < len then none
    else if hdr.val % 2 = 1 then some (rest.take len, rest.drop len)
    else
      match inflateBlocks fuel (rest.drop len) with
      | none => none
      | some (d, rest') => some (rest.take len ++ d, rest')
  | _ + 1, _ => none

/-- The size of the buffer `bufio.NewReader` puts in front of a reader. -/
def bufSize : Nat := 4096

/-- The zlib reader on a bounded source: checks the header, reads the blocks
and compares the checksum.  With the payload it returns the number of source
bytes taken: the reader fills its buffer with up to `bufSize` bytes at a time,
until the stream with its checksum has been read. -/
def storedInflate (src : List Byte) : Option (List Byte × Nat) :=
  match src with
  | cmf :: flg :: body =>
    if cmf.val % 16 ≠ 8 ∨ cmf.val / 16 > 7 ∨ (cmf.val * 256 + flg.val) % 31 ≠ 0 then none
    else if flg.val / 32 % 2 = 1 then none
    else
      match inflateBlocks body.length body with
      | none => none
      | some (d, c0 :: c1 :: c2 :: c3 :: rest) =>
        if c0.val * 16777216 + c1.val * 65536 + c2.val * 256 + c3.val = adler32 d then
          let streamLen := src.length - rest.length
          some (d, min src.length (bufSize * ((streamLen + bufSize - 1) / bufSize)))
        else none
      | some _ => none
  | _ => none

/-- The storing zlib codec. -/
def storedZlib : Zlib := { deflate := storedDeflate, inflate := storedInflate }


/-! ## The format description -/

/-- The `width` low-order bytes of `n`, most significant byte first: the
big-endian representation of `n` in `width` bytes when `n < 256 ^ width`. -/
def bigEndian : Nat → Nat → List Byte
  | 0, _ => []
  | w + 1, n => bigEndian w (n / 256) ++ [byteOf n]

/-- The number that a byte string denotes when it is read as a big-endian
number, most significant byte first. -/
def bigEndianValue (bytes : List Byte) : Nat :=
  bytes.foldl (fun value b => value * 256 + b.val) 0

/-- The layout of one entry, in the words of the format description: name
length, name bytes, compressed length, compressed bytes. -/
def entryLayout (z : Zlib) (file : NitroFile) : List Byte :=
  bigEndian 2 file.Name.length ++ file.Name
    ++ bigEndian 4 (z.deflate file.Data).length ++ z.deflate file.Data

/-- The layout of an archive, in the words of the format description: the entry
count, then the entries one after the other. -/
def archiveLayout (z : Zlib) (count : Nat) (files : List NitroFile) : List Byte :=
  bigEndian 2 count ++ (files.map (entryLayout z)).flatten

/-! ## Decidability of the predicates -/

instance {K V : Type} [DecidableEq K] (m : List (K × V)) : Decidable (MapOK m) := by
  unfold MapOK; infer_instance

instance {K V : Type} [DecidableEq K] [DecidableEq V] (m order : List (K × V)) :
    Decidable (RangeOf m order) := by
  unfold RangeOf; infer_instance

instance (a : NitroArchive) : Decidable (KeyedByName a) := by
  unfold KeyedByName; infer_instance

/-- The zlib reader inflates the stream written for `d` back to `d` and takes
the whole stream. -/
def Zlib.Inverts (z : Zlib) (d : List Byte) : Prop :=
  z.inflate (z.deflate d) = some (d, (z.deflate d).length)

/-- The zlib reader reports an error on every truncation of the stream written for `d`. -/
def Zlib.RejectsTruncated (z : Zlib) (d : List Byte) : Prop :=
  ∀ k, k < (z.deflate d).length → z.inflate ((z.deflate d).take k) = none

instance (z : Zlib) (d : List Byte) : Decidable (z.Inverts d) := by
  unfold Zlib.Inverts; infer_instance

instance (z : Zlib) (d : List Byte) : Decidable (z.RejectsTruncated d) := by
  unfold Zlib.RejectsTruncated; infer_instance

/-- The files that `n` successive calls of `ReadFile` deliver, in the order in
which they stand in the stream, and the bytes left after them. -/
def readEntries (z : Zlib) : Nat → List Byte → Except Error (List NitroFile × List Byte)
  | 0, inp => .ok ([], inp)
  | n + 1, inp =>
    match ReadFile z inp with
    | .error e => .error e
    | .ok (file, rest) =>
      match readEntries z n rest with
      | .error e => .error e
      | .ok (files, rest') => .ok (file :: files, rest')

/-! ## The furniture document (`NitroFurni`) -/

/-- Go `float64` values of a decoded JSON document: finite numbers. -/
abbrev Float64 := Rat

/-- Go `type NitroAsset struct`. -/
structure NitroAsset where
  Source : GoString
  X : Float64
  Y : Float64
  FlipH : Bool
  FlipV : Bool
  deriving DecidableEq

/-- Go `type NitroDimensions struct`. -/
structure NitroDimensions where
  X : Float64
  Y : Float64
  Z : Float64
  deriving DecidableEq

/-- Go `type NitroModel struct`. -/
structure NitroModel where
  Dimensions : NitroDimensions
  Directions : List Int
  deriving DecidableEq

/-- Go `type NitroParticleSystem struct`. -/
structure NitroParticleSystem where
  Size : Int
  deriving DecidableEq

/-- Go `type NitroLogic struct`. -/
structure NitroLogic where
  Model : NitroModel
  ParticleSystems : List NitroParticleSystem
  deriving DecidableEq

/-- Go `type NitroLayer struct`. -/
structure NitroLayer where
  Z : Int
  Alpha : Int
  Ink : GoString
  IgnoreMouse : Bool
  Color : Int
  X : Float64
  Y : Float64
  deriving DecidableEq

/-- Go `type NitroDirection struct`. -/
structure NitroDirection where
  Id : Int
  Layers : List (GoString × NitroLayer)
  deriving DecidableEq

/-- Go `type NitroColorLayer struct`. -/
structure NitroColorLayer where
  Color : GoString
  deriving DecidableEq

/-- Go `type NitroColor struct`. -/
structure NitroColor where
  Layers : List (GoString × NitroColorLayer)
  deriving DecidableEq

/-- Go `type NitroAnimationFrame struct`. -/
structure NitroAnimationFrame where
  Id : Int
  deriving DecidableEq

/-- Go `type NitroFrameSequence struct`. -/
structure NitroFrameSequence where
  Frames : List (GoString × NitroAnimationFrame)
  deriving DecidableEq

/-- Go `type NitroAnimationLayer struct`. -/
structure NitroAnimationLayer where
  LoopCount : Float64
  FrameRepeat : Float64
  Random : Float64
  FrameSequences : List (GoString × NitroFrameSequence)
  deriving DecidableEq

/-- Go `type NitroAnimation struct`. -/
structure NitroAnimation where
  Layers : List (GoString × NitroAnimationLayer)
  TransitionTo : Option Int
  deriving DecidableEq

/-- Go `type NitroVisualization struct`. -/
structure NitroVisualization where
  Angle : Int
  LayerCount : Int
  Size : Int
  Layers : List (GoString × NitroLayer)
  Directions : List (GoString × NitroDirection)
  Colors : List (GoString × NitroColor)
  Animations : List (GoString × NitroAnimation)
  deriving DecidableEq

/-- Go `type NitroSize struct`. -/
structure NitroSize where
  X : Int
  Y : Int
  W : Int
  H : Int
  deriving DecidableEq

/-- Go `type NitroPivot struct`. -/
structure NitroPivot where
  X : Float64
  Y : Float64
  deriving DecidableEq

/-- Go `type NitroSpriteFrame struct`. -/
structure NitroSpriteFrame where
  Frame : NitroSize
  Rotated : Bool
  Trimmed : Bool
  SpriteSourceSize : NitroSize
  SourceSize : NitroSize
  Pivot : NitroPivot
  deriving DecidableEq

/-- Go `type NitroMeta struct`. -/
structure NitroMeta where
  Image : GoString
  deriving DecidableEq

/-- Go `type NitroSpritesheet struct`. -/
structure NitroSpritesheet where
  Frames : List (GoString × NitroSpriteFrame)
  Meta : NitroMeta
  deriving DecidableEq

/-- Go `type NitroFurni struct`. -/
structure NitroFurni where
  Name : GoString
  LogicType : GoString
  VisualizationType : GoString
  Assets : List (GoString × NitroAsset)
  Logic : NitroLogic
  Visualizations : List NitroVisualization
  Spritesheet : NitroSpritesheet
  deriving DecidableEq

/-- The zero value of `NitroFurni`, as `var newFurni NitroFurni` makes it. -/
def NitroFurni.zero : NitroFurni :=
  { Name := [], LogicType := [], VisualizationType := [], Assets := [],
    Logic := { Model := { Dimensions := { X := 0, Y := 0, Z := 0 }, Directions := [] },
               ParticleSystems := [] },
    Visualizations := [],
    Spritesheet := { Frames := [], Meta := { Image := [] } } }

/-- The library `encoding/json`, as far as the document code uses it.
`Payload` is the type of the values passed as `map[string]interface{}`. -/
structure Json (Payload : Type) where
  /-- The call `json.Unmarshal(data, &furni)` for `furni` of type `*NitroFurni`
  with the given value before the call: the value of `furni` after the call and
  the error returned.  (For the document `null` the library sets the pointer
  to nil and returns no error.) -/
  unmarshalPtr : List Byte → Option NitroFurni → Option NitroFurni × Option Error
  /-- The call `json.Unmarshal(data, &newFurni)` for `newFurni` of type
  `NitroFurni` with the given value before the call. -/
  unmarshal : List Byte → NitroFurni → NitroFurni × Option Error
  /-- The call `json.Marshal(jsonData)`. -/
  marshal : Payload → Except Error (List Byte)
  /-- The call `json.Indent(&buf, src, "", "  ")`: the content of `buf`. -/
  indent : List Byte → Except Error (List Byte)
  /-- The calls `json.Marshal(furni)` and `json.MarshalIndent(furni, "", "  ")`
  (the flag is true for the latter) for `furni` of type `*NitroFurni`. -/
  marshalFurni : Bool → Option NitroFurni → Except Error (List Byte)

/-- Go `type NitroLibrary struct`.  A nil `Furni` and a nil `OriginalJSON` are `none`. -/
structure NitroLibrary where
  Archive : NitroArchive
  FilePath : GoString
  Furni : Option NitroFurni
  OriginalJSON : Option (List Byte)
  deriving DecidableEq

/-- The loop of `LoadNitroLibrary` over the files in visiting order: the values
of `furni` and `originalJSON` when the loop ends, or the error it returns. -/
def findJSON {P : Type} (J : Json P) :
    List (GoString × NitroFile) → Except Error (Option NitroFurni × Option (List Byte))
  | [] => .ok (none, none)
  | (_, file) :: rest =>
    if hasSuffix file.Name dotJson then
      match J.unmarshalPtr file.Data none with
      | (_, some _) => .error (.msg "error parsing JSON")
      | (furni, none) => .ok (furni, some file.Data)
    else findJSON J rest

/-- Go `LoadNitroLibrary`, after `loadNitroArchive` has returned `archive`;
`order` is the order in which `range archive.Files` visits the files. -/
def libraryOfArchive {P : Type} (J : Json P) (archive : NitroArchive) (filepath : GoString)
    (order : List (GoString × NitroFile)) : Except Error NitroLibrary :=
  match findJSON J order with
  | .error e => .error e
  | .ok (none, _) => .error (.msg "JSON file not found in .nitro")
  | .ok (some furni, originalJSON) =>
    .ok { Archive := archive, FilePath := filepath, Furni := some furni,
          OriginalJSON := originalJSON }

/-- Go `LoadNitroLibrary`; `range archive` is the order in which
`range archive.Files` visits the files of the archive that was loaded. -/
def LoadNitroLibrary {P : Type} (z : Zlib) (J : Json P) (fs : FileSystem) (filepath : GoString)
    (range : NitroArchive → List (GoString × NitroFile)) : Except Error NitroLibrary :=
  match loadNitroArchive z fs filepath with
  | .error e => .error e
  | .ok archive => libraryOfArchive J archive filepath (range archive)

/-- Go `(lib *NitroLibrary) GetJSONContent`. -/
def GetJSONContent {P : Type} (J : Json P) (lib : NitroLibrary) : Except Error GoString :=
  match lib.OriginalJSON with
  | some originalJSON =>
    match J.indent originalJSON with
    | .error _ => .error (.msg "error formatting JSON")
    | .ok buf => .ok buf
  | none =>
    match J.marshalFurni true lib.Furni with
    | .error _ => .error (.msg "error serializing JSON")
    | .ok jsonBytes => .ok jsonBytes

/-- Go `(lib *NitroLibrary) UpdateJSONContent`: the library after the call and
the error returned. -/
def UpdateJSONContent {P : Type} (J : Json P) (lib : NitroLibrary) (jsonData : P) :
    NitroLibrary × Option Error :=
  match J.marshal jsonData with
  | .error _ => (lib, some (.msg "error serializing JSON data"))
  | .ok jsonBytes =>
    match J.unmarshal jsonBytes NitroFurni.zero with
    | (_, some _) => (lib, some (.msg "error deserializing JSON"))
    | (newFurni, none) =>
      ({ lib with Furni := some newFurni, OriginalJSON := some jsonBytes }, none)

/-! ## Saving (`Save`, `writeNitroArchive`) -/

/-- The bytes that `Save` puts into the JSON entry: the retained bytes when there
are some, and `json.Marshal(lib.Furni)` otherwise. -/
def saveJSONBytes {P : Type} (J : Json P) (lib : NitroLibrary) : Except Error (List Byte) :=
  match lib.OriginalJSON with
  | some originalJSON => .ok originalJSON
  | none =>
    match J.marshalFurni false lib.Furni with
    | .error _ => .error (.msg "error serializing JSON")
    | .ok jsonBytes => .ok jsonBytes

/-- The loop of `Save` that updates the JSON file in the archive; `order` is what
is left of the order in which `range lib.Archive.Files` visits the files.  The
first file whose name ends in `.json` is assigned and the loop is left. -/
def updateJSONFile (files : List (GoString × NitroFile)) (jsonBytes : List Byte) :
    List (GoString × NitroFile) → List (GoString × NitroFile)
  | [] => files
  | (name, file) :: rest =>
    if hasSuffix file.Name dotJson then
      mapSet files name { Name := file.Name, Data := jsonBytes }
    else updateJSONFile files jsonBytes rest

/-- The body of the loop of `writeNitroArchive`: what one file appends to the
content of the output file. -/
def writeArchiveFile (z : Zlib) (file : List Byte) (nitroFile : NitroFile) : List Byte :=
  let nameLen := uint16 nitroFile.Name.length
  let file := file ++ putUint16 nameLen
  let file := file ++ nitroFile.Name
  let compressedData := z.deflate nitroFile.Data
  let compressedLen := uint32 compressedData.length
  let file := file ++ putUint32 compressedLen
  file ++ compressedData

/-- Go `(lib *NitroLibrary) writeNitroArchive`: the error returned and the file
system after the call.  `created` tells whether `os.Create` succeeds; writes to
the created file do not fail.  `order` is the order in which
`range lib.Archive.Files` visits the files. -/
def writeNitroArchive (z : Zlib) (archive : NitroArchive) (fs : FileSystem) (created : Bool)
    (filepath : GoString) (order : List (GoString × NitroFile)) : FileSystem × Option Error :=
  if created then
    let fileCount := uint16 archive.Files.length
    let file := putUint16 fileCount
    let file := order.foldl (fun file e => writeArchiveFile z file e.2) file
    (fun path => if path = filepath then some file else fs path, none)
  else (fs, some .os)

/-- Go `(lib *NitroLibrary) Save`: the library and the file system after the call
and the error returned.  `order` is the order in which the update loop visits
the files, `order'` the order in which `writeNitroArchive` visits them. -/
def Save {P : Type} (z : Zlib) (J : Json P) (lib : NitroLibrary) (fs : FileSystem)
    (created : Bool) (filepath : GoString) (order order' : List (GoString × NitroFile)) :
    NitroLibrary × FileSystem × Option Error :=
  match saveJSONBytes J lib with
  | .error e => (lib, fs, some e)
  | .ok jsonBytes =>
    let archive : NitroArchive :=
      { Files := updateJSONFile lib.Archive.Files jsonBytes order }
    ({ lib with Archive := archive }, writeNitroArchive z archive fs created filepath order')

/-! ## The detailed view (`getDetailedInfo`) -/

/-- The arithmetic of Go `float64` that the projection uses: negation, addition
and the conversion `float64(n)` of an `int`. -/
structure FloatOps where
  neg : Float64 → Float64
  add : Float64 → Float64 → Float64
  ofInt : Int → Float64

/-- Arithmetic without rounding; it is the arithmetic of `float64` wherever the
results are representable, as for integers of small magnitude. -/
def exactFloat : FloatOps :=
  { neg := fun x => -x, add := fun x y => x + y, ofInt := fun n => (n : Rat) }

/-- The order in which `range` visits a map with string keys, for every such map. -/
abbrev GoRange := (V : Type) → List (GoString × V) → List (GoString × V)

/-- Every order the oracle gives visits each entry of the map exactly once. -/
def GoRange.OK (R : GoRange) : Prop := ∀ (V : Type) (m : List (GoString × V)), RangeOf m (R V m)

/-- The oracle that visits every map in the order in which it is stored. -/
def storedOrder : GoRange := fun _ m => m

/-- The literal `"_"`. -/
def underscore : GoString := [95]

/-- A record of the `frames` list of the response. -/
structure FrameInfo where
  name : GoString
  frame : NitroSize
  rotated : Bool
  trimmed : Bool
  spriteSourceSize : NitroSize
  sourceSize : NitroSize
  pivot : NitroPivot
  deriving DecidableEq

/-- A record of the `assets` list of the response. -/
structure AssetInfo where
  name : GoString
  source : GoString
  x : Float64
  y : Float64
  offsetX : Float64
  offsetY : Float64
  flipH : Bool
  flipV : Bool
  deriving DecidableEq

/-- A record of the `layers` map of a visualization of the response. -/
structure LayerRecord where
  id : GoString
  z : Int
  alpha : Int
  ink : GoString
  ignoreMouse : Bool
  color : Int
  x : Float64
  y : Float64
  deriving DecidableEq

/-- A record of the `layers` map of a direction of the response. -/
structure DirectionLayerRecord where
  x : Float64
  y : Float64
  z : Int
  alpha : Int
  ink : GoString
  ignoreMouse : Bool
  color : Int
  deriving DecidableEq

/-- A record of the `directions` map of a visualization of the response. -/
structure DirectionRecord where
  id : GoString
  layers : List (GoString × DirectionLayerRecord)
  deriving DecidableEq

/-- A record of the `visualizations` list of the response. -/
structure VisualizationRecord where
  size : Int
  layerCount : Int
  angle : Int
  layers : List (GoString × LayerRecord)
  directions : List (GoString × DirectionRecord)
  deriving DecidableEq

/-- The `meta` record of the response. -/
structure MetaInfo where
  name : GoString
  logicType : GoString
  visualType : GoString
  frameCount : Nat
  assetCount : Nat
  spritesheet : GoString
  deriving DecidableEq

/-- The response of `getDetailedInfo`. -/
structure DetailedInfo where
  frames : List FrameInfo
  assets : List AssetInfo
  visualizations : List VisualizationRecord
  meta : MetaInfo
  deriving DecidableEq

/-- The loop of `getNitroVisualizationBySize` over the visualizations. -/
def visualizationBySize : List NitroVisualization → Int → Option NitroVisualization
  | [], _ => none
  | vis :: rest, size => if vis.Size = size then some vis else visualizationBySize rest size

/-- Go `getNitroVisualizationBySize`; `furni` is the document `lib.Furni` points
to, the result `none` is the nil pointer. -/
def getNitroVisualizationBySize (furni : NitroFurni) (size : Int) : Option NitroVisualization :=
  visualizationBySize furni.Visualizations size

/-- The record `getDetailedInfo` appends to `frames` for one spritesheet frame. -/
def frameInfo (frameName : GoString) (frame : NitroSpriteFrame) : FrameInfo :=
  { name := frameName,
    frame := { X := frame.Frame.X, Y := frame.Frame.Y, W := frame.Frame.W, H := frame.Frame.H },
    rotated := frame.Rotated,
    trimmed := frame.Trimmed,
    spriteSourceSize :=
      { X := frame.SpriteSourceSize.X, Y := frame.SpriteSourceSize.Y,
        W := frame.SpriteSourceSize.W, H := frame.SpriteSourceSize.H },
    sourceSize :=
      { X := frame.SourceSize.X, Y := frame.SourceSize.Y,
        W := frame.SourceSize.W, H := frame.SourceSize.H },
    pivot := { X := frame.Pivot.X, Y := frame.Pivot.Y } }

/-- The name of the frame that `getDetailedInfo` looks up for an asset. -/
def sourceFrameName (furni : NitroFurni) (assetName : GoString) (asset : NitroAsset) : GoString :=
  let fullAssetName := furni.Name ++ underscore ++ assetName
  if asset.Source ≠ [] then furni.Name ++ underscore ++ asset.Source else fullAssetName

/-- The record `getDetailedInfo` appends to `assets` for one asset. -/
def assetInfo (F : FloatOps) (furni : NitroFurni) (assetName : GoString) (asset : NitroAsset) :
    AssetInfo :=
  let sourceFrameName := sourceFrameName furni assetName asset
  let offsetX := F.neg asset.X
  let offsetY := F.neg asset.Y
  let offset : Float64 × Float64 :=
    match mapGet furni.Spritesheet.Frames sourceFrameName with
    | some frameData =>
      (F.add offsetX (F.ofInt frameData.SpriteSourceSize.X),
       F.add offsetY (F.ofInt frameData.SpriteSourceSize.Y))
    | none => (offsetX, offsetY)
  { name := assetName, source := sourceFrameName, x := asset.X, y := asset.Y,
    offsetX := offset.1, offsetY := offset.2, flipH := asset.FlipH, flipV := asset.FlipV }

/-- The record `getDetailedInfo` stores in `layers` for one base layer. -/
def layerRecord (layerIdStr : GoString) (layer : NitroLayer) : LayerRecord :=
  { id := layerIdStr, z := layer.Z, alpha := layer.Alpha, ink := layer.Ink,
    ignoreMouse := layer.IgnoreMouse, color := layer.Color, x := layer.X, y := layer.Y }

/-- The record `getDetailedInfo` stores in `directionLayers` for one layer of a direction. -/
def directionLayerRecord (dirLayer : NitroLayer) : DirectionLayerRecord :=
  { x := dirLayer.X, y := dirLayer.Y, z := dirLayer.Z, alpha := dirLayer.Alpha,
    ink := dirLayer.Ink, ignoreMouse := dirLayer.IgnoreMouse, color := dirLayer.Color }

/-- The map `directionLayers` that `getDetailedInfo` builds for the direction
`dirIdStr` of the visualization `vis`. -/
def directionLayers (R : GoRange) (furni : NitroFurni) (vis : NitroVisualization)
    (dirIdStr : GoString) : List (GoString × DirectionLayerRecord) :=
  match getNitroVisualizationBySize furni vis.Size with
  | none => []
  | some nitroVis =>
    match mapGet nitroVis.Directions dirIdStr with
    | none => []
    | some dirData =>
      (R _ dirData.Layers).foldl
        (fun directionLayers e => mapSet directionLayers e.1 (directionLayerRecord e.2)) []

/-- The record `getDetailedInfo` appends to `visualizations` for one visualization. -/
def visualizationRecord (R : GoRange) (furni : NitroFurni) (vis : NitroVisualization) :
    VisualizationRecord :=
  let layers := (R _ vis.Layers).foldl
    (fun layers e => mapSet layers e.1 (layerRecord e.1 e.2)) []
  let directions := (R _ vis.Directions).foldl
    (fun directions e =>
      mapSet directions e.1 { id := e.1, layers := directionLayers R furni vis e.1 }) []
  { size := vis.Size, layerCount := vis.LayerCount, angle := vis.Angle,
    layers := layers, directions := directions }

/-- Go `getDetailedInfo`, once `LoadNitroLibrary` has returned the library:
the response built from the document `furni` that `lib.Furni` points to. -/
def getDetailedInfo (F : FloatOps) (R : GoRange) (furni : NitroFurni) : DetailedInfo :=
  let frames := (R _ furni.Spritesheet.Frames).foldl
    (fun frames e => frames ++ [frameInfo e.1 e.2]) []
  let assets := (R _ furni.Assets).foldl
    (fun assets e => assets ++ [assetInfo F furni e.1 e.2]) []
  let visualizations := furni.Visualizations.foldl
    (fun visualizations vis => visualizations ++ [visualizationRecord R furni vis]) []
  { frames := frames, assets := assets, visualizations := visualizations,
    meta :=
      { name := furni.Name, logicType := furni.LogicType,
        visualType := furni.VisualizationType, frameCount := frames.length,
        assetCount := assets.length, spritesheet := furni.Spritesheet.Meta.Image } }

/-! ## The direction used for rendering (`renderFurniToGIF`) -/

/-- The loop `for i := range 4` of `renderFurniToGIF` from `i` on, with `steps`
rounds to go; `directions` holds the keys of `vis.Directions`. -/
def searchDirection (directions : List Int) (direction : Int) : Nat → Nat → Int
  | _, 0 => direction
  | i, steps + 1 =>
    let d := (2 + (i : Int) * 2) % 8
    if d ∈ directions then d else searchDirection directions direction (i + 1) steps

/-- The direction `renderFurniToGIF` passes to the imager for the requested direction. -/
def renderDirection (directions : List Int) (requested : Int) : Int :=
  if requested ∈ directions then requested else searchDirection directions requested 0 4

/-! ## The summary (`processNitroFile`, `processNitroArchive`) -/

/-- The outcome of a call that may end in a run-time panic instead of returning. -/
inductive Run (α : Type) where
  /-- The call returns `value`. -/
  | returned (value : α)
  /-- The call panics (index out of range, nil pointer dereference). -/
  | panicked
  deriving DecidableEq

/-- Go `type FurniInfo struct`. -/
structure FurniInfo where
  Name : GoString
  Directions : List Int
  States : List Int
  Colors : List Int
  Size : Int
  LayerCount : Int
  HasAnimation : Bool
  deriving DecidableEq

/-- The byte `/`. -/
def slash : Byte := 47

/-- The byte `.`. -/
def dot : Byte := 46

/-- The scan behind `lastIndex`: `i` is the index of the head of the list, `found`
the index of the last occurrence before it. -/
def lastIndexFrom (c : Byte) : List Byte → Nat → Int → Int
  | [], _, found => found
  | b :: rest, i, found => lastIndexFrom c rest (i + 1) (if b = c then (i : Int) else found)

/-- Go `strings.LastIndex(s, sep)` for a separator of one byte: the index of its
last occurrence in `s`, or `-1`. -/
def lastIndex (s : GoString) (c : Byte) : Int := lastIndexFrom c s 0 (-1)

/-- Go `s[i:]`; an index outside `0 .. len(s)` panics. -/
def sliceFrom (s : GoString) (i : Int) : Run GoString :=
  if 0 ≤ i ∧ i ≤ (s.length : Int) then .returned (s.drop i.toNat) else .panicked

/-- Go `s[:j]`; an index outside `0 .. len(s)` panics. -/
def sliceTo (s : GoString) (j : Int) : Run GoString :=
  if 0 ≤ j ∧ j ≤ (s.length : Int) then .returned (s.take j.toNat) else .panicked

/-- Go `getFileNameWithoutExt`. -/
def getFileNameWithoutExt (filepath : GoString) : Run GoString :=
  match sliceFrom filepath (lastIndex filepath slash + 1) with
  | .panicked => .panicked
  | .returned base =>
    if lastIndex base dot > 0 then sliceTo base (lastIndex base dot) else .returned base

/-- Go `sort.Ints`: the list in ascending order. -/
def sortInts (l : List Int) : List Int := l.insertionSort (fun a b => a ≤ b)

/-- The loops of `processNitroArchive` over the keys of a map: the keys that
`strconv.Atoi` (the parameter `atoi`) converts are appended to `ids`, in the
order in which the map is visited. -/
def appendKeys {V : Type} (atoi : GoString → Option Int) (ids : List Int) :
    List (GoString × V) → List Int
  | [] => ids
  | (key, _) :: rest =>
    match atoi key with
    | some id => appendKeys atoi (ids ++ [id]) rest
    | none => appendKeys atoi ids rest

/-- The loop of `processNitroArchive` that searches the main JSON file, over the
files in visiting order: the values of `furniData` and `info.Name` when the loop
ends.  The test `furniData.Name != ""` after a call of `json.Unmarshal` that
returned no error panics when `furniData` is nil. -/
def searchFurniData {P : Type} (J : Json P) :
    List (GoString × NitroFile) → Option NitroFurni → Run (Option NitroFurni × GoString)
  | [], furniData => .returned (furniData, [])
  | (name, file) :: rest, furniData =>
    if hasSuffix name dotJson then
      match J.unmarshalPtr file.Data furniData with
      | (furniData', some _) => searchFurniData J rest furniData'
      | (none, none) => .panicked
      | (some furni, none) =>
        if furni.Name ≠ [] then .returned (some furni, furni.Name)
        else searchFurniData J rest (some furni)
    else searchFurniData J rest furniData

/-- The body of the loop of `processNitroArchive` over the visualizations, on the
state `(maxSize, info)`. -/
def summarizeVisualization (atoi : GoString → Option Int) (R : GoRange)
    (state : Int × FurniInfo) (vis : NitroVisualization) : Int × FurniInfo :=
  let maxSize := state.1
  let info := state.2
  let sized : Int × FurniInfo :=
    if vis.Size > maxSize then
      (vis.Size, { info with Size := vis.Size, LayerCount := vis.LayerCount })
    else (maxSize, info)
  let info := sized.2
  let info := { info with Directions := appendKeys atoi info.Directions (R _ vis.Directions) }
  let info := { info with Colors := appendKeys atoi info.Colors (R _ vis.Colors) }
  let info := { info with States := appendKeys atoi info.States (R _ vis.Animations) }
  let info := if vis.Animations.length > 0 then { info with HasAnimation := true } else info
  (sized.1, info)

/-- The part of `processNitroArchive` after the search, for the document `furni`
that `furniData` points to and the `info` filled so far. -/
def summarize (atoi : GoString → Option Int) (R : GoRange) (furni : NitroFurni)
    (info : FurniInfo) : FurniInfo :=
  let info := (furni.Visualizations.foldl (summarizeVisualization atoi R) (0, info)).2
  let info :=
    if info.Directions.length = 0 ∧ furni.Logic.Model.Directions.length > 0 then
      { info with Directions := furni.Logic.Model.Directions }
    else info
  let info :=
    if info.Directions.length = 0 then { info with Directions := [0, 2, 4, 6] } else info
  let info :=
    { info with Directions := sortInts info.Directions, States := sortInts info.States,
                Colors := sortInts info.Colors }
  let info := if info.States.length = 0 then { info with States := [0] } else info
  if info.Colors.length = 0 then { info with Colors := [0] } else info

/-- Go `processNitroArchive`; `order` is the order in which `range archive.Files`
visits the files, `atoi` is `strconv.Atoi`. -/
def processNitroArchive {P : Type} (J : Json P) (atoi : GoString → Option Int) (R : GoRange)
    (order : List (GoString × NitroFile)) : Run (FurniInfo × Option Error) :=
  let info : FurniInfo :=
    { Name := [], Directions := [], States := [], Colors := [], Size := 0, LayerCount := 0,
      HasAnimation := false }
  match searchFurniData J order none with
  | .panicked => .panicked
  | .returned (none, name) => .returned ({ info with Name := name }, none)
  | .returned (some furni, name) =>
    .returned (summarize atoi R furni { info with Name := name }, none)

/-- Go `processNitroFile`; `range archive` is the order in which `range archive.Files`
visits the files of the archive that was loaded. -/
def processNitroFile {P : Type} (z : Zlib) (J : Json P) (atoi : GoString → Option Int)
    (R : GoRange) (fs : FileSystem) (filepath : GoString)
    (range : NitroArchive → List (GoString × NitroFile)) : Run (Except Error FurniInfo) :=
  match loadNitroArchive z fs filepath with
  | .error e => .returned (.error e)
  | .ok archive =>
    match processNitroArchive J atoi R (range archive) with
    | .panicked => .panicked
    | .returned (_, some e) => .returned (.error e)
    | .returned (info, none) =>
      if info.Name = [] then
        match getFileNameWithoutExt filepath with
        | .panicked => .panicked
        | .returned name => .returned (.ok { info with Name := name })
      else .returned (.ok info)

/-- The value of a string of decimal digits; `none` when a byte is not a digit. -/
def digitsValue : List Byte → Nat → Option Nat
  | [], value => some value
  | b :: rest, value =>
    if 48 ≤ b.val ∧ b.val ≤ 57 then digitsValue rest (value * 10 + (b.val - 48)) else none

/-- A conversion with the interface of `strconv.Atoi`: an optional sign and at
least one decimal digit, the value within the range of a 64-bit `int`. -/
def decimalAtoi (s : GoString) : Option Int :=
  let digits : List Byte := match s with
    | 43 :: rest => rest
    | 45 :: rest => rest
    | _ => s
  let negative : Bool := match s with
    | 45 :: _ => true
    | _ => false
  if digits = [] then none
  else
    match digitsValue digits 0 with
    | none => none
    | some value =>
      if negative then (if value ≤ 9223372036854775808 then some (-(value : Int)) else none)
      else (if value < 9223372036854775808 then some (value : Int) else none)

/-- The keys of a map that `atoi` converts, as integers. -/
def integerKeys {V : Type} (atoi : GoString → Option Int) (m : List (GoString × V)) : List Int :=
  m.filterMap (fun e => atoi e.1)

/-- The `FurniInfo` with which `processNitroArchive` starts. -/
def emptyInfo : FurniInfo :=
  { Name := [], Directions := [], States := [], Colors := [], Size := 0, LayerCount := 0,
    HasAnimation := false }

/-! ## Concrete archives

Inputs on which the definitions are evaluated. -/

/-- An archive of two entries, `a` with payload `01 02` and `b` with an empty payload. -/
def wArchive : NitroArchive :=
  { Files := [([97], { Name := [97], Data := [1, 2] }), ([98], { Name := [98], Data := [] })] }

/-- A visiting order of `wArchive`: `b` first. -/
def wOrder : List (GoString × NitroFile) :=
  [([98], { Name := [98], Data := [] }), ([97], { Name := [97], Data := [1, 2] })]

/-- A name of 65536 bytes, one more than a 16-bit length can express. -/
def longName : GoString := List.replicate 65536 97

/-- An archive whose only entry has the name `longName` and an empty payload. -/
def longNameArchive : NitroArchive := { Files := [(longName, { Name := longName, Data := [] })] }

/-- The files numbered `0 .. n - 1`: the name of file `i` is the two bytes of `i`,
the payload is empty. -/
def numberedFiles (n : Nat) : List (GoString × NitroFile) :=
  (List.range n).map fun i => (putUint16 i, { Name := putUint16 i, Data := [] })

/-- The zlib stream of the empty payload, as `storedDeflate []`. -/
def emptyStream : List Byte := [120, 1, 1, 0, 0, 255, 255, 0, 0, 0, 1]

/-- An entry whose length field announces 12 compressed bytes, of which 11 are there. -/
def shortEntry : List Byte := [0, 1, 97, 0, 0, 0, 12] ++ emptyStream

/-- An entry with a name of 4088 bytes whose length field announces 4097
compressed bytes: the zlib stream of the empty payload, then 4086 filler bytes. -/
def paddedEntry : List Byte :=
  [15, 248] ++ List.replicate 4088 97 ++ [0, 0, 16, 1] ++ emptyStream ++ List.replicate 4086 0

/-- A well-formed entry `b` with an empty payload. -/
def secondEntry : List Byte := [0, 1, 98, 0, 0, 0, 11] ++ emptyStream

/-- Three entries: `b` with an empty payload, `a` with an empty payload, `b` with payload `01 02`. -/
def dupEntries : List Byte :=
  secondEntry ++ ([0, 1, 97, 0, 0, 0, 11] ++ emptyStream)
    ++ [0, 1, 98, 0, 0, 0, 13, 120, 1, 1, 2, 0, 253, 255, 1, 2, 0, 6, 0, 4]

/-- The files of `dupEntries` in the order of the stream. -/
def dupFiles : List NitroFile :=
  [{ Name := [98], Data := [] }, { Name := [97], Data := [] }, { Name := [98], Data := [1, 2] }]

/-- Two entries: `b` with an empty payload, then `a` with an empty payload. -/
def twoEntries : List Byte := secondEntry ++ ([0, 1, 97, 0, 0, 0, 11] ++ emptyStream)

/-- The files of `twoEntries` in the order of the stream. -/
def twoFiles : List NitroFile := [{ Name := [98], Data := [] }, { Name := [97], Data := [] }]

/-- The JSON text `null`. -/
def jsonNull : List Byte := [110, 117, 108, 108]

/-- The JSON text `{}`. -/
def jsonEmptyObject : List Byte := [123, 125]

/-- A JSON library that knows two documents, `null` and `{}`, and reports a
syntax error for every other text; on these two it does what `encoding/json`
does.  A payload is given by the text it serialises to. -/
def tinyJson : Json (List Byte) where
  unmarshalPtr data p :=
    if data = jsonNull then (none, none)
    else if data = jsonEmptyObject then (some (p.getD NitroFurni.zero), none)
    else (p, some (.msg "invalid character"))
  unmarshal data s :=
    if data = jsonNull ∨ data = jsonEmptyObject then (s, none)
    else (s, some (.msg "invalid character"))
  marshal p := .ok p
  indent src :=
    if src = jsonNull ∨ src = jsonEmptyObject then .ok src
    else .error (.msg "invalid character")
  marshalFurni _ furni :=
    match furni with
    | none => .ok jsonNull
    | some _ => .error (.msg "unsupported")

/-- The name `a.json`. -/
def aJson : GoString := [97, 46, 106, 115, 111, 110]

/-- The bytes of an archive whose only entry is `a.json` with the content `null`. -/
def nullDocumentBytes : List Byte :=
  archiveLayout storedZlib 1 [{ Name := aJson, Data := jsonNull }]

/-- The bytes of an archive whose only entry is `a.json` with the content `{}`. -/
def emptyDocumentBytes : List Byte :=
  archiveLayout storedZlib 1 [{ Name := aJson, Data := jsonEmptyObject }]

/-- The library loaded from `emptyDocumentBytes`. -/
def emptyDocumentLibrary : NitroLibrary :=
  { Archive := { Files := [(aJson, { Name := aJson, Data := jsonEmptyObject })] },
    FilePath := [120], Furni := some NitroFurni.zero, OriginalJSON := some jsonEmptyObject }

/-- The name `b.json`. -/
def bJson : GoString := [98, 46, 106, 115, 111, 110]

/-- The bytes of an archive with two entries: `a.json` with the content `{}` and
`b.json` with the content `null`. -/
def twoDocumentsBytes : List Byte :=
  archiveLayout storedZlib 2
    [{ Name := aJson, Data := jsonEmptyObject }, { Name := bJson, Data := jsonNull }]

/-- The library loaded from `twoDocumentsBytes` when `a.json` is visited first. -/
def twoDocumentsLibrary : NitroLibrary :=
  { Archive := { Files := [(aJson, { Name := aJson, Data := jsonEmptyObject }),
                           (bJson, { Name := bJson, Data := jsonNull })] },
    FilePath := [120], Furni := some NitroFurni.zero, OriginalJSON := some jsonEmptyObject }

/-- The files of `twoDocumentsLibrary`, `b.json` first. -/
def twoDocumentsOrder : List (GoString × NitroFile) :=
  [(bJson, { Name := bJson, Data := jsonNull }), (aJson, { Name := aJson, Data := jsonEmptyObject })]

/-- A frame whose `spriteSourceSize` is at `(3, 7)`. -/
def sampleFrame : NitroSpriteFrame :=
  { Frame := { X := 0, Y := 0, W := 4, H := 4 }, Rotated := false, Trimmed := true,
    SpriteSourceSize := { X := 3, Y := 7, W := 4, H := 4 },
    SourceSize := { X := 0, Y := 0, W := 10, H := 12 }, Pivot := { X := 0, Y := 0 } }

/-- An asset at `(10, 5)` without a source. -/
def sampleAsset : NitroAsset := { Source := [], X := 10, Y := 5, FlipH := false, FlipV := false }

/-- A layer with the given `z`. -/
def sampleLayer (z : Int) : NitroLayer :=
  { Z := z, Alpha := 0, Ink := [], IgnoreMouse := false, Color := 0, X := 0, Y := 0 }

/-- A visualization of size 64 with one direction `0` that has one layer `0`
with the given `z`. -/
def sampleVisualization (z : Int) : NitroVisualization :=
  { Angle := 45, LayerCount := 1, Size := 64, Layers := [([48], sampleLayer 0)],
    Directions := [([48], { Id := 0, Layers := [([48], sampleLayer z)] })],
    Colors := [], Animations := [] }

/-- A document `f` with the assets `a` (its frame `f_a` is in the spritesheet)
and `b` (its frame is not), and one visualization. -/
def sampleFurni : NitroFurni :=
  { NitroFurni.zero with
    Name := [102],
    Assets := [([97], sampleAsset), ([98], sampleAsset)],
    Visualizations := [sampleVisualization 1],
    Spritesheet := { Frames := [([102, 95, 97], sampleFrame)], Meta := { Image := [] } } }

/-- A document with two visualizations of the same size 64. -/
def twinFurni : NitroFurni :=
  { NitroFurni.zero with
    Name := [102], Visualizations := [sampleVisualization 1, sampleVisualization 2] }

/-! ## Concrete documents for the summary -/

/-- The text
`{"name":"f","visualizations":[{"layerCount":3,"size":64,"directions":{"2":{},"0":{}},"animations":{"1":{}}}]}`. -/
def summaryDocument : List Byte :=
  [123, 34, 110, 97, 109, 101, 34, 58, 34, 102, 34, 44, 34, 118, 105, 115, 117, 97, 108, 105,
   122, 97, 116, 105, 111, 110, 115, 34, 58, 91, 123, 34, 108, 97, 121, 101, 114, 67, 111, 117,
   110, 116, 34, 58, 51, 44, 34, 115, 105, 122, 101, 34, 58, 54, 52, 44, 34, 100, 105, 114, 101,
   99, 116, 105, 111, 110, 115, 34, 58, 123, 34, 50, 34, 58, 123, 125, 44, 34, 48, 34, 58, 123,
   125, 125, 44, 34, 97, 110, 105, 109, 97, 116, 105, 111, 110, 115, 34, 58, 123, 34, 49, 34,
   58, 123, 125, 125, 125, 93, 125]

/-- The visualization of `summaryDocument`: size 64, three layers declared, the
directions `2` and `0`, the animation `1`. -/
def summaryVisualization : NitroVisualization :=
  { Angle := 0, LayerCount := 3, Size := 64, Layers := [],
    Directions := [([50], { Id := 0, Layers := [] }), ([48], { Id := 0, Layers := [] })],
    Colors := [],
    Animations := [([49], { Layers := [], TransitionTo := none })] }

/-- The document that `summaryDocument` describes. -/
def summaryFurni : NitroFurni :=
  { NitroFurni.zero with Name := [102], Visualizations := [summaryVisualization] }

/-- The text `{"visualizations":[{"layerCount":5}]}`. -/
def unsizedDocument : List Byte :=
  [123, 34, 118, 105, 115, 117, 97, 108, 105, 122, 97, 116, 105, 111, 110, 115, 34, 58, 91, 123,
   34, 108, 97, 121, 101, 114, 67, 111, 117, 110, 116, 34, 58, 53, 125, 93, 125]

/-- The visualization of `unsizedDocument`: five layers declared, no size. -/
def unsizedVisualization : NitroVisualization :=
  { Angle := 0, LayerCount := 5, Size := 0, Layers := [], Directions := [], Colors := [],
    Animations := [] }

/-- The document that `unsizedDocument` describes. -/
def unsizedFurni : NitroFurni :=
  { NitroFurni.zero with Visualizations := [unsizedVisualization] }

/-- A JSON library that knows `summaryDocument` and `unsizedDocument` besides the
two documents of `tinyJson`.  Decoded through a nil pointer these two give
`summaryFurni` and `unsizedFurni`, as with `encoding/json`; decoded into a
document that exists, their fields replace the fields of that document. -/
def summaryJson : Json (List Byte) where
  unmarshalPtr data p :=
    if data = summaryDocument then
      (some { p.getD NitroFurni.zero with
              Name := summaryFurni.Name, Visualizations := summaryFurni.Visualizations }, none)
    else if data = unsizedDocument then
      (some { p.getD NitroFurni.zero with Visualizations := unsizedFurni.Visualizations }, none)
    else tinyJson.unmarshalPtr data p
  unmarshal := tinyJson.unmarshal
  marshal := tinyJson.marshal
  indent := tinyJson.indent
  marshalFurni := tinyJson.marshalFurni

/-- The files of an archive whose only entry is `a.json` with the given content. -/
def oneDocument (data : List Byte) : List (GoString × NitroFile) :=
  [(aJson, { Name := aJson, Data := data })]

/-- The path `c.nitro`. -/
def cNitro : GoString := [99, 46, 110, 105, 116, 114, 111]

/-- A base layer whose fields have pairwise distinct values. -/
def shiftedBaseLayer : NitroLayer :=
  { Z := 1, Alpha := 2, Ink := [65], IgnoreMouse := true, Color := 3, X := 4, Y := 5 }

/-- A layer of a direction whose fields differ from those of `shiftedBaseLayer`. -/
def shiftedDirectionLayer : NitroLayer :=
  { Z := 11, Alpha := 12, Ink := [66], IgnoreMouse := false, Color := 13, X := 14, Y := 15 }

/-- A direction whose only layer `0` is `shiftedDirectionLayer`. -/
def shiftedDirection : NitroDirection := { Id := 0, Layers := [([48], shiftedDirectionLayer)] }

/-- A visualization of size 64 with the base layer `0` and the direction `0`. -/
def shiftedVisualization : NitroVisualization :=
  { Angle := 45, LayerCount := 1, Size := 64, Layers := [([48], shiftedBaseLayer)],
    Directions := [([48], shiftedDirection)], Colors := [], Animations := [] }

/-- A document whose only visualization is `shiftedVisualization`. -/
def shiftedFurni : NitroFurni :=
  { NitroFurni.zero with Name := [102], Visualizations := [shiftedVisualization] }

/-- The text `{"visualizations":[{"directions":{"2":{},"02":{}}}]}`. -/
def repeatedDocument : List Byte :=
  [123, 34, 118, 105, 115, 117, 97, 108, 105, 122, 97, 116, 105, 111, 110, 115, 34, 58, 91, 123,
   34, 100, 105, 114, 101, 99, 116, 105, 111, 110, 115, 34, 58, 123, 34, 50, 34, 58, 123, 125,
   44, 34, 48, 50, 34, 58, 123, 125, 125, 125, 93, 125]

/-- The visualization of `repeatedDocument`: the direction keys `2` and `02`. -/
def repeatedVisualization : NitroVisualization :=
  { Angle := 0, LayerCount := 0, Size := 0, Layers := [],
    Directions := [([50], { Id := 0, Layers := [] }), ([48, 50], { Id := 0, Layers := [] })],
    Colors := [], Animations := [] }

/-- The document that `repeatedDocument` describes. -/
def repeatedFurni : NitroFurni :=
  { NitroFurni.zero with Visualizations := [repeatedVisualization] }

/-- A JSON library that knows `repeatedDocument` besides the documents of
`summaryJson`; decoded through a nil pointer it gives `repeatedFurni`, as with
`encoding/json`. -/
def repeatedJson : Json (List Byte) where
  unmarshalPtr data p :=
    if data = repeatedDocument then
      (some { p.getD NitroFurni.zero with Visualizations := repeatedFurni.Visualizations }, none)
    else summaryJson.unmarshalPtr data p
  unmarshal := summaryJson.unmarshal
  marshal := summaryJson.marshal
  indent := summaryJson.indent
  marshalFurni := summaryJson.marshalFurni

/-! # Theorems -/

/-! ## Lemmas on the codec -/

theorem byteOf_val (n : Nat) : (byteOf n).val = n % 256 := rfl

theorem readShort_putUint16 (v : Nat) (hv : v < 65536) (rest : List Byte) :
    readShort (putUint16 v ++ rest) = .ok (v, rest) := by
  simp only [putUint16, List.cons_append, List.nil_append, readShort, byteOf_val]
  congr 2
  omega

theorem readInt_putUint32 (v : Nat) (hv : v < 4294967296) (rest : List Byte) :
    readInt (putUint32 v ++ rest) = .ok (v, rest) := by
  simp only [putUint32, List.cons_append, List.nil_append, readInt, byteOf_val]
  congr 2
  omega

theorem readFull_append (l rest : List Byte) :
    readFull (l ++ rest) l.length = .ok (l, rest) := by
  simp [readFull]

theorem readString_append (name rest : List Byte) (h : name.length < 65536) :
    readString (putUint16 (uint16 name.length) ++ (name ++ rest)) = .ok (name, rest) := by
  have h1 : uint16 name.length = name.length := Nat.mod_eq_of_lt h
  simp only [readString, h1, readShort_putUint16 _ h, readFull_append]

theorem bigEndian_two (n : Nat) : bigEndian 2 n = putUint16 (uint16 n) := by
  simp only [bigEndian, putUint16, uint16, List.nil_append, List.singleton_append]
  have h1 : byteOf (n / 256) = byteOf (n % 65536 / 256) := by
    apply Fin.ext; simp only [byteOf_val]; omega
  have h2 : byteOf n = byteOf (n % 65536) := by
    apply Fin.ext; simp only [byteOf_val]; omega
  rw [← h1, ← h2]

theorem bigEndian_four (n : Nat) : bigEndian 4 n = putUint32 (uint32 n) := by
  simp only [bigEndian, putUint32, uint32, List.nil_append, List.singleton_append, List.cons_append]
  have h0 : byteOf (n / 256 / 256 / 256) = byteOf (n % 4294967296 / 16777216) := by
    apply Fin.ext; simp only [byteOf_val]; omega
  have h1 : byteOf (n / 256 / 256) = byteOf (n % 4294967296 / 65536) := by
    apply Fin.ext; simp only [byteOf_val]; omega
  have h2 : byteOf (n / 256) = byteOf (n % 4294967296 / 256) := by
    apply Fin.ext; simp only [byteOf_val]; omega
  have h3 : byteOf n = byteOf (n % 4294967296) := by
    apply Fin.ext; simp only [byteOf_val]; omega
  rw [← h0, ← h1, ← h2, ← h3]

theorem writeFile_eq (z : Zlib) (buffer : List Byte) (file : NitroFile) :
    writeFile z buffer file = buffer ++ entryLayout z file := by
  simp only [writeFile, entryLayout, bigEndian_two, bigEndian_four, List.append_assoc]

theorem foldl_writeFile (z : Zlib) (order : List (GoString × NitroFile)) (buffer : List Byte) :
    order.foldl (fun buffer e => writeFile z buffer e.2) buffer
      = buffer ++ ((order.map Prod.snd).map (entryLayout z)).flatten := by
  induction order generalizing buffer with
  | nil => simp
  | cons e t ih =>
    rw [List.foldl_cons, ih, writeFile_eq]
    simp only [List.map_cons, List.flatten_cons, List.append_assoc]

theorem createNitroArchive_layout (z : Zlib) (archive : NitroArchive)
    (order : List (GoString × NitroFile)) :
    createNitroArchive z archive order
      = .ok (archiveLayout z archive.Files.length (order.map Prod.snd)) := by
  simp only [createNitroArchive, archiveLayout, foldl_writeFile, bigEndian_two]

theorem ReadFile_entryLayout (z : Zlib) (f : NitroFile) (rest : List Byte)
    (hn : f.Name.length < 65536) (hl : (z.deflate f.Data).length < 4294967296)
    (hz : z.Inverts f.Data) :
    ReadFile z (entryLayout z f ++ rest) = .ok (f, rest) := by
  have h2 : uint32 (z.deflate f.Data).length = (z.deflate f.Data).length := Nat.mod_eq_of_lt hl
  simp only [ReadFile, entryLayout, bigEndian_two, bigEndian_four, List.append_assoc,
    readString_append _ _ hn, h2, readInt_putUint32 _ hl, List.take_left, show z.inflate _ = _ from hz, List.drop_left]

theorem readFiles_layout (z : Zlib) (fs : List NitroFile) (acc : NitroArchive) (rest : List Byte)
    (hn : ∀ f ∈ fs, f.Name.length < 65536)
    (hl : ∀ f ∈ fs, (z.deflate f.Data).length < 4294967296)
    (hz : ∀ f ∈ fs, z.Inverts f.Data) :
    readFiles z fs.length acc ((fs.map (entryLayout z)).flatten ++ rest)
      = ({ Files := fs.foldl (fun m f => mapSet m f.Name f) acc.Files }, none, rest) := by
  induction fs generalizing acc with
  | nil => simp [readFiles]
  | cons f t ih =>
    have hf := ReadFile_entryLayout z f ((t.map (entryLayout z)).flatten ++ rest)
      (hn f (List.mem_cons_self _ _)) (hl f (List.mem_cons_self _ _)) (hz f (List.mem_cons_self _ _))
    simp only [List.length_cons, List.map_cons, List.flatten_cons, List.append_assoc, readFiles, hf,
      List.foldl_cons]
    exact ih _ (fun g hg => hn g (List.mem_cons_of_mem _ hg))
      (fun g hg => hl g (List.mem_cons_of_mem _ hg)) (fun g hg => hz g (List.mem_cons_of_mem _ hg))

theorem mapSet_of_not_mem {K V : Type} [DecidableEq K] (m : List (K × V)) (k : K) (v : V)
    (h : k ∉ m.map Prod.fst) : mapSet m k v = m ++ [(k, v)] := by
  induction m with
  | nil => rfl
  | cons e t ih =>
    obtain ⟨k', v'⟩ := e
    simp only [List.map_cons, List.mem_cons, not_or] at h
    have hne : ¬ k' = k := fun h' => h.1 h'.symm
    simp only [mapSet, hne, if_false, ih h.2, List.cons_append]

theorem foldl_mapSet_nodup {K V : Type} [DecidableEq K] (es : List (K × V)) (m : List (K × V))
    (h : (m ++ es).map Prod.fst |>.Nodup) :
    es.foldl (fun m e => mapSet m e.1 e.2) m = m ++ es := by
  induction es generalizing m with
  | nil => simp
  | cons e t ih =>
    have hnot : e.1 ∉ m.map Prod.fst := by
      intro hmem
      rw [List.map_append, List.map_cons] at h
      have := (List.nodup_append.1 h).2.2 hmem (List.mem_cons_self _ _)
      exact this
    rw [List.foldl_cons, mapSet_of_not_mem _ _ _ hnot, ih]
    · simp
    · simpa using h

theorem mapGet_perm {K V : Type} [DecidableEq K] {l₁ l₂ : List (K × V)} (p : l₁.Perm l₂)
    (h : MapOK l₁) (k : K) : mapGet l₁ k = mapGet l₂ k := by
  induction p with
  | nil => rfl
  | cons x _ ih =>
    obtain ⟨k', v'⟩ := x
    simp only [MapOK, List.map_cons, List.nodup_cons] at h
    simp only [mapGet, ih h.2]
  | swap x y l =>
    obtain ⟨kx, vx⟩ := x
    obtain ⟨ky, vy⟩ := y
    simp only [MapOK, List.map_cons, List.nodup_cons, List.mem_cons, not_or] at h
    simp only [mapGet]
    by_cases h1 : ky = k
    · have h2 : ¬ kx = k := fun h' => h.1.1 (h1.trans h'.symm)
      simp [h1, h2]
    · simp [h1]
  | trans p₁ _ ih₁ ih₂ =>
    have h' : MapOK _ := (List.Perm.nodup_iff (p₁.map Prod.fst)).1 h
    rw [ih₁ h, ih₂ h']

theorem foldl_mapSet_keyed (order : List (GoString × NitroFile))
    (hkey : ∀ e ∈ order, e.2.Name = e.1) (m : List (GoString × NitroFile)) :
    (order.map Prod.snd).foldl (fun m f => mapSet m f.Name f) m
      = order.foldl (fun m e => mapSet m e.1 e.2) m := by
  induction order generalizing m with
  | nil => rfl
  | cons e t ih =>
    simp only [List.map_cons, List.foldl_cons, hkey e (List.mem_cons_self _ _)]
    exact ih (fun g hg => hkey g (List.mem_cons_of_mem _ hg)) _

/-- C1 (amended).  Round trip: for every archive that is keyed by entry name,
has fewer than 65536 entries, names shorter than 65536 bytes and compressed
payloads shorter than 2^32 bytes, and for every order in which `range` visits
its files, `createNitroArchive` returns bytes that `ReadArchive` decodes
without error into an archive with the same entries: the same names and, under
each name, the same file (zlib inflate taken as the inverse of zlib deflate on
the payloads of the archive). -/
theorem createNitroArchive_ReadArchive_roundtrip (z : Zlib) (a : NitroArchive)
    (order : List (GoString × NitroFile))
    (hmap : MapOK a.Files) (hkey : KeyedByName a) (hrange : RangeOf a.Files order)
    (hcount : a.Files.length < 65536)
    (hname : ∀ e ∈ a.Files, e.2.Name.length < 65536)
    (hlen : ∀ e ∈ a.Files, (z.deflate e.2.Data).length < 4294967296)
    (hz : ∀ e ∈ a.Files, z.Inverts e.2.Data) :
    ∃ bytes a', createNitroArchive z a order = .ok bytes ∧ ReadArchive z bytes = (a', none) ∧
      MapOK a'.Files ∧ a'.Files.Perm a.Files ∧ ∀ k, mapGet a'.Files k = mapGet a.Files k := by
  have hperm : order.Perm a.Files := hrange
  have hmem : ∀ f ∈ order.map Prod.snd, ∃ e ∈ a.Files, e.2 = f := by
    intro f hf
    obtain ⟨e, he, rfl⟩ := List.mem_map.1 hf
    exact ⟨e, hperm.mem_iff.1 he, rfl⟩
  have hlen' : a.Files.length = (order.map Prod.snd).length := by
    rw [List.length_map, hperm.length_eq]
  have hdec := readFiles_layout z (order.map Prod.snd) { Files := [] } []
    (fun f hf => by obtain ⟨e, he, rfl⟩ := hmem f hf; exact hname e he)
    (fun f hf => by obtain ⟨e, he, rfl⟩ := hmem f hf; exact hlen e he)
    (fun f hf => by obtain ⟨e, he, rfl⟩ := hmem f hf; exact hz e he)
  have hord : MapOK order := (List.Perm.nodup_iff (hperm.map Prod.fst)).2 hmap
  have hfold : (order.map Prod.snd).foldl (fun m f => mapSet m f.Name f) [] = order := by
    rw [foldl_mapSet_keyed order (fun e he => hkey e (hperm.mem_iff.1 he)),
      foldl_mapSet_nodup order [] (by simpa using hord)]
    rfl
  refine ⟨archiveLayout z a.Files.length (order.map Prod.snd), { Files := order },
    createNitroArchive_layout z a order, ?_, hord, hperm, fun k => mapGet_perm hperm hord k⟩
  have hc : uint16 a.Files.length = a.Files.length := Nat.mod_eq_of_lt hcount
  rw [List.append_nil] at hdec
  simp only [ReadArchive, archiveLayout, bigEndian_two, hc, readShort_putUint16 _ hcount]
  rw [hlen', hdec, hfold]

theorem bigEndian_two_value (n : Nat) (h : n < 65536) :
    (bigEndian 2 n).length = 2 ∧ bigEndianValue (bigEndian 2 n) = n := by
  refine ⟨by simp [bigEndian], ?_⟩
  simp only [bigEndian, bigEndianValue, List.nil_append, List.singleton_append, List.foldl_cons,
    List.foldl_nil, byteOf_val]
  omega

theorem bigEndian_four_value (n : Nat) (h : n < 4294967296) :
    (bigEndian 4 n).length = 4 ∧ bigEndianValue (bigEndian 4 n) = n := by
  refine ⟨by simp [bigEndian], ?_⟩
  simp only [bigEndian, bigEndianValue, List.nil_append, List.singleton_append, List.cons_append,
    List.foldl_cons, List.foldl_nil, byteOf_val]
  omega

/-- C3 (amended).  Encoded layout: for every archive with fewer than 65536
entries and every emission order in which the names are shorter than 65536
bytes and the zlib-compressed data shorter than 2^32 bytes, the bytes
`createNitroArchive` returns are a 2-byte field that denotes, as a big-endian
number, the number of entries of the collection, followed for each entry in
emission order by a 2-byte field that denotes the length of its name, the name
bytes, a 4-byte field that denotes the length of the compressed data, and the
compressed data; nothing else is written and no error is returned. -/
theorem createNitroArchive_encoded_layout (z : Zlib) (archive : NitroArchive)
    (order : List (GoString × NitroFile))
    (hcount : archive.Files.length < 65536)
    (hname : ∀ e ∈ order, e.2.Name.length < 65536)
    (hdata : ∀ e ∈ order, (z.deflate e.2.Data).length < 4294967296) :
    createNitroArchive z archive order
        = .ok (bigEndian 2 archive.Files.length
            ++ (order.map (fun e => bigEndian 2 e.2.Name.length ++ e.2.Name
                  ++ bigEndian 4 (z.deflate e.2.Data).length ++ z.deflate e.2.Data)).flatten)
      ∧ (bigEndian 2 archive.Files.length).length = 2
      ∧ bigEndianValue (bigEndian 2 archive.Files.length) = archive.Files.length
      ∧ ∀ e ∈ order,
          (bigEndian 2 e.2.Name.length).length = 2
            ∧ bigEndianValue (bigEndian 2 e.2.Name.length) = e.2.Name.length
            ∧ (bigEndian 4 (z.deflate e.2.Data).length).length = 4
            ∧ bigEndianValue (bigEndian 4 (z.deflate e.2.Data).length)
                = (z.deflate e.2.Data).length := by
  refine ⟨?_, (bigEndian_two_value _ hcount).1, (bigEndian_two_value _ hcount).2, ?_⟩
  · rw [createNitroArchive_layout]
    simp only [archiveLayout, entryLayout, List.map_map]
    rfl
  · intro e he
    exact ⟨(bigEndian_two_value _ (hname e he)).1, (bigEndian_two_value _ (hname e he)).2,
      (bigEndian_four_value _ (hdata e he)).1, (bigEndian_four_value _ (hdata e he)).2⟩

/-- Witness of C3 (amended): the archive `wArchive`, written in the order `wOrder`
with the storing zlib codec. -/
theorem createNitroArchive_encoded_layout_witness :
    createNitroArchive storedZlib wArchive wOrder
        = .ok (bigEndian 2 wArchive.Files.length
            ++ (wOrder.map (fun e => bigEndian 2 e.2.Name.length ++ e.2.Name
                  ++ bigEndian 4 (storedZlib.deflate e.2.Data).length
                  ++ storedZlib.deflate e.2.Data)).flatten)
      ∧ (bigEndian 2 wArchive.Files.length).length = 2
      ∧ bigEndianValue (bigEndian 2 wArchive.Files.length) = wArchive.Files.length
      ∧ ∀ e ∈ wOrder,
          (bigEndian 2 e.2.Name.length).length = 2
            ∧ bigEndianValue (bigEndian 2 e.2.Name.length) = e.2.Name.length
            ∧ (bigEndian 4 (storedZlib.deflate e.2.Data).length).length = 4
            ∧ bigEndianValue (bigEndian 4 (storedZlib.deflate e.2.Data).length)
                = (storedZlib.deflate e.2.Data).length :=
  createNitroArchive_encoded_layout storedZlib wArchive wOrder (by decide) (by decide)
    (by decide)

/-- C4.  Empty archive: `createNitroArchive` on an archive without entries (whose
only visiting order is the empty one) returns exactly the bytes `00 00`, and
`ReadArchive` on the bytes `00 00` succeeds with an archive without entries. -/
theorem empty_archive (z : Zlib) :
    createNitroArchive z { Files := [] } [] = .ok [0, 0]
      ∧ ReadArchive z [0, 0] = ({ Files := [] }, none) := by
  constructor <;> rfl


/-- Witness of C1: the round trip of `wArchive`, written in the order `wOrder`,
with the storing zlib codec. -/
theorem createNitroArchive_ReadArchive_roundtrip_witness :
    ∃ bytes a', createNitroArchive storedZlib wArchive wOrder = .ok bytes
      ∧ ReadArchive storedZlib bytes = (a', none)
      ∧ MapOK a'.Files ∧ a'.Files.Perm wArchive.Files
      ∧ ∀ k, mapGet a'.Files k = mapGet wArchive.Files k :=
  createNitroArchive_ReadArchive_roundtrip storedZlib wArchive wOrder (by decide) (by decide)
    (by decide) (by decide) (by decide) (by decide) (by decide)


theorem longName_eq : longName = 97 :: 97 :: 97 :: 97 :: 97 :: 97 :: List.replicate 65530 97 := by
  unfold longName
  rw [show (65536 : Nat) = 65530 + 1 + 1 + 1 + 1 + 1 + 1 from rfl]
  rw [List.replicate_succ, List.replicate_succ, List.replicate_succ, List.replicate_succ,
    List.replicate_succ, List.replicate_succ]

theorem storedInflate_bad_header (cmf flg : Byte) (body : List Byte) (h : cmf.val % 16 ≠ 8) :
    storedInflate (cmf :: flg :: body) = none := by
  simp [storedInflate, h]

theorem ReadFile_of_header (z : Zlib) (inp : List Byte) (name : GoString) (rest : List Byte)
    (length : Nat) (rest' : List Byte) (h1 : readString inp = .ok (name, rest))
    (h2 : readInt rest = .ok (length, rest')) :
    ReadFile z inp = match z.inflate (rest'.take length) with
      | none => .error .zlib
      | some (data, taken) => .ok ({ Name := name, Data := data }, rest'.drop taken) := by
  simp only [ReadFile, h1, h2]

theorem longName_length : longName.length = 65536 := List.length_replicate _ _
theorem bigEndian_longName_length : bigEndian 2 longName.length = [0, 0] := by rw [longName_length]; decide
theorem readInt_longName : ∀ rest : List Byte, readInt (longName ++ rest)
      = .ok (1633771873, 97 :: 97 :: (List.replicate 65530 97 ++ rest)) := by
    intro rest; rw [longName_eq]; rfl
theorem storedInflate_longName_tail : ∀ (n : Nat) (rest : List Byte),
      storedInflate ((97 :: 97 :: (List.replicate 65530 97 ++ rest)).take (n + 2)) = none := by
    intro n rest
    rw [List.take_succ_cons, List.take_succ_cons]
    exact storedInflate_bad_header _ _ _ (by decide)
theorem readString_zero_length : ∀ rest : List Byte, readString (0 :: 0 :: rest) = .ok ([], rest) := by
    intro rest; simp [readString, readShort, readFull]
theorem ReadFile_longName : ∀ rest : List Byte, ReadFile storedZlib (0 :: 0 :: (longName ++ rest)) = .error .zlib := by
    intro rest
    rw [ReadFile_of_header storedZlib _ _ _ _ _ (readString_zero_length _) (readInt_longName _),
      show (1633771873 : Nat) = 1633771871 + 2 from rfl]
    simp only [storedZlib, storedInflate_longName_tail]
theorem archiveLayout_longNameArchive : archiveLayout storedZlib longNameArchive.Files.length (longNameArchive.Files.map Prod.snd) = 0 :: 1 :: 0 :: 0 :: (longName ++ (bigEndian 4 (storedDeflate []).length ++ storedDeflate [])) := by
  simp only [longNameArchive, archiveLayout, entryLayout, List.map_cons, List.map_nil,
    List.flatten_cons, List.flatten_nil, List.append_nil, List.length_singleton, bigEndian_longName_length, 
    List.cons_append, List.nil_append, List.append_assoc, storedZlib]
  rfl
theorem ReadArchive_longName (X : List Byte) : ReadArchive storedZlib (0 :: 1 :: 0 :: 0 :: (longName ++ X)) = ({ Files := [] }, some Error.zlib) := by
  simp only [ReadArchive, readShort]
  simp only [readFiles, ReadFile_longName]

/-- Counterexample of C1 as stated: the archive `longNameArchive` is keyed by name
and its payload survives deflate and inflate, but its name has 65536 bytes; the
name length is written as `00 00`, and `ReadArchive` on the bytes that
`createNitroArchive` returns ends with an error of the zlib reader and an
archive without entries. -/
theorem roundtrip_fails_on_long_name :
    MapOK longNameArchive.Files ∧ KeyedByName longNameArchive
      ∧ RangeOf longNameArchive.Files longNameArchive.Files
      ∧ storedZlib.Inverts []
      ∧ ∃ bytes, createNitroArchive storedZlib longNameArchive longNameArchive.Files = .ok bytes
          ∧ ReadArchive storedZlib bytes = ({ Files := [] }, some Error.zlib) := by
  refine ⟨by simp [MapOK, longNameArchive], by simp [KeyedByName, longNameArchive], List.Perm.refl _, by decide, _, createNitroArchive_layout _ _ _, ?_⟩
  rw [archiveLayout_longNameArchive]
  exact ReadArchive_longName _

/-- Counterexample of C3 as stated: the only entry of `longNameArchive` has a
name of 65536 bytes, and the name length field that `createNitroArchive` writes
is `00 00`, which denotes 0. -/
theorem name_length_field_of_long_name :
    longNameArchive.Files = [(longName, { Name := longName, Data := [] })]
      ∧ longName.length = 65536
      ∧ createNitroArchive storedZlib longNameArchive longNameArchive.Files
          = .ok (0 :: 1 :: 0 :: 0 ::
              (longName ++ (bigEndian 4 (storedDeflate []).length ++ storedDeflate [])))
      ∧ bigEndianValue [0, 0] = 0 := by
  refine ⟨rfl, longName_length, ?_, rfl⟩
  rw [createNitroArchive_layout, archiveLayout_longNameArchive]

theorem readShort_take_short (l : List Byte) (k : Nat) (hk : k < 2) :
    ∃ e, readShort (l.take k) = .error e := by
  have h : (l.take k).length < 2 := by
    rw [List.length_take]; omega
  match hl : l.take k, h with
  | [], _ => exact ⟨_, rfl⟩
  | [_], _ => exact ⟨_, rfl⟩
  | _ :: _ :: _, h => simp only [List.length_cons] at h; omega

theorem readInt_take_short (l : List Byte) (k : Nat) (hk : k < 4) :
    ∃ e, readInt (l.take k) = .error e := by
  have h : (l.take k).length < 4 := by
    rw [List.length_take]; omega
  match hl : l.take k, h with
  | [], _ => exact ⟨_, rfl⟩
  | [_], _ => exact ⟨_, rfl⟩
  | [_, _], _ => exact ⟨_, rfl⟩
  | [_, _, _], _ => exact ⟨_, rfl⟩
  | _ :: _ :: _ :: _ :: _, h => simp only [List.length_cons] at h; omega

theorem readFull_short (inp : List Byte) (n : Nat) (h : inp.length < n) :
    ∃ e, readFull inp n = .error e := by
  unfold readFull
  rw [if_neg (by omega)]
  split <;> exact ⟨_, rfl⟩

theorem take_append_ge {α : Type} (l₁ l₂ : List α) (k : Nat) (h : l₁.length ≤ k) :
    (l₁ ++ l₂).take k = l₁ ++ l₂.take (k - l₁.length) := by
  rw [List.take_append_eq_append_take, List.take_of_length_le h]

theorem readString_take_short (name rest : List Byte) (k : Nat) (hn : name.length < 65536)
    (hk : k < 2 + name.length) :
    ∃ e, readString ((putUint16 (uint16 name.length) ++ (name ++ rest)).take k) = .error e := by
  by_cases h2 : k < 2
  · obtain ⟨e, he⟩ := readShort_take_short (putUint16 (uint16 name.length) ++ (name ++ rest)) k h2
    exact ⟨e, by simp only [readString, he]⟩
  · have h1 : uint16 name.length = name.length := Nat.mod_eq_of_lt hn
    rw [h1, take_append_ge _ _ _ (by simp [putUint16]; omega)]
    have hlen : ((name ++ rest).take (k - (putUint16 name.length).length)).length
        < name.length := by
      simp only [putUint16, List.length_cons, List.length_nil, List.length_take,
        List.length_append]
      omega
    obtain ⟨e, he⟩ := readFull_short _ _ hlen
    refine ⟨e, ?_⟩
    simp only [readString, readShort_putUint16 _ hn, he]

theorem readString_take_long (name rest : List Byte) (k : Nat) (hn : name.length < 65536)
    (hk : 2 + name.length ≤ k) :
    readString ((putUint16 (uint16 name.length) ++ (name ++ rest)).take k)
      = .ok (name, rest.take (k - (2 + name.length))) := by
  rw [take_append_ge _ _ _ (by simp [putUint16]; omega),
    take_append_ge _ _ _ (by simp [putUint16]; omega)]
  have h : k - (putUint16 (uint16 name.length)).length - name.length = k - (2 + name.length) := by
    simp [putUint16]; omega
  rw [h]
  exact readString_append name _ hn

theorem readInt_take_long (v : Nat) (rest : List Byte) (k : Nat) (hv : v < 4294967296)
    (hk : 4 ≤ k) :
    readInt ((putUint32 v ++ rest).take k) = .ok (v, rest.take (k - 4)) := by
  rw [take_append_ge _ _ _ (by simp [putUint32]; omega)]
  exact readInt_putUint32 v hv _

theorem entryLayout_length (z : Zlib) (f : NitroFile) :
    (entryLayout z f).length = 2 + f.Name.length + 4 + (z.deflate f.Data).length := by
  simp only [entryLayout, bigEndian, List.length_append, List.length_cons, List.length_nil]

theorem ReadFile_take_short (z : Zlib) (f : NitroFile) (k : Nat)
    (hn : f.Name.length < 65536) (hl : (z.deflate f.Data).length < 4294967296)
    (ht : z.RejectsTruncated f.Data) (hk : k < (entryLayout z f).length) :
    ∃ e, ReadFile z ((entryLayout z f).take k) = .error e := by
  rw [entryLayout_length] at hk
  have h2 : uint32 (z.deflate f.Data).length = (z.deflate f.Data).length := Nat.mod_eq_of_lt hl
  simp only [entryLayout, bigEndian_two, bigEndian_four, List.append_assoc, h2]
  by_cases h1 : k < 2 + f.Name.length
  · obtain ⟨e, he⟩ := readString_take_short f.Name
      (putUint32 (z.deflate f.Data).length ++ z.deflate f.Data) k hn h1
    exact ⟨e, by simp only [ReadFile, he]⟩
  · have hs := readString_take_long f.Name
      (putUint32 (z.deflate f.Data).length ++ z.deflate f.Data) k hn (by omega)
    by_cases h3 : k - (2 + f.Name.length) < 4
    · obtain ⟨e, he⟩ := readInt_take_short
        (putUint32 (z.deflate f.Data).length ++ z.deflate f.Data) _ h3
      exact ⟨e, by simp only [ReadFile, hs, he]⟩
    · have hi := readInt_take_long (z.deflate f.Data).length (z.deflate f.Data)
        (k - (2 + f.Name.length)) hl (by omega)
      have hlt : k - (2 + f.Name.length) - 4 < (z.deflate f.Data).length := by omega
      have htk : ((z.deflate f.Data).take (k - (2 + f.Name.length) - 4)).take
          (z.deflate f.Data).length = (z.deflate f.Data).take (k - (2 + f.Name.length) - 4) := by
        rw [List.take_take]; congr 1; omega
      exact ⟨.zlib, by simp only [ReadFile, hs, hi, htk, ht _ hlt]⟩

theorem readFiles_take_short (z : Zlib) (fs : List NitroFile) (acc : NitroArchive) (k : Nat)
    (hn : ∀ f ∈ fs, f.Name.length < 65536)
    (hl : ∀ f ∈ fs, (z.deflate f.Data).length < 4294967296)
    (hz : ∀ f ∈ fs, z.Inverts f.Data) (ht : ∀ f ∈ fs, z.RejectsTruncated f.Data)
    (hk : k < ((fs.map (entryLayout z)).flatten).length) :
    ∃ e, (readFiles z fs.length acc (((fs.map (entryLayout z)).flatten).take k)).2.1 = some e := by
  induction fs generalizing acc k with
  | nil => simp at hk
  | cons f t ih =>
    simp only [List.map_cons, List.flatten_cons, List.length_append] at hk
    simp only [List.map_cons, List.flatten_cons, List.length_cons, readFiles]
    by_cases h1 : k < (entryLayout z f).length
    · obtain ⟨e, he⟩ := ReadFile_take_short z f k (hn f (List.mem_cons_self _ _))
        (hl f (List.mem_cons_self _ _)) (ht f (List.mem_cons_self _ _)) h1
      rw [List.take_append_of_le_length (by omega), he]
      exact ⟨e, rfl⟩
    · rw [take_append_ge _ _ _ (by omega), ReadFile_entryLayout z f _ (hn f (List.mem_cons_self _ _))
        (hl f (List.mem_cons_self _ _)) (hz f (List.mem_cons_self _ _))]
      exact ih _ _ (fun g hg => hn g (List.mem_cons_of_mem _ hg))
        (fun g hg => hl g (List.mem_cons_of_mem _ hg)) (fun g hg => hz g (List.mem_cons_of_mem _ hg))
        (fun g hg => ht g (List.mem_cons_of_mem _ hg)) (by omega)

theorem strict_prefix_take {α : Type} {p l : List α} (hp : p <+: l) (hne : p ≠ l) :
    ∃ k, k < l.length ∧ p = l.take k := by
  refine ⟨p.length, ?_, List.prefix_iff_eq_take.1 hp⟩
  rcases Nat.lt_or_ge p.length l.length with h | h
  · exact h
  · exact absurd (List.IsPrefix.eq_of_length_le hp h) hne

/-- C2 (amended).  Decode robustness: for every archive with fewer than 65536
entries, names shorter than 65536 bytes and compressed payloads shorter than
2^32 bytes, whose payloads the zlib reader inflates back and rejects when
truncated, and for every strict prefix `p` of the bytes `createNitroArchive`
returns, `ReadArchive` on `p` returns an error and `loadNitroArchive` on a file
with content `p` returns that error and no archive. -/
theorem ReadArchive_rejects_truncated (z : Zlib) (a : NitroArchive)
    (order : List (GoString × NitroFile)) (bytes p : List Byte)
    (hrange : RangeOf a.Files order)
    (hcount : a.Files.length < 65536)
    (hname : ∀ e ∈ a.Files, e.2.Name.length < 65536)
    (hlen : ∀ e ∈ a.Files, (z.deflate e.2.Data).length < 4294967296)
    (hz : ∀ e ∈ a.Files, z.Inverts e.2.Data)
    (ht : ∀ e ∈ a.Files, z.RejectsTruncated e.2.Data)
    (hbytes : createNitroArchive z a order = .ok bytes)
    (hp : p <+: bytes) (hne : p ≠ bytes) :
    ∃ e, (ReadArchive z p).2 = some e
      ∧ ∀ (fs : FileSystem) (filepath : GoString), fs filepath = some p →
          loadNitroArchive z fs filepath = .error e := by
  have hperm : order.Perm a.Files := hrange
  have hmem : ∀ f ∈ order.map Prod.snd, ∃ e ∈ a.Files, e.2 = f := by
    intro f hf
    obtain ⟨e, he, rfl⟩ := List.mem_map.1 hf
    exact ⟨e, hperm.mem_iff.1 he, rfl⟩
  have hlen' : a.Files.length = (order.map Prod.snd).length := by
    rw [List.length_map, hperm.length_eq]
  have hc : uint16 a.Files.length = a.Files.length := Nat.mod_eq_of_lt hcount
  rw [createNitroArchive_layout] at hbytes
  have hb : bytes = putUint16 a.Files.length
      ++ ((order.map Prod.snd).map (entryLayout z)).flatten := by
    have := Except.ok.inj hbytes
    rw [← this, archiveLayout, bigEndian_two, hc]
  obtain ⟨k, hk, rfl⟩ := strict_prefix_take hp hne
  have key : ∃ e, (ReadArchive z (bytes.take k)).2 = some e := by
    rw [hb] at hk ⊢
    by_cases h2 : k < 2
    · obtain ⟨e, he⟩ := readShort_take_short (putUint16 a.Files.length
        ++ ((order.map Prod.snd).map (entryLayout z)).flatten) k h2
      exact ⟨e, by simp only [ReadArchive, he]⟩
    · rw [take_append_ge _ _ _ (by simp [putUint16]; omega)]
      simp only [ReadArchive, readShort_putUint16 _ hcount]
      rw [hlen']
      apply readFiles_take_short z (order.map Prod.snd) { Files := [] }
        (k - (putUint16 a.Files.length).length)
        (fun f hf => by obtain ⟨e, he, rfl⟩ := hmem f hf; exact hname e he)
        (fun f hf => by obtain ⟨e, he, rfl⟩ := hmem f hf; exact hlen e he)
        (fun f hf => by obtain ⟨e, he, rfl⟩ := hmem f hf; exact hz e he)
        (fun f hf => by obtain ⟨e, he, rfl⟩ := hmem f hf; exact ht e he)
      simp only [putUint16, List.length_append, List.length_cons, List.length_nil] at hk ⊢
      omega
  obtain ⟨e, he⟩ := key
  refine ⟨e, he, fun fs filepath hfs => ?_⟩
  simp only [loadNitroArchive, hfs]
  generalize ReadArchive z (List.take k bytes) = r at he
  obtain ⟨a', e'⟩ := r
  simp only at he
  subst he
  rfl

/-- Witness of C2: the encoding of `wArchive` in the order `wOrder`, cut inside the
compressed data of its first entry. -/
theorem ReadArchive_rejects_truncated_witness :
    ∃ e, (ReadArchive storedZlib [0, 2, 0, 1, 98, 0, 0, 0, 11, 120, 1, 1, 0]).2 = some e
      ∧ ∀ (fs : FileSystem) (filepath : GoString),
          fs filepath = some [0, 2, 0, 1, 98, 0, 0, 0, 11, 120, 1, 1, 0] →
          loadNitroArchive storedZlib fs filepath = .error e :=
  ReadArchive_rejects_truncated storedZlib wArchive wOrder
    [0, 2, 0, 1, 98, 0, 0, 0, 11, 120, 1, 1, 0, 0, 255, 255, 0, 0, 0, 1,
      0, 1, 97, 0, 0, 0, 13, 120, 1, 1, 2, 0, 253, 255, 1, 2, 0, 6, 0, 4]
    [0, 2, 0, 1, 98, 0, 0, 0, 11, 120, 1, 1, 0]
    (by decide) (by decide) (by decide) (by decide) (by decide) (by decide) (by decide)
    (by decide) (by decide)



theorem putUint16_injOn (x y : Nat) (hx : x < 65536) (hy : y < 65536)
    (h : putUint16 x = putUint16 y) : x = y := by
  have h1 := readShort_putUint16 x hx []
  rw [h, readShort_putUint16 y hy] at h1
  exact ((Prod.mk.inj (Except.ok.inj h1)).1).symm

theorem numberedFiles_MapOK (n : Nat) (hn : n ≤ 65536) : MapOK (numberedFiles n) := by
  unfold MapOK numberedFiles
  rw [List.map_map]
  refine List.Nodup.map_on ?_ (List.nodup_range _)
  intro x hx y hy h
  exact putUint16_injOn x y (by have := List.mem_range.1 hx; omega)
    (by have := List.mem_range.1 hy; omega) h

theorem numberedFiles_KeyedByName (n : Nat) : KeyedByName { Files := numberedFiles n } := by
  intro e he
  obtain ⟨i, _, rfl⟩ := List.mem_map.1 he
  rfl

theorem numberedFiles_length (n : Nat) : (numberedFiles n).length = n := by
  simp [numberedFiles]

theorem numberedFiles_mem (n : Nat) (hn : 0 < n) :
    (putUint16 0, ({ Name := putUint16 0, Data := [] } : NitroFile)) ∈ numberedFiles n :=
  List.mem_map.2 ⟨0, List.mem_range.2 hn, rfl⟩


/-- Counterexample of C2 as stated: an archive of 65536 entries, keyed by name,
with payloads that the zlib reader inflates back and rejects when truncated.
Its entry count is written as `00 00`; `ReadArchive` accepts the strict prefix
`00 00` of its encoding as an archive without entries, and `loadNitroArchive`
returns that archive without an error. -/
theorem truncated_accepted_on_wide_archive :
    MapOK (numberedFiles 65536) ∧ KeyedByName { Files := numberedFiles 65536 }
      ∧ storedZlib.Inverts [] ∧ storedZlib.RejectsTruncated []
      ∧ ∃ bytes, createNitroArchive storedZlib { Files := numberedFiles 65536 }
            (numberedFiles 65536) = .ok bytes
          ∧ [0, 0] <+: bytes ∧ [0, 0] ≠ bytes
          ∧ ReadArchive storedZlib [0, 0] = ({ Files := [] }, none)
          ∧ ∀ (fs : FileSystem) (filepath : GoString), fs filepath = some [0, 0] →
              loadNitroArchive storedZlib fs filepath = .ok { Files := [] } := by
  have hb : bigEndian 2 65536 = [0, 0] := by decide
  have hlay : archiveLayout storedZlib (NitroArchive.mk (numberedFiles 65536)).Files.length
      ((numberedFiles 65536).map Prod.snd)
      = [0, 0] ++ (((numberedFiles 65536).map Prod.snd).map (entryLayout storedZlib)).flatten := by
    rw [archiveLayout, numberedFiles_length, hb]
  have hpos : (((numberedFiles 65536).map Prod.snd).map (entryLayout storedZlib)).flatten ≠ [] := by
    intro hnil
    have := List.flatten_eq_nil_iff.1 hnil
      (entryLayout storedZlib { Name := putUint16 0, Data := [] })
      (List.mem_map.2 ⟨_, List.mem_map.2 ⟨_, numberedFiles_mem _ (by decide), rfl⟩, rfl⟩)
    exact absurd this (by decide)
  refine ⟨numberedFiles_MapOK _ (Nat.le_refl _), numberedFiles_KeyedByName _, by decide,
    by decide, _, createNitroArchive_layout _ _ _, ?_, ?_, rfl, ?_⟩
  · rw [hlay]
    exact List.prefix_append _ _
  · rw [hlay]
    intro h
    exact hpos (List.append_cancel_left (h.symm.trans (List.append_nil _).symm))
  · intro fs filepath hfs
    simp only [loadNitroArchive, hfs]
    rfl

/-- C5 (evaluation at the failing input).  The entry `shortEntry` announces 12
compressed bytes and only 11 bytes follow the length field; these 11 bytes are
a complete zlib stream, and `ReadFile` and `ReadArchive` return without an
error. -/
theorem ReadFile_accepts_short_entry :
    readInt [0, 0, 0, 12, 120, 1, 1, 0, 0, 255, 255, 0, 0, 0, 1]
        = .ok (12, [120, 1, 1, 0, 0, 255, 255, 0, 0, 0, 1])
      ∧ [120, 1, 1, 0, 0, 255, 255, 0, 0, 0, (1 : Byte)].length < 12
      ∧ ReadFile storedZlib shortEntry = .ok ({ Name := [97], Data := [] }, [])
      ∧ ReadArchive storedZlib ([0, 1] ++ shortEntry)
          = ({ Files := [([97], { Name := [97], Data := [] })] }, none) := by
  decide

theorem storedInflate_emptyStream (filler : List Byte) :
    storedInflate (emptyStream ++ filler) = some ([], min (11 + filler.length) 4096) := by
  have e120 : ((120 : Byte) : Nat) = 120 := rfl
  have e255 : ((255 : Byte) : Nat) = 255 := rfl
  have e1 : ((1 : Byte) : Nat) = 1 := rfl
  have e0 : ((0 : Byte) : Nat) = 0 := rfl
  simp [emptyStream, storedInflate, inflateBlocks, adler32, bufSize, e120, e255, e1, e0]
  omega

theorem paddedSlice_length : (emptyStream ++ List.replicate 4086 (0 : Byte)).length = 4097 := by
  rw [List.length_append, List.length_replicate]; rfl

theorem paddedEntry_ReadFile (tail : List Byte) :
    ReadFile storedZlib (paddedEntry ++ tail)
      = .ok ({ Name := List.replicate 4088 97, Data := [] }, 0 :: tail) := by
  have hs : readString (paddedEntry ++ tail)
      = .ok (List.replicate 4088 97,
          [0, 0, 16, 1] ++ (emptyStream ++ (List.replicate 4086 0 ++ tail))) := by
    have h := readString_append (List.replicate 4088 97)
      ([0, 0, 16, 1] ++ (emptyStream ++ (List.replicate 4086 0 ++ tail)))
      (by rw [List.length_replicate]; decide)
    rw [List.length_replicate, show putUint16 (uint16 4088) = [15, 248] from by decide] at h
    rw [← h]
    simp only [paddedEntry, List.append_assoc]
  have hi : readInt ([0, 0, 16, 1] ++ (emptyStream ++ (List.replicate 4086 0 ++ tail)))
      = .ok (4097, emptyStream ++ (List.replicate 4086 0 ++ tail)) := rfl
  have htake : (emptyStream ++ (List.replicate 4086 0 ++ tail)).take 4097
      = emptyStream ++ List.replicate 4086 0 := by
    rw [← List.append_assoc]
    exact List.take_left' paddedSlice_length
  have hdrop : (emptyStream ++ (List.replicate 4086 0 ++ tail)).drop 4096 = 0 :: tail := by
    rw [show (4096 : Nat) = emptyStream.length + 4085 from rfl, List.drop_append,
      List.drop_append_of_le_length (by rw [List.length_replicate]; decide),
      List.drop_replicate]
    rfl
  rw [ReadFile_of_header storedZlib _ _ _ _ _ hs hi, htake]
  simp only [storedZlib, storedInflate_emptyStream, List.length_replicate]
  rw [show min (11 + 4086) 4096 = 4096 from rfl, hdrop]

theorem paddedEntry_length : paddedEntry.length = 2 + 4088 + 4 + 4097 := by
  simp only [paddedEntry, List.length_append, List.length_replicate, List.length_cons,
    List.length_nil, emptyStream]

/-- C6 (evaluation at the failing input).  The entry `paddedEntry` announces 4097
compressed bytes: a complete zlib stream of 11 bytes and 4086 filler bytes.
`ReadFile` returns successfully after 2 + 4088 + 4 + 4096 bytes, one byte
before the end of the entry, so the next entry is read from the last filler
byte on and `ReadArchive` fails, although the entry that follows is well formed. -/
theorem ReadFile_leaves_part_of_slice :
    ReadFile storedZlib (paddedEntry ++ secondEntry)
        = .ok ({ Name := List.replicate 4088 97, Data := [] }, 0 :: secondEntry)
      ∧ paddedEntry.length = 2 + 4088 + 4 + 4097
      ∧ (paddedEntry ++ secondEntry).length - (0 :: secondEntry).length = 2 + 4088 + 4 + 4096
      ∧ ReadFile storedZlib secondEntry = .ok ({ Name := [98], Data := [] }, [])
      ∧ (ReadArchive storedZlib ([0, 2] ++ (paddedEntry ++ secondEntry))).2 = some Error.zlib := by
  refine ⟨paddedEntry_ReadFile _, paddedEntry_length, ?_, by decide, ?_⟩
  · rw [List.length_append, paddedEntry_length, List.length_cons]
    omega
  · have h2 : ReadFile storedZlib (0 :: secondEntry) = .error .zlib := by decide
    simp only [ReadArchive, List.cons_append, List.nil_append, readShort]
    simp only [readFiles, paddedEntry_ReadFile, h2]


theorem mapGet_mapSet {K V : Type} [DecidableEq K] (m : List (K × V)) (k k' : K) (v : V) :
    mapGet (mapSet m k v) k' = if k = k' then some v else mapGet m k' := by
  induction m with
  | nil => simp [mapSet, mapGet]
  | cons e t ih =>
    obtain ⟨k₀, v₀⟩ := e
    by_cases h : k₀ = k
    · subst h
      simp only [mapSet, if_true, mapGet]
      by_cases h' : k₀ = k' <;> simp [h']
    · simp only [mapSet, h, if_false, mapGet, ih]
      by_cases h' : k₀ = k'
      · have : ¬ k = k' := fun e => h (h'.trans e.symm)
        simp [h', this]
      · simp [h']

theorem keys_mapSet {K V : Type} [DecidableEq K] (m : List (K × V)) (k : K) (v : V) :
    (mapSet m k v).map Prod.fst
      = if k ∈ m.map Prod.fst then m.map Prod.fst else m.map Prod.fst ++ [k] := by
  induction m with
  | nil => simp [mapSet]
  | cons e t ih =>
    obtain ⟨k₀, v₀⟩ := e
    by_cases h : k₀ = k
    · subst h
      simp [mapSet]
    · have h' : ¬ k = k₀ := fun e => h e.symm
      simp only [mapSet, h, if_false, List.map_cons, ih, List.mem_cons, h', false_or]
      split <;> simp

theorem MapOK_mapSet {K V : Type} [DecidableEq K] (m : List (K × V)) (k : K) (v : V)
    (h : MapOK m) : MapOK (mapSet m k v) := by
  unfold MapOK at *
  rw [keys_mapSet]
  split
  · exact h
  · rename_i hk
    exact List.Nodup.append h (List.nodup_singleton k) (by
      intro a ha hb
      rw [List.mem_singleton] at hb
      exact hk (hb ▸ ha))

theorem mem_keys_mapSet {K V : Type} [DecidableEq K] (m : List (K × V)) (k k' : K) (v : V) :
    k' ∈ (mapSet m k v).map Prod.fst ↔ k' = k ∨ k' ∈ m.map Prod.fst := by
  rw [keys_mapSet]
  split
  · rename_i hk
    constructor
    · exact Or.inr
    · rintro (rfl | h)
      · exact hk
      · exact h
  · simp only [List.mem_append, List.mem_singleton]
    exact Or.comm

theorem readFiles_of_readEntries (z : Zlib) (n : Nat) (acc : NitroArchive) (inp : List Byte)
    (fs : List NitroFile) (rest : List Byte) (h : readEntries z n inp = .ok (fs, rest)) :
    readFiles z n acc inp
      = ({ Files := fs.foldl (fun m f => mapSet m f.Name f) acc.Files }, none, rest) := by
  induction n generalizing acc inp fs with
  | zero =>
    simp only [readEntries, Except.ok.injEq, Prod.mk.injEq] at h
    obtain ⟨rfl, rfl⟩ := h
    rfl
  | succ n ih =>
    simp only [readEntries] at h
    cases hf : ReadFile z inp with
    | error e => simp [hf] at h
    | ok r =>
      obtain ⟨f, rest₁⟩ := r
      simp only [hf] at h
      cases he : readEntries z n rest₁ with
      | error e => simp [he] at h
      | ok r' =>
        obtain ⟨fs', rest₂⟩ := r'
        simp only [he, Except.ok.injEq, Prod.mk.injEq] at h
        obtain ⟨rfl, rfl⟩ := h
        simp only [readFiles, hf, List.foldl_cons]
        exact ih _ _ _ he

theorem mapGet_foldl_mapSet (fs : List NitroFile) (m : List (GoString × NitroFile)) (k : GoString) :
    mapGet (fs.foldl (fun m f => mapSet m f.Name f) m) k
      = ((fs.filter (fun f => decide (f.Name = k))).getLast?).or (mapGet m k) := by
  induction fs using List.reverseRecOn with
  | nil => simp
  | append_singleton t f ih =>
    rw [List.foldl_append, List.foldl_cons, List.foldl_nil, mapGet_mapSet, ih, List.filter_append,
      List.getLast?_append]
    by_cases h : f.Name = k
    · simp [h, List.filter]
    · simp [h, List.filter]

theorem MapOK_foldl_mapSet (fs : List NitroFile) (m : List (GoString × NitroFile))
    (h : MapOK m) : MapOK (fs.foldl (fun m f => mapSet m f.Name f) m) := by
  induction fs generalizing m with
  | nil => exact h
  | cons f t ih => exact ih _ (MapOK_mapSet m f.Name f h)

theorem mem_keys_foldl_mapSet (fs : List NitroFile) (m : List (GoString × NitroFile))
    (k : GoString) :
    k ∈ (fs.foldl (fun m f => mapSet m f.Name f) m).map Prod.fst
      ↔ k ∈ fs.map (fun f => f.Name) ∨ k ∈ m.map Prod.fst := by
  induction fs generalizing m with
  | nil => simp
  | cons f t ih =>
    rw [List.foldl_cons, ih, mem_keys_mapSet, List.map_cons, List.mem_cons]
    constructor
    · rintro (h | h | h)
      · exact Or.inl (Or.inr h)
      · exact Or.inl (Or.inl h)
      · exact Or.inr h
    · rintro ((h | h) | h)
      · exact Or.inr (Or.inl h)
      · exact Or.inl h
      · exact Or.inr (Or.inr h)

/-- C7.  Duplicate names: when the entry count and all the entries of a stream
decode, `fs` being the files in the order of the stream, `ReadArchive`
succeeds; the archive maps every name to the last file of the stream with that
name (and holds no other name), and its number of entries is the number of
distinct names of the stream. -/
theorem ReadArchive_duplicate_names (z : Zlib) (inp : List Byte) (n : Nat) (rest : List Byte)
    (fs : List NitroFile) (rest' : List Byte)
    (hcount : readShort inp = .ok (n, rest))
    (hentries : readEntries z n rest = .ok (fs, rest')) :
    ∃ a, ReadArchive z inp = (a, none) ∧ MapOK a.Files
      ∧ (∀ k, mapGet a.Files k = (fs.filter (fun f => decide (f.Name = k))).getLast?)
      ∧ a.Files.length = (fs.map (fun f => f.Name)).dedup.length := by
  refine ⟨{ Files := fs.foldl (fun m f => mapSet m f.Name f) [] }, ?_, ?_, ?_, ?_⟩
  · simp only [ReadArchive, hcount, readFiles_of_readEntries z n { Files := [] } rest fs rest' hentries]
  · exact MapOK_foldl_mapSet fs [] (List.nodup_nil)
  · intro k
    rw [mapGet_foldl_mapSet]
    simp [mapGet]
  · have hnd := MapOK_foldl_mapSet fs [] (List.nodup_nil)
    have hperm : ((fs.foldl (fun m f => mapSet m f.Name f) []).map Prod.fst).Perm
        ((fs.map (fun f => f.Name)).dedup) := by
      refine (List.perm_ext_iff_of_nodup hnd (List.nodup_dedup _)).2 (fun k => ?_)
      rw [mem_keys_foldl_mapSet, List.mem_dedup]
      simp
    have := hperm.length_eq
    rw [List.length_map] at this
    exact this

/-- Witness of C7: a stream with the entries `b`, `a`, `b`. -/
theorem ReadArchive_duplicate_names_witness :
    ∃ a, ReadArchive storedZlib ([0, 3] ++ dupEntries) = (a, none)
      ∧ MapOK a.Files
      ∧ (∀ k, mapGet a.Files k = (dupFiles.filter (fun f => decide (f.Name = k))).getLast?)
      ∧ a.Files.length = (dupFiles.map (fun f => f.Name)).dedup.length :=
  ReadArchive_duplicate_names storedZlib ([0, 3] ++ dupEntries) 3 dupEntries dupFiles []
    (by decide) (by decide)


theorem foldl_mapSet_distinct (fs : List NitroFile) (h : (fs.map (fun f => f.Name)).Nodup) :
    fs.foldl (fun m f => mapSet m f.Name f) [] = fs.map (fun f => (f.Name, f)) := by
  have h1 : fs.foldl (fun m f => mapSet m f.Name f) []
      = (fs.map (fun f => (f.Name, f))).foldl (fun m e => mapSet m e.1 e.2) [] := by
    rw [List.foldl_map]
  rw [h1, foldl_mapSet_nodup _ [] (by simpa [List.map_map, Function.comp_def] using h)]
  rfl

/-- C8 (amended).  Decode then encode: for every decodable stream with pairwise
distinct entry names, `createNitroArchive` applied to the archive returned by
`ReadArchive` emits the entry count of the stream and then every entry of the
stream exactly once, in the order in which `range` visits the map; that order
is any arrangement of the entries and need not be the order of the stream. -/
theorem reencode_emits_each_entry_once (z : Zlib) (inp : List Byte) (n : Nat) (rest : List Byte)
    (fs : List NitroFile) (rest' : List Byte)
    (hcount : readShort inp = .ok (n, rest))
    (hentries : readEntries z n rest = .ok (fs, rest'))
    (hdistinct : (fs.map (fun f => f.Name)).Nodup) :
    ∃ a, ReadArchive z inp = (a, none)
      ∧ ∀ order, RangeOf a.Files order →
          createNitroArchive z a order = .ok (archiveLayout z fs.length (order.map Prod.snd))
            ∧ (order.map Prod.snd).Perm fs := by
  refine ⟨{ Files := fs.map (fun f => (f.Name, f)) }, ?_, fun order horder => ⟨?_, ?_⟩⟩
  · simp only [ReadArchive, hcount,
      readFiles_of_readEntries z n { Files := [] } rest fs rest' hentries,
      foldl_mapSet_distinct fs hdistinct]
  · rw [createNitroArchive_layout, List.length_map]
  · have h : (order.map Prod.snd).Perm ((fs.map (fun f => (f.Name, f))).map Prod.snd) :=
      List.Perm.map _ horder
    rw [List.map_map] at h
    simpa [Function.comp_def] using h

/-- Witness of C8 (amended): the stream with the entries `b`, `a`. -/
theorem reencode_emits_each_entry_once_witness :
    ∃ a, ReadArchive storedZlib ([0, 2] ++ twoEntries) = (a, none)
      ∧ ∀ order, RangeOf a.Files order →
          createNitroArchive storedZlib a order
              = .ok (archiveLayout storedZlib twoFiles.length (order.map Prod.snd))
            ∧ (order.map Prod.snd).Perm twoFiles :=
  reencode_emits_each_entry_once storedZlib ([0, 2] ++ twoEntries) 2 twoEntries twoFiles []
    (by decide) (by decide) (by decide)

/-- Counterexample of C8 as stated: the stream with the entries `b`, `a` decodes
to an archive that `range` may visit in the order `a`, `b`; `createNitroArchive`
then emits `a` before `b`, and the bytes differ from the stream that was read. -/
theorem reencode_changes_entry_order :
    readShort ([0, 2] ++ twoEntries) = .ok (2, twoEntries)
      ∧ readEntries storedZlib 2 twoEntries = .ok (twoFiles, [])
      ∧ (twoFiles.map (fun f => f.Name)).Nodup
      ∧ ∃ a order bytes, ReadArchive storedZlib ([0, 2] ++ twoEntries) = (a, none)
          ∧ RangeOf a.Files order
          ∧ createNitroArchive storedZlib a order = .ok bytes
          ∧ order.map Prod.snd ≠ twoFiles
          ∧ bytes ≠ [0, 2] ++ twoEntries :=
  ⟨by decide, by decide, by decide,
    { Files := [([98], { Name := [98], Data := [] }), ([97], { Name := [97], Data := [] })] },
    [([97], { Name := [97], Data := [] }), ([98], { Name := [98], Data := [] })],
    [0, 2] ++ ([0, 1, 97, 0, 0, 0, 11] ++ emptyStream) ++ secondEntry,
    by decide, by decide, by decide, by decide, by decide⟩


theorem findJSON_eq {P : Type} (J : Json P) (order : List (GoString × NitroFile)) :
    findJSON J order
      = match order.find? (fun e => hasSuffix e.2.Name dotJson) with
        | none => .ok (none, none)
        | some entry =>
          match J.unmarshalPtr entry.2.Data none with
          | (_, some _) => .error (.msg "error parsing JSON")
          | (furni, none) => .ok (furni, some entry.2.Data) := by
  induction order with
  | nil => rfl
  | cons e t ih =>
    obtain ⟨k, file⟩ := e
    cases h : hasSuffix file.Name dotJson with
    | true => simp only [findJSON, List.find?_cons, h, if_true]
    | false => simp only [findJSON, List.find?_cons, h, ih, Bool.false_eq_true, if_false]

theorem libraryOfArchive_none {P : Type} (J : Json P) (archive : NitroArchive)
    (filepath : GoString) (order : List (GoString × NitroFile))
    (hfind : order.find? (fun e => hasSuffix e.2.Name dotJson) = none) :
    libraryOfArchive J archive filepath order = .error (.msg "JSON file not found in .nitro") := by
  simp only [libraryOfArchive, findJSON_eq, hfind]

theorem libraryOfArchive_error {P : Type} (J : Json P) (archive : NitroArchive)
    (filepath : GoString) (order : List (GoString × NitroFile)) (entry : GoString × NitroFile)
    (furni : Option NitroFurni) (e : Error)
    (hfind : order.find? (fun e => hasSuffix e.2.Name dotJson) = some entry)
    (hu : J.unmarshalPtr entry.2.Data none = (furni, some e)) :
    libraryOfArchive J archive filepath order = .error (.msg "error parsing JSON") := by
  simp only [libraryOfArchive, findJSON_eq, hfind, hu]

theorem libraryOfArchive_nil {P : Type} (J : Json P) (archive : NitroArchive)
    (filepath : GoString) (order : List (GoString × NitroFile)) (entry : GoString × NitroFile)
    (hfind : order.find? (fun e => hasSuffix e.2.Name dotJson) = some entry)
    (hu : J.unmarshalPtr entry.2.Data none = (none, none)) :
    libraryOfArchive J archive filepath order = .error (.msg "JSON file not found in .nitro") := by
  simp only [libraryOfArchive, findJSON_eq, hfind, hu]

theorem libraryOfArchive_ok {P : Type} (J : Json P) (archive : NitroArchive)
    (filepath : GoString) (order : List (GoString × NitroFile)) (entry : GoString × NitroFile)
    (furni : NitroFurni)
    (hfind : order.find? (fun e => hasSuffix e.2.Name dotJson) = some entry)
    (hu : J.unmarshalPtr entry.2.Data none = (some furni, none)) :
    libraryOfArchive J archive filepath order
      = .ok { Archive := archive, FilePath := filepath, Furni := some furni,
              OriginalJSON := some entry.2.Data } := by
  simp only [libraryOfArchive, findJSON_eq, hfind, hu]

/-- C9.  Document load: given the decoded archive, `LoadNitroLibrary` returns an
error exactly when no entry name ends in `.json` or the selected entry (the
first one in visiting order whose name ends in `.json`) fails to deserialize
into a `NitroFurni`, that is, `json.Unmarshal` returns an error or leaves the
pointer nil; otherwise it returns a library whose `OriginalJSON` is the
unmodified data of that entry and whose `Furni` is the result of deserializing
those bytes. -/
theorem LoadNitroLibrary_error_iff {P : Type} (z : Zlib) (J : Json P) (fs : FileSystem)
    (filepath : GoString) (range : NitroArchive → List (GoString × NitroFile))
    (archive : NitroArchive)
    (hload : loadNitroArchive z fs filepath = .ok archive)
    (hrange : RangeOf archive.Files (range archive)) :
    ((∃ e, LoadNitroLibrary z J fs filepath range = .error e) ↔
        ((∀ entry ∈ archive.Files, hasSuffix entry.2.Name dotJson = false)
          ∨ ∃ entry, (range archive).find? (fun e => hasSuffix e.2.Name dotJson) = some entry
              ∧ ((J.unmarshalPtr entry.2.Data none).2 ≠ none
                  ∨ (J.unmarshalPtr entry.2.Data none).1 = none)))
      ∧ ∀ lib, LoadNitroLibrary z J fs filepath range = .ok lib →
          ∃ entry ∈ archive.Files, hasSuffix entry.2.Name dotJson = true
            ∧ (range archive).find? (fun e => hasSuffix e.2.Name dotJson) = some entry
            ∧ lib.OriginalJSON = some entry.2.Data
            ∧ J.unmarshalPtr entry.2.Data none = (lib.Furni, none)
            ∧ lib.Furni ≠ none ∧ lib.Archive = archive ∧ lib.FilePath = filepath := by
  have hperm : (range archive).Perm archive.Files := hrange
  simp only [LoadNitroLibrary, hload]
  cases hfind : (range archive).find? (fun e => hasSuffix e.2.Name dotJson) with
  | none =>
    have hall : ∀ entry ∈ archive.Files, hasSuffix entry.2.Name dotJson = false := by
      intro entry he
      have := List.find?_eq_none.1 hfind entry (hperm.mem_iff.2 he)
      simpa using this
    rw [libraryOfArchive_none J archive filepath _ hfind]
    refine ⟨⟨fun _ => Or.inl hall, fun _ => ⟨_, rfl⟩⟩, ?_⟩
    intro lib h
    exact Except.noConfusion h
  | some entry =>
    have hmem : entry ∈ archive.Files := hperm.mem_iff.1 (List.mem_of_find?_eq_some hfind)
    have hsuf : hasSuffix entry.2.Name dotJson = true := by
      simpa using List.find?_some hfind
    have hnotall : ¬ ∀ e ∈ archive.Files, hasSuffix e.2.Name dotJson = false := by
      intro h
      have := h entry hmem
      rw [hsuf] at this
      exact Bool.noConfusion this
    rcases hu : J.unmarshalPtr entry.2.Data none with ⟨furni, err⟩
    cases err with
    | some e =>
      rw [libraryOfArchive_error J archive filepath _ entry furni e hfind hu]
      refine ⟨⟨fun _ => Or.inr ⟨entry, rfl, Or.inl (by rw [hu]; simp)⟩, fun _ => ⟨_, rfl⟩⟩, ?_⟩
      intro lib h
      exact Except.noConfusion h
    | none =>
      cases furni with
      | none =>
        rw [libraryOfArchive_nil J archive filepath _ entry hfind hu]
        refine ⟨⟨fun _ => Or.inr ⟨entry, rfl, Or.inr (by rw [hu])⟩, fun _ => ⟨_, rfl⟩⟩, ?_⟩
        intro lib h
        exact Except.noConfusion h
      | some f =>
        rw [libraryOfArchive_ok J archive filepath _ entry f hfind hu]
        refine ⟨⟨fun h => ?_, fun h => ?_⟩, ?_⟩
        · obtain ⟨e, he⟩ := h
          exact Except.noConfusion he
        · rcases h with h | ⟨entry', he', h⟩
          · exact absurd h hnotall
          · obtain rfl := Option.some.inj he'
            rw [hu] at h
            rcases h with h | h
            · exact absurd rfl h
            · exact Option.noConfusion h
        · intro lib h
          have h' := Except.ok.inj h
          subst h'
          exact ⟨entry, hmem, hsuf, rfl, rfl, hu, by simp, rfl, rfl⟩

/-- Witness of C9: an archive whose only entry is `a.json` with the content `{}`. -/
theorem LoadNitroLibrary_error_iff_witness :
    ((∃ e, LoadNitroLibrary storedZlib tinyJson (fun _ => some emptyDocumentBytes) [120]
          (fun a => a.Files) = .error e) ↔
        ((∀ entry ∈ emptyDocumentLibrary.Archive.Files, hasSuffix entry.2.Name dotJson = false)
          ∨ ∃ entry, emptyDocumentLibrary.Archive.Files.find?
                (fun e => hasSuffix e.2.Name dotJson) = some entry
              ∧ ((tinyJson.unmarshalPtr entry.2.Data none).2 ≠ none
                  ∨ (tinyJson.unmarshalPtr entry.2.Data none).1 = none)))
      ∧ ∀ lib, LoadNitroLibrary storedZlib tinyJson (fun _ => some emptyDocumentBytes) [120]
          (fun a => a.Files) = .ok lib →
          ∃ entry ∈ emptyDocumentLibrary.Archive.Files, hasSuffix entry.2.Name dotJson = true
            ∧ emptyDocumentLibrary.Archive.Files.find?
                (fun e => hasSuffix e.2.Name dotJson) = some entry
            ∧ lib.OriginalJSON = some entry.2.Data
            ∧ tinyJson.unmarshalPtr entry.2.Data none = (lib.Furni, none)
            ∧ lib.Furni ≠ none ∧ lib.Archive = emptyDocumentLibrary.Archive
            ∧ lib.FilePath = [120] :=
  LoadNitroLibrary_error_iff storedZlib tinyJson (fun _ => some emptyDocumentBytes) [120]
    (fun a => a.Files) emptyDocumentLibrary.Archive (by decide) (by decide)

/-- The document `null`: `json.Unmarshal` returns no error and leaves the pointer
nil, and `LoadNitroLibrary` returns the error of a missing JSON file. -/
theorem LoadNitroLibrary_null_document :
    loadNitroArchive storedZlib (fun _ => some nullDocumentBytes) [120]
        = .ok { Files := [(aJson, { Name := aJson, Data := jsonNull })] }
      ∧ hasSuffix aJson dotJson = true
      ∧ tinyJson.unmarshalPtr jsonNull none = (none, none)
      ∧ LoadNitroLibrary storedZlib tinyJson (fun _ => some nullDocumentBytes) [120]
          (fun a => a.Files) = .error (.msg "JSON file not found in .nitro") := by
  decide

/-- C10.  Replace atomicity: whenever `UpdateJSONContent` returns an error, the
library after the call is the library before the call, in particular its
`Furni`, `OriginalJSON` and `Archive`, and `GetJSONContent` returns what it
returned before. -/
theorem UpdateJSONContent_error_keeps_library {P : Type} (J : Json P) (lib : NitroLibrary)
    (jsonData : P) (e : Error) (herr : (UpdateJSONContent J lib jsonData).2 = some e) :
    (UpdateJSONContent J lib jsonData).1 = lib
      ∧ (UpdateJSONContent J lib jsonData).1.Furni = lib.Furni
      ∧ (UpdateJSONContent J lib jsonData).1.OriginalJSON = lib.OriginalJSON
      ∧ (UpdateJSONContent J lib jsonData).1.Archive = lib.Archive
      ∧ GetJSONContent J (UpdateJSONContent J lib jsonData).1 = GetJSONContent J lib := by
  have h : (UpdateJSONContent J lib jsonData).1 = lib := by
    unfold UpdateJSONContent at herr ⊢
    cases hm : J.marshal jsonData with
    | error e' => rfl
    | ok jsonBytes =>
      rcases hu : J.unmarshal jsonBytes NitroFurni.zero with ⟨newFurni, err⟩
      cases err with
      | some e' => simp only [hu]
      | none => simp [hm, hu] at herr
  rw [h]
  exact ⟨rfl, rfl, rfl, rfl, rfl⟩

/-- Witness of C10: the payload `[1]` does not deserialize. -/
theorem UpdateJSONContent_error_keeps_library_witness :
    (UpdateJSONContent tinyJson emptyDocumentLibrary [91, 49, 93]).1 = emptyDocumentLibrary
      ∧ (UpdateJSONContent tinyJson emptyDocumentLibrary [91, 49, 93]).1.Furni
          = emptyDocumentLibrary.Furni
      ∧ (UpdateJSONContent tinyJson emptyDocumentLibrary [91, 49, 93]).1.OriginalJSON
          = emptyDocumentLibrary.OriginalJSON
      ∧ (UpdateJSONContent tinyJson emptyDocumentLibrary [91, 49, 93]).1.Archive
          = emptyDocumentLibrary.Archive
      ∧ GetJSONContent tinyJson (UpdateJSONContent tinyJson emptyDocumentLibrary [91, 49, 93]).1
          = GetJSONContent tinyJson emptyDocumentLibrary :=
  UpdateJSONContent_error_keeps_library tinyJson emptyDocumentLibrary [91, 49, 93]
    (.msg "error deserializing JSON") (by decide)

/-! ## The document: replace and save -/

/-- C11.  Successful replace: whenever `UpdateJSONContent` returns no error,
`OriginalJSON` is the serialization `json.Marshal` made of the payload, `Furni`
is the `NitroFurni` that `json.Unmarshal` made of exactly those bytes, and
`GetJSONContent` returns what `json.Indent` makes of those bytes with an indent
of two spaces; the typed model is not serialized. -/
theorem UpdateJSONContent_success {P : Type} (J : Json P) (lib : NitroLibrary) (jsonData : P)
    (hok : (UpdateJSONContent J lib jsonData).2 = none) :
    ∃ jsonBytes newFurni, J.marshal jsonData = .ok jsonBytes
      ∧ J.unmarshal jsonBytes NitroFurni.zero = (newFurni, none)
      ∧ (UpdateJSONContent J lib jsonData).1.OriginalJSON = some jsonBytes
      ∧ (UpdateJSONContent J lib jsonData).1.Furni = some newFurni
      ∧ GetJSONContent J (UpdateJSONContent J lib jsonData).1
          = (match J.indent jsonBytes with
             | .error _ => .error (.msg "error formatting JSON")
             | .ok buf => .ok buf) := by
  unfold UpdateJSONContent at hok ⊢
  cases hm : J.marshal jsonData with
  | error e => simp [hm] at hok
  | ok jsonBytes =>
    rcases hu : J.unmarshal jsonBytes NitroFurni.zero with ⟨newFurni, err⟩
    cases err with
    | some e => simp [hm, hu] at hok
    | none =>
      refine ⟨jsonBytes, newFurni, rfl, hu, ?_, ?_, ?_⟩ <;> simp only [hu, GetJSONContent]

/-- Witness of C11: the payload `{}`. -/
theorem UpdateJSONContent_success_witness :
    ∃ jsonBytes newFurni, tinyJson.marshal jsonEmptyObject = .ok jsonBytes
      ∧ tinyJson.unmarshal jsonBytes NitroFurni.zero = (newFurni, none)
      ∧ (UpdateJSONContent tinyJson twoDocumentsLibrary jsonEmptyObject).1.OriginalJSON
          = some jsonBytes
      ∧ (UpdateJSONContent tinyJson twoDocumentsLibrary jsonEmptyObject).1.Furni = some newFurni
      ∧ GetJSONContent tinyJson (UpdateJSONContent tinyJson twoDocumentsLibrary jsonEmptyObject).1
          = (match tinyJson.indent jsonBytes with
             | .error _ => .error (.msg "error formatting JSON")
             | .ok buf => .ok buf) :=
  UpdateJSONContent_success tinyJson twoDocumentsLibrary jsonEmptyObject (by decide)

theorem mapGet_of_mem {K V : Type} [DecidableEq K] (m : List (K × V)) (k : K) (v : V)
    (h : MapOK m) (hmem : (k, v) ∈ m) : mapGet m k = some v := by
  induction m with
  | nil => simp at hmem
  | cons e t ih =>
    obtain ⟨k₀, v₀⟩ := e
    simp only [MapOK, List.map_cons, List.nodup_cons] at h
    rcases List.mem_cons.1 hmem with heq | ht
    · obtain ⟨rfl, rfl⟩ := Prod.mk.inj heq
      simp [mapGet]
    · have hne : ¬ k₀ = k := by
        intro hk
        exact h.1 (hk ▸ List.mem_map.2 ⟨(k, v), ht, rfl⟩)
      simp only [mapGet, hne, if_false]
      exact ih h.2 ht

theorem mapSet_self {K V : Type} [DecidableEq K] (m : List (K × V)) (k : K) (v : V)
    (h : MapOK m) (hmem : (k, v) ∈ m) : mapSet m k v = m := by
  induction m with
  | nil => simp at hmem
  | cons e t ih =>
    obtain ⟨k₀, v₀⟩ := e
    simp only [MapOK, List.map_cons, List.nodup_cons] at h
    rcases List.mem_cons.1 hmem with heq | ht
    · obtain ⟨rfl, rfl⟩ := Prod.mk.inj heq
      simp [mapSet]
    · have hne : ¬ k₀ = k := by
        intro hk
        exact h.1 (hk ▸ List.mem_map.2 ⟨(k, v), ht, rfl⟩)
      simp only [mapSet, hne, if_false]
      rw [ih h.2 ht]

theorem updateJSONFile_eq (files : List (GoString × NitroFile)) (jsonBytes : List Byte)
    (order : List (GoString × NitroFile)) :
    updateJSONFile files jsonBytes order
      = match order.find? (fun e => hasSuffix e.2.Name dotJson) with
        | none => files
        | some e => mapSet files e.1 { Name := e.2.Name, Data := jsonBytes } := by
  induction order with
  | nil => rfl
  | cons e t ih =>
    obtain ⟨k, file⟩ := e
    cases h : hasSuffix file.Name dotJson with
    | true => simp only [updateJSONFile, List.find?_cons, h, if_true]
    | false => simp only [updateJSONFile, List.find?_cons, h, ih, Bool.false_eq_true, if_false]

theorem readFiles_MapOK (z : Zlib) (n : Nat) (acc : NitroArchive) (inp : List Byte)
    (h : MapOK acc.Files) : MapOK (readFiles z n acc inp).1.Files := by
  induction n generalizing acc inp with
  | zero => exact h
  | succ n ih =>
    simp only [readFiles]
    cases hf : ReadFile z inp with
    | error e => exact h
    | ok r =>
      obtain ⟨file, rest⟩ := r
      exact ih _ _ (MapOK_mapSet _ _ _ h)

theorem ReadArchive_MapOK (z : Zlib) (inp : List Byte) : MapOK (ReadArchive z inp).1.Files := by
  unfold ReadArchive
  cases hs : readShort inp with
  | error e => exact List.nodup_nil
  | ok r =>
    obtain ⟨n, rest⟩ := r
    exact readFiles_MapOK z n _ rest List.nodup_nil

theorem loadNitroArchive_MapOK (z : Zlib) (fs : FileSystem) (filepath : GoString)
    (archive : NitroArchive) (h : loadNitroArchive z fs filepath = .ok archive) :
    MapOK archive.Files := by
  unfold loadNitroArchive at h
  cases hfs : fs filepath with
  | none => simp [hfs] at h
  | some content =>
    have hm := ReadArchive_MapOK z content
    rcases hr : ReadArchive z content with ⟨a, err⟩
    rw [hr] at hm
    cases err with
    | some e => simp [hfs, hr] at h
    | none =>
      simp only [hfs, hr, Except.ok.injEq] at h
      exact h ▸ hm

theorem LoadNitroLibrary_ok {P : Type} (z : Zlib) (J : Json P) (fs : FileSystem)
    (filepath : GoString) (range : NitroArchive → List (GoString × NitroFile))
    (lib : NitroLibrary) (h : LoadNitroLibrary z J fs filepath range = .ok lib) :
    loadNitroArchive z fs filepath = .ok lib.Archive
      ∧ ∃ entry furni, (range lib.Archive).find? (fun e => hasSuffix e.2.Name dotJson) = some entry
          ∧ J.unmarshalPtr entry.2.Data none = (some furni, none)
          ∧ lib.Furni = some furni
          ∧ lib.OriginalJSON = some entry.2.Data := by
  unfold LoadNitroLibrary at h
  cases hl : loadNitroArchive z fs filepath with
  | error e => simp [hl] at h
  | ok archive =>
    simp only [hl] at h
    cases hfind : (range archive).find? (fun e => hasSuffix e.2.Name dotJson) with
    | none =>
      rw [libraryOfArchive_none J archive filepath _ hfind] at h
      exact Except.noConfusion h
    | some entry =>
      rcases hu : J.unmarshalPtr entry.2.Data none with ⟨furni, err⟩
      cases err with
      | some e =>
        rw [libraryOfArchive_error J archive filepath _ entry furni e hfind hu] at h
        exact Except.noConfusion h
      | none =>
        cases furni with
        | none =>
          rw [libraryOfArchive_nil J archive filepath _ entry hfind hu] at h
          exact Except.noConfusion h
        | some f =>
          rw [libraryOfArchive_ok J archive filepath _ entry f hfind hu] at h
          have h' := Except.ok.inj h
          subst h'
          exact ⟨rfl, entry, f, hfind, hu, rfl, rfl⟩

/-- C12 (amended).  Untouched document keeps its bytes: for every archive that
`LoadNitroLibrary` accepts and in which the entries whose name ends in `.json`
all hold the same data (so for every archive with one such entry), `Save`
without an `UpdateJSONContent` before it leaves the archive of the library as
it was decoded: every entry keeps its name and its data. -/
theorem Save_untouched_keeps_entries {P : Type} (z : Zlib) (J : Json P) (fs : FileSystem)
    (filepath : GoString) (range : NitroArchive → List (GoString × NitroFile))
    (lib : NitroLibrary) (fs' : FileSystem) (created : Bool) (path : GoString)
    (order order' : List (GoString × NitroFile))
    (hload : LoadNitroLibrary z J fs filepath range = .ok lib)
    (hrange : RangeOf lib.Archive.Files (range lib.Archive))
    (horder : RangeOf lib.Archive.Files order)
    (hsame : ∀ e ∈ lib.Archive.Files, ∀ e' ∈ lib.Archive.Files,
      hasSuffix e.2.Name dotJson = true → hasSuffix e'.2.Name dotJson = true →
        e.2.Data = e'.2.Data) :
    (Save z J lib fs' created path order order').1.Archive = lib.Archive
      ∧ ∀ k, mapGet (Save z J lib fs' created path order order').1.Archive.Files k
          = mapGet lib.Archive.Files k := by
  obtain ⟨hl, entry, furni, hfind, -, -, horig⟩ := LoadNitroLibrary_ok z J fs filepath range lib hload
  have hmap : MapOK lib.Archive.Files := loadNitroArchive_MapOK z fs filepath _ hl
  have hperm : (range lib.Archive).Perm lib.Archive.Files := hrange
  have hperm' : order.Perm lib.Archive.Files := horder
  have hentry : entry ∈ lib.Archive.Files := hperm.mem_iff.1 (List.mem_of_find?_eq_some hfind)
  have hesuf : hasSuffix entry.2.Name dotJson = true := by simpa using List.find?_some hfind
  have harch : (Save z J lib fs' created path order order').1.Archive = lib.Archive := by
    simp only [Save, saveJSONBytes, horig, updateJSONFile_eq]
    cases hf : order.find? (fun e => hasSuffix e.2.Name dotJson) with
    | none => rfl
    | some e =>
      have he : e ∈ lib.Archive.Files := hperm'.mem_iff.1 (List.mem_of_find?_eq_some hf)
      have hsuf : hasSuffix e.2.Name dotJson = true := by simpa using List.find?_some hf
      have hd : entry.2.Data = e.2.Data := hsame entry hentry e he hesuf hsuf
      have hval : ({ Name := e.2.Name, Data := entry.2.Data } : NitroFile) = e.2 := by
        rw [hd]
      simp only [hval]
      rw [mapSet_self _ _ _ hmap he]
  exact ⟨harch, fun k => by rw [harch]⟩

/-- Witness of C12: the library loaded from an archive whose only entry is `a.json`. -/
theorem Save_untouched_keeps_entries_witness :
    (Save storedZlib tinyJson emptyDocumentLibrary (fun _ => none) true [121]
        emptyDocumentLibrary.Archive.Files emptyDocumentLibrary.Archive.Files).1.Archive
        = emptyDocumentLibrary.Archive
      ∧ ∀ k, mapGet (Save storedZlib tinyJson emptyDocumentLibrary (fun _ => none) true [121]
            emptyDocumentLibrary.Archive.Files emptyDocumentLibrary.Archive.Files).1.Archive.Files k
          = mapGet emptyDocumentLibrary.Archive.Files k :=
  Save_untouched_keeps_entries storedZlib tinyJson (fun _ => some emptyDocumentBytes) [120]
    (fun a => a.Files) emptyDocumentLibrary (fun _ => none) true [121]
    emptyDocumentLibrary.Archive.Files emptyDocumentLibrary.Archive.Files
    (by decide) (by decide) (by decide) (by decide)

/-- Counterexample of C12 as stated: the archive with `a.json` = `{}` and
`b.json` = `null` is accepted by `LoadNitroLibrary` when `range` visits `a.json`
first; when the loop of `Save` visits `b.json` first, the data of `b.json`
changes from `null` to `{}`. -/
theorem Save_untouched_changes_second_document :
    LoadNitroLibrary storedZlib tinyJson (fun _ => some twoDocumentsBytes) [120]
        (fun a => a.Files) = .ok twoDocumentsLibrary
      ∧ RangeOf twoDocumentsLibrary.Archive.Files twoDocumentsLibrary.Archive.Files
      ∧ RangeOf twoDocumentsLibrary.Archive.Files twoDocumentsOrder
      ∧ mapGet twoDocumentsLibrary.Archive.Files bJson = some { Name := bJson, Data := jsonNull }
      ∧ mapGet (Save storedZlib tinyJson twoDocumentsLibrary (fun _ => none) true [120]
            twoDocumentsOrder twoDocumentsOrder).1.Archive.Files bJson
          = some { Name := bJson, Data := jsonEmptyObject } := by
  decide

theorem foldl_append_singleton {α β : Type} (g : α → β) (l : List α) (acc : List β) :
    l.foldl (fun acc e => acc ++ [g e]) acc = acc ++ l.map g := by
  induction l generalizing acc with
  | nil => simp
  | cons a t ih => simp [ih]

theorem getDetailedInfo_frames (F : FloatOps) (R : GoRange) (furni : NitroFurni) :
    (getDetailedInfo F R furni).frames
      = (R _ furni.Spritesheet.Frames).map (fun e => frameInfo e.1 e.2) := by
  simp only [getDetailedInfo, foldl_append_singleton, List.nil_append]

theorem getDetailedInfo_assets (F : FloatOps) (R : GoRange) (furni : NitroFurni) :
    (getDetailedInfo F R furni).assets
      = (R _ furni.Assets).map (fun e => assetInfo F furni e.1 e.2) := by
  simp only [getDetailedInfo, foldl_append_singleton, List.nil_append]

theorem getDetailedInfo_visualizations (F : FloatOps) (R : GoRange) (furni : NitroFurni) :
    (getDetailedInfo F R furni).visualizations
      = furni.Visualizations.map (visualizationRecord R furni) := by
  simp only [getDetailedInfo, foldl_append_singleton, List.nil_append]

theorem assetInfo_mem (F : FloatOps) (R : GoRange) (furni : NitroFurni) (hR : R.OK)
    (k : GoString) (asset : NitroAsset) (hmem : (k, asset) ∈ furni.Assets) :
    assetInfo F furni k asset ∈ (getDetailedInfo F R furni).assets := by
  rw [getDetailedInfo_assets]
  exact List.mem_map.2 ⟨(k, asset), (List.Perm.mem_iff (hR _ furni.Assets)).2 hmem, rfl⟩

/-- C14.  Asset offset formula: for every asset `k` of the document the
projection has a record with that key whose `offsetX` is `-asset.x` plus
`spriteSourceSize.x` of the frame stored under the resolved source frame name
when that name is a key of `spritesheet.frames`, and `-asset.x` when it is not;
likewise `offsetY`.  The arithmetic is that of `float64`, given by `F`. -/
theorem asset_offset_formula (F : FloatOps) (R : GoRange) (furni : NitroFurni) (hR : R.OK)
    (k : GoString) (asset : NitroAsset) (hmem : (k, asset) ∈ furni.Assets) :
    ∃ r ∈ (getDetailedInfo F R furni).assets, r.name = k ∧ r.x = asset.X ∧ r.y = asset.Y
      ∧ (∀ frame, mapGet furni.Spritesheet.Frames r.source = some frame →
          r.offsetX = F.add (F.neg asset.X) (F.ofInt frame.SpriteSourceSize.X)
            ∧ r.offsetY = F.add (F.neg asset.Y) (F.ofInt frame.SpriteSourceSize.Y))
      ∧ (mapGet furni.Spritesheet.Frames r.source = none →
          r.offsetX = F.neg asset.X ∧ r.offsetY = F.neg asset.Y) := by
  refine ⟨assetInfo F furni k asset, assetInfo_mem F R furni hR k asset hmem, rfl, rfl, rfl, ?_, ?_⟩
  · intro frame hframe
    have h : mapGet furni.Spritesheet.Frames (sourceFrameName furni k asset) = some frame := hframe
    simp only [assetInfo, h, and_self]
  · intro hnone
    have h : mapGet furni.Spritesheet.Frames (sourceFrameName furni k asset) = none := hnone
    simp only [assetInfo, h, and_self]

/-- Witness of C14: the asset at `(10, 5)` whose frame has `spriteSourceSize`
`(3, 7)` is projected to the offset `(-7, 2)`, and the asset at `(10, 5)` whose
frame is absent to `(-10, -5)`. -/
theorem asset_offset_formula_witness :
    (∃ r ∈ (getDetailedInfo exactFloat storedOrder sampleFurni).assets,
        r.name = [97] ∧ r.x = sampleAsset.X ∧ r.y = sampleAsset.Y
      ∧ (∀ frame, mapGet sampleFurni.Spritesheet.Frames r.source = some frame →
          r.offsetX = exactFloat.add (exactFloat.neg sampleAsset.X)
              (exactFloat.ofInt frame.SpriteSourceSize.X)
            ∧ r.offsetY = exactFloat.add (exactFloat.neg sampleAsset.Y)
              (exactFloat.ofInt frame.SpriteSourceSize.Y))
      ∧ (mapGet sampleFurni.Spritesheet.Frames r.source = none →
          r.offsetX = exactFloat.neg sampleAsset.X ∧ r.offsetY = exactFloat.neg sampleAsset.Y))
      ∧ (getDetailedInfo exactFloat storedOrder sampleFurni).assets
          = [{ name := [97], source := [102, 95, 97], x := 10, y := 5, offsetX := -7,
               offsetY := 2, flipH := false, flipV := false },
             { name := [98], source := [102, 95, 98], x := 10, y := 5, offsetX := -10,
               offsetY := -5, flipH := false, flipV := false }] :=
  ⟨asset_offset_formula exactFloat storedOrder sampleFurni (fun _ _ => List.Perm.refl _)
    [97] sampleAsset (by decide), by
      rw [getDetailedInfo_assets]
      simp [storedOrder, sampleFurni, assetInfo, sourceFrameName, mapGet, sampleAsset,
        sampleFrame, exactFloat, underscore, NitroFurni.zero]
      norm_num⟩

/-- C15.  Source frame resolution: for every asset with key `k` the projected
`source` is `furniName + "_" + asset.source` when `asset.source` is not empty
and `furniName + "_" + k` otherwise, and the offsets are computed from the
frame looked up under that same string. -/
theorem asset_source_resolution (F : FloatOps) (R : GoRange) (furni : NitroFurni) (hR : R.OK)
    (k : GoString) (asset : NitroAsset) (hmem : (k, asset) ∈ furni.Assets) :
    ∃ r ∈ (getDetailedInfo F R furni).assets, r.name = k
      ∧ (asset.Source ≠ [] → r.source = furni.Name ++ underscore ++ asset.Source)
      ∧ (asset.Source = [] → r.source = furni.Name ++ underscore ++ k)
      ∧ (r.offsetX, r.offsetY)
          = (match mapGet furni.Spritesheet.Frames r.source with
             | some frameData =>
               (F.add (F.neg asset.X) (F.ofInt frameData.SpriteSourceSize.X),
                F.add (F.neg asset.Y) (F.ofInt frameData.SpriteSourceSize.Y))
             | none => (F.neg asset.X, F.neg asset.Y)) := by
  refine ⟨assetInfo F furni k asset, assetInfo_mem F R furni hR k asset hmem, rfl, ?_, ?_, rfl⟩
  · intro h
    simp only [assetInfo, sourceFrameName, h, ne_eq, not_false_eq_true, if_true]
  · intro h
    simp only [assetInfo, sourceFrameName, h, ne_eq, not_true_eq_false, if_false]

/-- Witness of C15: the asset `b` of `sampleFurni`, which has no source. -/
theorem asset_source_resolution_witness :
    ∃ r ∈ (getDetailedInfo exactFloat storedOrder sampleFurni).assets, r.name = [98]
      ∧ (sampleAsset.Source ≠ [] → r.source = sampleFurni.Name ++ underscore ++ sampleAsset.Source)
      ∧ (sampleAsset.Source = [] → r.source = sampleFurni.Name ++ underscore ++ [98])
      ∧ (r.offsetX, r.offsetY)
          = (match mapGet sampleFurni.Spritesheet.Frames r.source with
             | some frameData =>
               (exactFloat.add (exactFloat.neg sampleAsset.X)
                  (exactFloat.ofInt frameData.SpriteSourceSize.X),
                exactFloat.add (exactFloat.neg sampleAsset.Y)
                  (exactFloat.ofInt frameData.SpriteSourceSize.Y))
             | none => (exactFloat.neg sampleAsset.X, exactFloat.neg sampleAsset.Y)) :=
  asset_source_resolution exactFloat storedOrder sampleFurni (fun _ _ => List.Perm.refl _)
    [98] sampleAsset (by decide)

/-- C16 (amended).  Emitted asset name: the `name` fields of the projected asset
records are the asset keys, one record per key; for every asset with key `k`
the `name` of its record is `k` itself, and the full name
`furniName + "_" + k` is emitted as the `source` when `asset.source` is empty. -/
theorem asset_name_is_key (F : FloatOps) (R : GoRange) (furni : NitroFurni) (hR : R.OK) :
    ((getDetailedInfo F R furni).assets.map (fun r => r.name)).Perm (furni.Assets.map Prod.fst)
      ∧ ∀ k asset, (k, asset) ∈ furni.Assets →
          ∃ r ∈ (getDetailedInfo F R furni).assets, r.name = k
            ∧ (asset.Source = [] → r.source = furni.Name ++ underscore ++ k) := by
  constructor
  · rw [getDetailedInfo_assets, List.map_map]
    exact List.Perm.map _ (hR _ furni.Assets)
  · intro k asset hmem
    refine ⟨assetInfo F furni k asset, assetInfo_mem F R furni hR k asset hmem, rfl, ?_⟩
    intro h
    simp only [assetInfo, sourceFrameName, h, ne_eq, not_true_eq_false, if_false]

/-- Witness of C16 (amended): the assets of `sampleFurni`. -/
theorem asset_name_is_key_witness :
    ((getDetailedInfo exactFloat storedOrder sampleFurni).assets.map (fun r => r.name)).Perm
        (sampleFurni.Assets.map Prod.fst)
      ∧ ∀ k asset, (k, asset) ∈ sampleFurni.Assets →
          ∃ r ∈ (getDetailedInfo exactFloat storedOrder sampleFurni).assets, r.name = k
            ∧ (asset.Source = [] → r.source = sampleFurni.Name ++ underscore ++ k) :=
  asset_name_is_key exactFloat storedOrder sampleFurni (fun _ _ => List.Perm.refl _)

/-- Counterexample of C16 as stated: the document `f` has the asset `a`, whose
full name is `f_a`; the projected records have the names `a` and `b`, none of
them is `f_a`. -/
theorem asset_name_is_not_full_name :
    GoRange.OK storedOrder
      ∧ ([97], sampleAsset) ∈ sampleFurni.Assets
      ∧ sampleFurni.Name ++ underscore ++ [97] = [102, 95, 97]
      ∧ (getDetailedInfo exactFloat storedOrder sampleFurni).assets.map (fun r => r.name)
          = [[97], [98]]
      ∧ ∀ r ∈ (getDetailedInfo exactFloat storedOrder sampleFurni).assets,
          r.name ≠ sampleFurni.Name ++ underscore ++ [97] := by
  have h : (getDetailedInfo exactFloat storedOrder sampleFurni).assets.map (fun r => r.name)
      = [[97], [98]] := by
    rw [getDetailedInfo_assets]
    rfl
  refine ⟨fun _ _ => List.Perm.refl _, by decide, by decide, h, ?_⟩
  intro r hr
  have hn : r.name ∈ (getDetailedInfo exactFloat storedOrder sampleFurni).assets.map
      (fun r => r.name) := List.mem_map.2 ⟨r, hr, rfl⟩
  rw [h] at hn
  intro heq
  rw [heq] at hn
  revert hn
  decide

/-- C20.  Frame and asset pass-through: the projection emits one record per key
of `spritesheet.frames`, each carrying the name of a frame and its rect,
rotated and trimmed flags, `spriteSourceSize`, `sourceSize` and pivot unchanged,
and one record per key of `assets`; `meta.frameCount` and `meta.assetCount` are
the numbers of frames and assets, and the name, `logicType`, `visualType` and
`spritesheet` of `meta` are those of the document. -/
theorem frames_and_assets_pass_through (F : FloatOps) (R : GoRange) (furni : NitroFurni)
    (hR : R.OK) :
    ((getDetailedInfo F R furni).frames.map (fun r => r.name)).Perm
        (furni.Spritesheet.Frames.map Prod.fst)
      ∧ (∀ r ∈ (getDetailedInfo F R furni).frames, ∃ e ∈ furni.Spritesheet.Frames,
          r.name = e.1 ∧ r.frame = e.2.Frame ∧ r.rotated = e.2.Rotated
            ∧ r.trimmed = e.2.Trimmed ∧ r.spriteSourceSize = e.2.SpriteSourceSize
            ∧ r.sourceSize = e.2.SourceSize ∧ r.pivot = e.2.Pivot)
      ∧ (∀ e ∈ furni.Spritesheet.Frames, ∃ r ∈ (getDetailedInfo F R furni).frames,
          r.name = e.1 ∧ r.frame = e.2.Frame ∧ r.rotated = e.2.Rotated
            ∧ r.trimmed = e.2.Trimmed ∧ r.spriteSourceSize = e.2.SpriteSourceSize
            ∧ r.sourceSize = e.2.SourceSize ∧ r.pivot = e.2.Pivot)
      ∧ ((getDetailedInfo F R furni).assets.map (fun r => r.name)).Perm
          (furni.Assets.map Prod.fst)
      ∧ (getDetailedInfo F R furni).meta.frameCount = furni.Spritesheet.Frames.length
      ∧ (getDetailedInfo F R furni).meta.assetCount = furni.Assets.length
      ∧ (getDetailedInfo F R furni).meta.name = furni.Name
      ∧ (getDetailedInfo F R furni).meta.logicType = furni.LogicType
      ∧ (getDetailedInfo F R furni).meta.visualType = furni.VisualizationType
      ∧ (getDetailedInfo F R furni).meta.spritesheet = furni.Spritesheet.Meta.Image := by
  have hf : (R _ furni.Spritesheet.Frames).Perm furni.Spritesheet.Frames := hR _ _
  have ha : (R _ furni.Assets).Perm furni.Assets := hR _ _
  refine ⟨?_, ?_, ?_, ?_, ?_, ?_, rfl, rfl, rfl, rfl⟩
  · rw [getDetailedInfo_frames, List.map_map]
    exact List.Perm.map _ hf
  · intro r hr
    rw [getDetailedInfo_frames] at hr
    obtain ⟨e, he, rfl⟩ := List.mem_map.1 hr
    exact ⟨e, hf.mem_iff.1 he, rfl, rfl, rfl, rfl, rfl, rfl, rfl⟩
  · intro e he
    refine ⟨frameInfo e.1 e.2, ?_, rfl, rfl, rfl, rfl, rfl, rfl, rfl⟩
    rw [getDetailedInfo_frames]
    exact List.mem_map.2 ⟨e, hf.mem_iff.2 he, rfl⟩
  · rw [getDetailedInfo_assets, List.map_map]
    exact List.Perm.map _ ha
  · have h : (getDetailedInfo F R furni).meta.frameCount
        = (getDetailedInfo F R furni).frames.length := rfl
    rw [h, getDetailedInfo_frames, List.length_map, hf.length_eq]
  · have h : (getDetailedInfo F R furni).meta.assetCount
        = (getDetailedInfo F R furni).assets.length := rfl
    rw [h, getDetailedInfo_assets, List.length_map, ha.length_eq]

/-- Witness of C20: the projection of `sampleFurni`. -/
theorem frames_and_assets_pass_through_witness :
    ((getDetailedInfo exactFloat storedOrder sampleFurni).frames.map (fun r => r.name)).Perm
        (sampleFurni.Spritesheet.Frames.map Prod.fst)
      ∧ (∀ r ∈ (getDetailedInfo exactFloat storedOrder sampleFurni).frames,
          ∃ e ∈ sampleFurni.Spritesheet.Frames,
          r.name = e.1 ∧ r.frame = e.2.Frame ∧ r.rotated = e.2.Rotated
            ∧ r.trimmed = e.2.Trimmed ∧ r.spriteSourceSize = e.2.SpriteSourceSize
            ∧ r.sourceSize = e.2.SourceSize ∧ r.pivot = e.2.Pivot)
      ∧ (∀ e ∈ sampleFurni.Spritesheet.Frames,
          ∃ r ∈ (getDetailedInfo exactFloat storedOrder sampleFurni).frames,
          r.name = e.1 ∧ r.frame = e.2.Frame ∧ r.rotated = e.2.Rotated
            ∧ r.trimmed = e.2.Trimmed ∧ r.spriteSourceSize = e.2.SpriteSourceSize
            ∧ r.sourceSize = e.2.SourceSize ∧ r.pivot = e.2.Pivot)
      ∧ ((getDetailedInfo exactFloat storedOrder sampleFurni).assets.map (fun r => r.name)).Perm
          (sampleFurni.Assets.map Prod.fst)
      ∧ (getDetailedInfo exactFloat storedOrder sampleFurni).meta.frameCount
          = sampleFurni.Spritesheet.Frames.length
      ∧ (getDetailedInfo exactFloat storedOrder sampleFurni).meta.assetCount
          = sampleFurni.Assets.length
      ∧ (getDetailedInfo exactFloat storedOrder sampleFurni).meta.name = sampleFurni.Name
      ∧ (getDetailedInfo exactFloat storedOrder sampleFurni).meta.logicType
          = sampleFurni.LogicType
      ∧ (getDetailedInfo exactFloat storedOrder sampleFurni).meta.visualType
          = sampleFurni.VisualizationType
      ∧ (getDetailedInfo exactFloat storedOrder sampleFurni).meta.spritesheet
          = sampleFurni.Spritesheet.Meta.Image :=
  frames_and_assets_pass_through exactFloat storedOrder sampleFurni (fun _ _ => List.Perm.refl _)

theorem visualizationBySize_none (vs : List NitroVisualization) (size : Int) :
    visualizationBySize vs size = none ↔ ∀ v ∈ vs, v.Size ≠ size := by
  induction vs with
  | nil => simp [visualizationBySize]
  | cons v t ih =>
    by_cases h : v.Size = size
    · simp [visualizationBySize, h]
    · simp [visualizationBySize, h, ih]

theorem visualizationBySize_some (vs : List NitroVisualization) (size : Int)
    (v : NitroVisualization) (h : visualizationBySize vs size = some v) :
    ∃ before after, vs = before ++ v :: after ∧ v.Size = size ∧ ∀ u ∈ before, u.Size ≠ size := by
  induction vs with
  | nil => simp [visualizationBySize] at h
  | cons w t ih =>
    by_cases hw : w.Size = size
    · simp only [visualizationBySize, hw, if_true, Option.some.injEq] at h
      subst h
      exact ⟨[], t, rfl, hw, by simp⟩
    · simp only [visualizationBySize, hw, if_false] at h
      obtain ⟨before, after, rfl, hs, hb⟩ := ih h
      refine ⟨w :: before, after, rfl, hs, ?_⟩
      intro u hu
      rcases List.mem_cons.1 hu with rfl | hu
      · exact hw
      · exact hb u hu

theorem visualizationBySize_unique (vs : List NitroVisualization)
    (hnodup : (vs.map (fun v => v.Size)).Nodup) (v : NitroVisualization) (hv : v ∈ vs) :
    visualizationBySize vs v.Size = some v := by
  induction vs with
  | nil => simp at hv
  | cons w t ih =>
    simp only [List.map_cons, List.nodup_cons] at hnodup
    rcases List.mem_cons.1 hv with rfl | hv
    · simp [visualizationBySize]
    · have hne : ¬ w.Size = v.Size := by
        intro h
        exact hnodup.1 (h ▸ List.mem_map.2 ⟨v, hv, rfl⟩)
      simp only [visualizationBySize, hne, if_false]
      exact ih hnodup.2 hv

/-- C18.  Visualization lookup by size: `getNitroVisualizationBySize` returns nil
exactly when no visualization of the document has the size; otherwise it
returns the first visualization in document order that has the size, which is
the only one when the sizes of the document are pairwise distinct. -/
theorem getNitroVisualizationBySize_result (furni : NitroFurni) (size : Int) :
    (getNitroVisualizationBySize furni size = none ↔
        ∀ v ∈ furni.Visualizations, v.Size ≠ size)
      ∧ (∀ v, getNitroVisualizationBySize furni size = some v →
          ∃ before after, furni.Visualizations = before ++ v :: after ∧ v.Size = size
            ∧ ∀ u ∈ before, u.Size ≠ size)
      ∧ ((furni.Visualizations.map (fun v => v.Size)).Nodup →
          ∀ v ∈ furni.Visualizations, v.Size = size →
            getNitroVisualizationBySize furni size = some v) := by
  refine ⟨visualizationBySize_none _ _, fun v h => visualizationBySize_some _ _ v h, ?_⟩
  intro hnodup v hv hsize
  subst hsize
  exact visualizationBySize_unique _ hnodup v hv

theorem searchDirection_eq (directions : List Int) (requested : Int) :
    searchDirection directions requested 0 4
      = (([2, 4, 6, 0] : List Int).find? (fun d => decide (d ∈ directions))).getD requested := by
  simp only [searchDirection, List.find?]
  have e0 : (2 + ((0 : Nat) : Int) * 2) % 8 = 2 := by decide
  have e1 : (2 + (((0 : Nat) + 1 : Nat) : Int) * 2) % 8 = 4 := by decide
  have e2 : (2 + (((0 : Nat) + 1 + 1 : Nat) : Int) * 2) % 8 = 6 := by decide
  have e3 : (2 + (((0 : Nat) + 1 + 1 + 1 : Nat) : Int) * 2) % 8 = 0 := by decide
  rw [e0, e1, e2, e3]
  by_cases h2 : (2 : Int) ∈ directions
  · simp [h2]
  · by_cases h4 : (4 : Int) ∈ directions
    · simp [h2, h4]
    · by_cases h6 : (6 : Int) ∈ directions
      · simp [h2, h4, h6]
      · by_cases h0 : (0 : Int) ∈ directions
        · simp [h2, h4, h6, h0]
        · simp [h2, h4, h6, h0]

/-- C19.  Direction fallback: the candidates `(2 + 2*i) mod 8` for `i = 0..3` are
2, 4, 6, 0; the direction used is the requested one when it is available,
otherwise the first of 2, 4, 6, 0 that is available, and the requested one when
none of them is.  With the directions 0 and 4 available, the request 2 gives 4. -/
theorem renderDirection_fallback (directions : List Int) (requested : Int) :
    ((List.range 4).map (fun i => (2 + 2 * (i : Int)) % 8) = [2, 4, 6, 0])
      ∧ (requested ∈ directions → renderDirection directions requested = requested)
      ∧ (requested ∉ directions → renderDirection directions requested
          = (([2, 4, 6, 0] : List Int).find? (fun d => decide (d ∈ directions))).getD requested)
      ∧ (requested ∉ directions → (∀ d ∈ ([2, 4, 6, 0] : List Int), d ∉ directions) →
          renderDirection directions requested = requested)
      ∧ renderDirection [0, 4] 2 = 4 := by
  refine ⟨by decide, ?_, ?_, ?_, by decide⟩
  · intro h
    simp only [renderDirection, h, if_true]
  · intro h
    simp only [renderDirection, h, if_false, searchDirection_eq]
  · intro h hall
    simp only [renderDirection, h, if_false, searchDirection_eq]
    have : ([2, 4, 6, 0] : List Int).find? (fun d => decide (d ∈ directions)) = none := by
      rw [List.find?_eq_none]
      intro d hd
      simpa using hall d hd
    rw [this]
    rfl

theorem foldl_mapSet_map {V W : Type} (g : GoString → V → W) (order : List (GoString × V))
    (h : MapOK order) :
    order.foldl (fun acc e => mapSet acc e.1 (g e.1 e.2)) []
      = order.map (fun e => (e.1, g e.1 e.2)) := by
  have h1 : order.foldl (fun acc e => mapSet acc e.1 (g e.1 e.2)) []
      = (order.map (fun e => (e.1, g e.1 e.2))).foldl (fun acc e => mapSet acc e.1 e.2) [] := by
    rw [List.foldl_map]
  rw [h1, foldl_mapSet_nodup _ [] (by simpa [List.map_map, Function.comp_def, MapOK] using h)]
  rfl

theorem mapGet_map_values {V W : Type} (g : GoString → V → W) (m : List (GoString × V))
    (k : GoString) :
    mapGet (m.map (fun e => (e.1, g e.1 e.2))) k = (mapGet m k).map (g k) := by
  induction m with
  | nil => rfl
  | cons e t ih =>
    obtain ⟨k₀, v₀⟩ := e
    by_cases h : k₀ = k
    · subst h
      simp [mapGet]
    · simp [mapGet, h, ih]

theorem mapGet_foldl_range {V W : Type} (g : GoString → V → W) (m order : List (GoString × V))
    (hm : MapOK m) (horder : RangeOf m order) (k : GoString) :
    mapGet (order.foldl (fun acc e => mapSet acc e.1 (g e.1 e.2)) []) k
      = (mapGet m k).map (g k) := by
  have hperm : order.Perm m := horder
  have ho : MapOK order := (List.Perm.nodup_iff (hperm.map Prod.fst)).2 hm
  rw [foldl_mapSet_map g order ho, mapGet_map_values, mapGet_perm hperm ho]

theorem keys_foldl_range {V W : Type} (g : GoString → V → W) (m order : List (GoString × V))
    (hm : MapOK m) (horder : RangeOf m order) :
    ((order.foldl (fun acc e => mapSet acc e.1 (g e.1 e.2)) []).map Prod.fst).Perm
      (m.map Prod.fst) := by
  have hperm : order.Perm m := horder
  have ho : MapOK order := (List.Perm.nodup_iff (hperm.map Prod.fst)).2 hm
  rw [foldl_mapSet_map g order ho, List.map_map]
  exact hperm.map _

/-- C17 (amended).  Direction fragments: for every visualization `vis` of the
document that is the first one of its size (every visualization when the
sizes are pairwise distinct) and every direction `d` of `vis`, the projected
record of `vis` has under `d` a record whose layers have exactly the layer ids
of `vis.directions[d].layers`, and the record of each layer id has the `x`,
`y`, `z`, `alpha`, `ink`, `ignoreMouse` and `color` of that raw per-direction
layer and nothing of the base layer. -/
theorem direction_layers_from_raw_records (F : FloatOps) (R : GoRange) (furni : NitroFurni)
    (hR : R.OK) (vis : NitroVisualization) (d : GoString) (dir : NitroDirection)
    (hvis : vis ∈ furni.Visualizations)
    (hfirst : getNitroVisualizationBySize furni vis.Size = some vis)
    (hdirs : MapOK vis.Directions) (hd : (d, dir) ∈ vis.Directions)
    (hlayers : MapOK dir.Layers) :
    visualizationRecord R furni vis ∈ (getDetailedInfo F R furni).visualizations
      ∧ ∃ record, mapGet (visualizationRecord R furni vis).directions d = some record
          ∧ record.id = d
          ∧ (record.layers.map Prod.fst).Perm (dir.Layers.map Prod.fst)
          ∧ (∀ l dirLayer, mapGet dir.Layers l = some dirLayer →
              mapGet record.layers l
                = some { x := dirLayer.X, y := dirLayer.Y, z := dirLayer.Z,
                         alpha := dirLayer.Alpha, ink := dirLayer.Ink,
                         ignoreMouse := dirLayer.IgnoreMouse, color := dirLayer.Color })
          ∧ (∀ l, mapGet dir.Layers l = none → mapGet record.layers l = none) := by
  constructor
  · rw [getDetailedInfo_visualizations]
    exact List.mem_map.2 ⟨vis, hvis, rfl⟩
  · have hget : mapGet vis.Directions d = some dir := mapGet_of_mem _ _ _ hdirs hd
    have hrec : mapGet (visualizationRecord R furni vis).directions d
        = some { id := d, layers := directionLayers R furni vis d } := by
      simp only [visualizationRecord]
      rw [mapGet_foldl_range (fun k (_ : NitroDirection) =>
        ({ id := k, layers := directionLayers R furni vis k } : DirectionRecord))
        vis.Directions _ hdirs (hR _ _) d, hget]
      rfl
    have hl : directionLayers R furni vis d
        = (R _ dir.Layers).foldl
            (fun acc e => mapSet acc e.1 (directionLayerRecord e.2)) [] := by
      simp only [directionLayers, hfirst, hget]
    have hall : ∀ l, mapGet (directionLayers R furni vis d) l
        = (mapGet dir.Layers l).map directionLayerRecord := by
      intro l
      rw [hl]
      exact mapGet_foldl_range (fun _ v => directionLayerRecord v) dir.Layers _ hlayers
        (hR _ _) l
    refine ⟨_, hrec, rfl, ?_, ?_, ?_⟩
    · show ((directionLayers R furni vis d).map Prod.fst).Perm _
      rw [hl]
      exact keys_foldl_range (fun _ v => directionLayerRecord v) dir.Layers _ hlayers (hR _ _)
    · intro l dirLayer hlayer
      show mapGet (directionLayers R furni vis d) l = _
      rw [hall l, hlayer]
      rfl
    · intro l hnone
      show mapGet (directionLayers R furni vis d) l = _
      rw [hall l, hnone]
      rfl

/-- Witness of C17 (amended): the direction `0` of `shiftedVisualization`, the
only visualization of `shiftedFurni`; its layer `0` is emitted with the seven
fields of the raw layer of the direction. -/
theorem direction_layers_from_raw_records_witness :
    visualizationRecord storedOrder shiftedFurni shiftedVisualization
        ∈ (getDetailedInfo exactFloat storedOrder shiftedFurni).visualizations
      ∧ ∃ record, mapGet (visualizationRecord storedOrder shiftedFurni
              shiftedVisualization).directions [48] = some record
          ∧ record.id = [48]
          ∧ (record.layers.map Prod.fst).Perm (shiftedDirection.Layers.map Prod.fst)
          ∧ (∀ l dirLayer, mapGet shiftedDirection.Layers l = some dirLayer →
              mapGet record.layers l
                = some { x := dirLayer.X, y := dirLayer.Y, z := dirLayer.Z,
                         alpha := dirLayer.Alpha, ink := dirLayer.Ink,
                         ignoreMouse := dirLayer.IgnoreMouse, color := dirLayer.Color })
          ∧ (∀ l, mapGet shiftedDirection.Layers l = none → mapGet record.layers l = none) :=
  direction_layers_from_raw_records exactFloat storedOrder shiftedFurni
    (fun _ _ => List.Perm.refl _) shiftedVisualization [48] shiftedDirection (by decide)
    (by decide) (by decide) (by decide) (by decide)

/-- Counterexample of C17 as stated: `twinFurni` has two visualizations of size
64; in the second one the layer `0` of the direction `0` has `z = 2`, and its
projected record carries under the direction `0` the layer of the first
visualization, with `z = 1`. -/
theorem direction_layers_of_twin_visualization :
    GoRange.OK storedOrder
      ∧ sampleVisualization 2 ∈ twinFurni.Visualizations
      ∧ mapGet (sampleVisualization 2).Directions [48]
          = some { Id := 0, Layers := [([48], sampleLayer 2)] }
      ∧ (sampleLayer 2).Z = 2
      ∧ (getDetailedInfo exactFloat storedOrder twinFurni).visualizations
          = [visualizationRecord storedOrder twinFurni (sampleVisualization 1),
             visualizationRecord storedOrder twinFurni (sampleVisualization 2)]
      ∧ mapGet (visualizationRecord storedOrder twinFurni (sampleVisualization 2)).directions [48]
          = some { id := [48],
                   layers := [([48], { x := 0, y := 0, z := 1, alpha := 0, ink := [],
                                       ignoreMouse := false, color := 0 })] } := by
  refine ⟨fun _ _ => List.Perm.refl _, by decide, by decide, rfl, ?_, by decide⟩
  rw [getDetailedInfo_visualizations]
  rfl

/-! ## Invariants of the archive and the two encoders -/

/-- C21.  Layer-count consistency: the record that `getDetailedInfo` emits for a
visualization of the document has a base `layers` map with exactly the keys of
the visualization's `layers` map; the entry of a key has that key as `id`
and the `z`, `alpha`, `ink`, `ignoreMouse`, `color`, `x` and `y` of the raw
layer.  The record carries the declared `layerCount` unchanged; the number of
base layers is the number of entries of the map, so it equals the emitted
`layerCount` whenever the map has `layerCount` entries.  Nothing fails when
the two differ. -/
theorem base_layers_and_layer_count (F : FloatOps) (R : GoRange) (furni : NitroFurni)
    (hR : R.OK) (vis : NitroVisualization) (hvis : vis ∈ furni.Visualizations)
    (hlayers : MapOK vis.Layers) :
    visualizationRecord R furni vis ∈ (getDetailedInfo F R furni).visualizations
      ∧ ((visualizationRecord R furni vis).layers.map Prod.fst).Perm (vis.Layers.map Prod.fst)
      ∧ (∀ k layer, mapGet vis.Layers k = some layer →
          mapGet (visualizationRecord R furni vis).layers k
            = some { id := k, z := layer.Z, alpha := layer.Alpha, ink := layer.Ink,
                     ignoreMouse := layer.IgnoreMouse, color := layer.Color,
                     x := layer.X, y := layer.Y })
      ∧ (∀ k, mapGet vis.Layers k = none →
          mapGet (visualizationRecord R furni vis).layers k = none)
      ∧ (visualizationRecord R furni vis).layerCount = vis.LayerCount
      ∧ (visualizationRecord R furni vis).layers.length = vis.Layers.length
      ∧ ((vis.Layers.length : Int) = vis.LayerCount →
          ((visualizationRecord R furni vis).layers.length : Int)
            = (visualizationRecord R furni vis).layerCount) := by
  have hkeys : ((visualizationRecord R furni vis).layers.map Prod.fst).Perm
      (vis.Layers.map Prod.fst) :=
    keys_foldl_range layerRecord vis.Layers _ hlayers (hR _ _)
  have hlen : (visualizationRecord R furni vis).layers.length = vis.Layers.length := by
    have := hkeys.length_eq
    simpa using this
  have hall : ∀ k, mapGet (visualizationRecord R furni vis).layers k
      = (mapGet vis.Layers k).map (layerRecord k) := fun k =>
    mapGet_foldl_range layerRecord vis.Layers _ hlayers (hR _ _) k
  refine ⟨?_, hkeys, ?_, ?_, rfl, hlen, ?_⟩
  · rw [getDetailedInfo_visualizations]
    exact List.mem_map.2 ⟨vis, hvis, rfl⟩
  · intro k layer hlayer
    rw [hall k, hlayer]
    rfl
  · intro k hnone
    rw [hall k, hnone]
    rfl
  · intro h
    rw [hlen, h]
    rfl

/-- Witness of C21: `shiftedVisualization`, the only visualization of
`shiftedFurni`; its base layer `0` is emitted with the fields of the raw layer. -/
theorem base_layers_and_layer_count_witness :
    visualizationRecord storedOrder shiftedFurni shiftedVisualization
        ∈ (getDetailedInfo exactFloat storedOrder shiftedFurni).visualizations
      ∧ ((visualizationRecord storedOrder shiftedFurni shiftedVisualization).layers.map
          Prod.fst).Perm (shiftedVisualization.Layers.map Prod.fst)
      ∧ (∀ k layer, mapGet shiftedVisualization.Layers k = some layer →
          mapGet (visualizationRecord storedOrder shiftedFurni shiftedVisualization).layers k
            = some { id := k, z := layer.Z, alpha := layer.Alpha, ink := layer.Ink,
                     ignoreMouse := layer.IgnoreMouse, color := layer.Color,
                     x := layer.X, y := layer.Y })
      ∧ (∀ k, mapGet shiftedVisualization.Layers k = none →
          mapGet (visualizationRecord storedOrder shiftedFurni shiftedVisualization).layers k
            = none)
      ∧ (visualizationRecord storedOrder shiftedFurni shiftedVisualization).layerCount
          = shiftedVisualization.LayerCount
      ∧ (visualizationRecord storedOrder shiftedFurni shiftedVisualization).layers.length
          = shiftedVisualization.Layers.length
      ∧ ((shiftedVisualization.Layers.length : Int) = shiftedVisualization.LayerCount →
          ((visualizationRecord storedOrder shiftedFurni shiftedVisualization).layers.length : Int)
            = (visualizationRecord storedOrder shiftedFurni shiftedVisualization).layerCount) :=
  base_layers_and_layer_count exactFloat storedOrder shiftedFurni (fun _ _ => List.Perm.refl _)
    shiftedVisualization (by decide) (by decide)

theorem KeyedByName_mapSet (files : List (GoString × NitroFile)) (file : NitroFile)
    (h : KeyedByName { Files := files }) : KeyedByName { Files := mapSet files file.Name file } := by
  induction files with
  | nil =>
    intro e he
    simp only [mapSet, List.mem_singleton] at he
    subst he
    rfl
  | cons e₀ t ih =>
    obtain ⟨k₀, v₀⟩ := e₀
    have ht : KeyedByName { Files := t } := fun e he => h e (List.mem_cons_of_mem _ he)
    by_cases hk : k₀ = file.Name
    · intro e he
      simp only [mapSet, hk, if_true, List.mem_cons] at he
      rcases he with rfl | he
      · rfl
      · exact ht e he
    · intro e he
      simp only [mapSet, hk, if_false, List.mem_cons] at he
      rcases he with rfl | he
      · exact h _ (List.mem_cons_self _ _)
      · exact ih ht e he

theorem readFiles_KeyedByName (z : Zlib) (n : Nat) (acc : NitroArchive) (inp : List Byte)
    (h : KeyedByName acc) : KeyedByName (readFiles z n acc inp).1 := by
  induction n generalizing acc inp with
  | zero => exact h
  | succ n ih =>
    simp only [readFiles]
    cases hf : ReadFile z inp with
    | error e => exact h
    | ok r =>
      obtain ⟨file, rest⟩ := r
      exact ih _ _ (KeyedByName_mapSet acc.Files file h)

theorem ReadArchive_KeyedByName (z : Zlib) (inp : List Byte) : KeyedByName (ReadArchive z inp).1 := by
  unfold ReadArchive
  cases hs : readShort inp with
  | error e =>
    intro e he
    simp at he
  | ok r =>
    obtain ⟨n, rest⟩ := r
    exact readFiles_KeyedByName z n _ rest (fun e he => by simp at he)

/-- C24.  Decoded archives are keyed by entry name: in every archive that
`ReadArchive` returns, with or without an error, each file is stored under its
own name, and looking a key up gives a file of that name.  The archive update
of `Save` keeps this property and keeps the keys of the map as they are. -/
theorem archives_keyed_by_name {P : Type} (z : Zlib) (J : Json P) (inp : List Byte)
    (lib : NitroLibrary) (fs : FileSystem) (created : Bool) (filepath : GoString)
    (order order' : List (GoString × NitroFile))
    (hkey : KeyedByName lib.Archive) (horder : RangeOf lib.Archive.Files order) :
    KeyedByName (ReadArchive z inp).1
      ∧ (∀ k file, mapGet (ReadArchive z inp).1.Files k = some file → file.Name = k)
      ∧ KeyedByName (Save z J lib fs created filepath order order').1.Archive
      ∧ (Save z J lib fs created filepath order order').1.Archive.Files.map Prod.fst
          = lib.Archive.Files.map Prod.fst := by
  have hperm : order.Perm lib.Archive.Files := horder
  have hsave : KeyedByName (Save z J lib fs created filepath order order').1.Archive
      ∧ (Save z J lib fs created filepath order order').1.Archive.Files.map Prod.fst
          = lib.Archive.Files.map Prod.fst := by
    unfold Save
    cases hj : saveJSONBytes J lib with
    | error e => exact ⟨hkey, rfl⟩
    | ok jsonBytes =>
      simp only [updateJSONFile_eq]
      cases hf : order.find? (fun e => hasSuffix e.2.Name dotJson) with
      | none => exact ⟨hkey, rfl⟩
      | some e =>
        have he : e ∈ lib.Archive.Files := hperm.mem_iff.1 (List.mem_of_find?_eq_some hf)
        have hname : e.2.Name = e.1 := hkey e he
        constructor
        · have := KeyedByName_mapSet lib.Archive.Files { Name := e.2.Name, Data := jsonBytes } hkey
          simpa only [hname] using this
        · have hk : e.1 ∈ lib.Archive.Files.map Prod.fst := List.mem_map.2 ⟨e, he, rfl⟩
          simp only [keys_mapSet, hk, if_true]
  refine ⟨ReadArchive_KeyedByName z inp, ?_, hsave.1, hsave.2⟩
  intro k file hget
  have hmemAux : ∀ (m : List (GoString × NitroFile)), mapGet m k = some file → (k, file) ∈ m := by
    intro m
    induction m with
    | nil => intro h; simp [mapGet] at h
    | cons e t ih =>
      obtain ⟨k₀, v₀⟩ := e
      intro h
      by_cases hk : k₀ = k
      · simp only [mapGet, hk, if_true, Option.some.injEq] at h
        subst hk h
        exact List.mem_cons_self _ _
      · simp only [mapGet, hk, if_false] at h
        exact List.mem_cons_of_mem _ (ih h)
  exact ReadArchive_KeyedByName z inp (k, file) (hmemAux _ hget)

/-- Witness of C24: the library loaded from `twoDocumentsBytes`. -/
theorem archives_keyed_by_name_witness :
    KeyedByName (ReadArchive storedZlib twoDocumentsBytes).1
      ∧ (∀ k file, mapGet (ReadArchive storedZlib twoDocumentsBytes).1.Files k = some file →
          file.Name = k)
      ∧ KeyedByName (Save storedZlib tinyJson twoDocumentsLibrary (fun _ => none) true [120]
          twoDocumentsOrder twoDocumentsOrder).1.Archive
      ∧ (Save storedZlib tinyJson twoDocumentsLibrary (fun _ => none) true [120]
            twoDocumentsOrder twoDocumentsOrder).1.Archive.Files.map Prod.fst
          = twoDocumentsLibrary.Archive.Files.map Prod.fst :=
  archives_keyed_by_name storedZlib tinyJson twoDocumentsBytes twoDocumentsLibrary
    (fun _ => none) true [120] twoDocumentsOrder twoDocumentsOrder (by decide) (by decide)

theorem writeArchiveFile_eq (z : Zlib) (buffer : List Byte) (file : NitroFile) :
    writeArchiveFile z buffer file = writeFile z buffer file := rfl

/-- C25.  The two encoders agree: for every archive and every order in which its
entries are emitted, `createNitroArchive` returns a byte sequence, and
`writeNitroArchive` (the file having been created) returns no error and leaves
that same byte sequence in the file; it is the layout of the format
description with the entry count of the map. -/
theorem writeNitroArchive_agrees_with_createNitroArchive (z : Zlib) (archive : NitroArchive)
    (fs : FileSystem) (filepath : GoString) (order : List (GoString × NitroFile)) :
    ∃ bytes, createNitroArchive z archive order = .ok bytes
      ∧ (writeNitroArchive z archive fs true filepath order).2 = none
      ∧ (writeNitroArchive z archive fs true filepath order).1 filepath = some bytes
      ∧ bytes = archiveLayout z archive.Files.length (order.map Prod.snd) := by
  refine ⟨_, createNitroArchive_layout z archive order, rfl, ?_, rfl⟩
  have h : (fun file (e : GoString × NitroFile) => writeArchiveFile z file e.2)
      = (fun buffer e => writeFile z buffer e.2) := rfl
  simp only [writeNitroArchive, if_true, h, foldl_writeFile, archiveLayout, bigEndian_two]

/-! ## The summary (`processNitroFile`, `processNitroArchive`) -/

theorem lastIndexFrom_append (c : Byte) (l₁ l₂ : List Byte) (i : Nat) (found : Int) :
    lastIndexFrom c (l₁ ++ l₂) i found
      = lastIndexFrom c l₂ (i + l₁.length) (lastIndexFrom c l₁ i found) := by
  induction l₁ generalizing i found with
  | nil => rfl
  | cons b t ih =>
    have e : i + 1 + t.length = i + (t.length + 1) := by omega
    show lastIndexFrom c (t ++ l₂) (i + 1) (if b = c then (i : Int) else found)
      = lastIndexFrom c l₂ (i + (t.length + 1))
          (lastIndexFrom c t (i + 1) (if b = c then (i : Int) else found))
    rw [ih, e]

theorem lastIndexFrom_not_mem (c : Byte) (l : List Byte) (i : Nat) (found : Int)
    (h : c ∉ l) : lastIndexFrom c l i found = found := by
  induction l generalizing i found with
  | nil => rfl
  | cons b t ih =>
    simp only [List.mem_cons, not_or] at h
    have hb : ¬ b = c := fun e => h.1 e.symm
    simp only [lastIndexFrom, hb, if_false]
    exact ih _ _ h.2

theorem lastIndexFrom_bounds (c : Byte) (l : List Byte) (i : Nat) (found : Int)
    (h : found < (i : Int)) :
    found ≤ lastIndexFrom c l i found ∧ lastIndexFrom c l i found < (i : Int) + l.length := by
  induction l generalizing i found with
  | nil => simp [lastIndexFrom, h]
  | cons b t ih =>
    simp only [lastIndexFrom, List.length_cons]
    by_cases hb : b = c
    · have := ih (i + 1) (i : Int) (by push_cast; omega)
      simp only [hb, if_true]
      push_cast at this ⊢
      omega
    · have := ih (i + 1) found (by push_cast; omega)
      simp only [hb, if_false]
      push_cast at this ⊢
      omega

theorem lastIndex_bounds (s : GoString) (c : Byte) :
    -1 ≤ lastIndex s c ∧ lastIndex s c < (s.length : Int) := by
  have := lastIndexFrom_bounds c s 0 (-1) (by decide)
  simpa [lastIndex] using this

theorem lastIndex_not_mem (s : GoString) (c : Byte) (h : c ∉ s) : lastIndex s c = -1 :=
  lastIndexFrom_not_mem c s 0 (-1) h

theorem lastIndex_append_cons (a b : List Byte) (c : Byte) (h : c ∉ b) :
    lastIndex (a ++ c :: b) c = (a.length : Int) := by
  simp only [lastIndex, lastIndexFrom_append, lastIndexFrom, if_true, Nat.zero_add]
  exact lastIndexFrom_not_mem c b _ _ h

theorem sliceFrom_append (a b : List Byte) :
    sliceFrom (a ++ b) (a.length : Int) = .returned b := by
  simp [sliceFrom]

theorem sliceTo_append (a b : List Byte) :
    sliceTo (a ++ b) (a.length : Int) = .returned a := by
  simp [sliceTo]

theorem getFileNameWithoutExt_of_base (filepath base : GoString)
    (h : sliceFrom filepath (lastIndex filepath slash + 1) = .returned base) :
    getFileNameWithoutExt filepath
      = if lastIndex base dot > 0 then sliceTo base (lastIndex base dot) else .returned base := by
  simp only [getFileNameWithoutExt, h]

theorem base_of_directory (d b : List Byte) (h : slash ∉ b) :
    sliceFrom (d ++ slash :: b) (lastIndex (d ++ slash :: b) slash + 1) = .returned b := by
  rw [lastIndex_append_cons d b slash h]
  have e : d ++ slash :: b = (d ++ [slash]) ++ b := by simp
  have hl : ((d.length : Int) + 1) = ((d ++ [slash]).length : Int) := by simp
  rw [e, hl]
  exact sliceFrom_append _ _

theorem base_of_plain (b : List Byte) (h : slash ∉ b) :
    sliceFrom b (lastIndex b slash + 1) = .returned b := by
  rw [lastIndex_not_mem b slash h]
  simp [sliceFrom]

theorem stem_of_base (s e : List Byte) (hs : s ≠ []) (he : dot ∉ e) :
    (if lastIndex (s ++ dot :: e) dot > 0 then sliceTo (s ++ dot :: e) (lastIndex (s ++ dot :: e) dot)
      else .returned (s ++ dot :: e)) = .returned s := by
  rw [lastIndex_append_cons s e dot he]
  have hpos : (s.length : Int) > 0 := by
    have := List.length_pos.2 hs
    omega
  rw [if_pos hpos]
  exact sliceTo_append s (dot :: e)

theorem getFileNameWithoutExt_returns (filepath : GoString) :
    ∃ name, getFileNameWithoutExt filepath = .returned name := by
  have hb := lastIndex_bounds filepath slash
  have h1 : sliceFrom filepath (lastIndex filepath slash + 1)
      = .returned (filepath.drop (lastIndex filepath slash + 1).toNat) := by
    unfold sliceFrom
    rw [if_pos ⟨by omega, by omega⟩]
  rw [getFileNameWithoutExt_of_base _ _ h1]
  split
  · rename_i hpos
    have hb' := lastIndex_bounds (filepath.drop (lastIndex filepath slash + 1).toNat) dot
    refine ⟨(filepath.drop (lastIndex filepath slash + 1).toNat).take
      (lastIndex (filepath.drop (lastIndex filepath slash + 1).toNat) dot).toNat, ?_⟩
    unfold sliceTo
    rw [if_pos ⟨by omega, by omega⟩]
  · exact ⟨_, rfl⟩

/-- C23.  `getFileNameWithoutExt` never indexes out of range: it returns for every
path.  For a directory prefix `d`, a non-empty stem `s` without `/` and an
extension `e` without `/` or `.`, the path `d/s.e` gives `s`, and so does
`s.e` without a directory.  A base name without a dot, and a base name whose
only dot is its first character, is returned whole. -/
theorem getFileNameWithoutExt_result :
    (∀ filepath, ∃ name, getFileNameWithoutExt filepath = .returned name)
      ∧ (∀ d s e : List Byte, s ≠ [] → slash ∉ s → slash ∉ e → dot ∉ e →
          getFileNameWithoutExt (d ++ [slash] ++ s ++ [dot] ++ e) = .returned s)
      ∧ (∀ s e : List Byte, s ≠ [] → slash ∉ s → slash ∉ e → dot ∉ e →
          getFileNameWithoutExt (s ++ [dot] ++ e) = .returned s)
      ∧ (∀ d b : List Byte, slash ∉ b → dot ∉ b →
          getFileNameWithoutExt (d ++ [slash] ++ b) = .returned b
            ∧ getFileNameWithoutExt b = .returned b)
      ∧ (∀ d b : List Byte, slash ∉ b → dot ∉ b →
          getFileNameWithoutExt (d ++ [slash] ++ [dot] ++ b) = .returned ([dot] ++ b)
            ∧ getFileNameWithoutExt ([dot] ++ b) = .returned ([dot] ++ b)) := by
  have hsd : slash ≠ dot := by decide
  refine ⟨?_, ?_, ?_, ?_, ?_⟩
  · exact getFileNameWithoutExt_returns
  · intro d s e hs hss hse hde
    have hmem : slash ∉ s ++ dot :: e := by
      simp only [List.mem_append, List.mem_cons, not_or]
      exact ⟨hss, hsd, hse⟩
    have e1 : d ++ [slash] ++ s ++ [dot] ++ e = d ++ slash :: (s ++ dot :: e) := by simp
    rw [e1, getFileNameWithoutExt_of_base _ _ (base_of_directory d _ hmem)]
    exact stem_of_base s e hs hde
  · intro s e hs hss hse hde
    have hmem : slash ∉ s ++ dot :: e := by
      simp only [List.mem_append, List.mem_cons, not_or]
      exact ⟨hss, hsd, hse⟩
    have e1 : s ++ [dot] ++ e = s ++ dot :: e := by simp
    rw [e1, getFileNameWithoutExt_of_base _ _ (base_of_plain _ hmem)]
    exact stem_of_base s e hs hde
  · intro d b hsb hdb
    have hnd : ¬ lastIndex b dot > 0 := by rw [lastIndex_not_mem b dot hdb]; decide
    have e1 : d ++ [slash] ++ b = d ++ slash :: b := by simp
    constructor
    · rw [e1, getFileNameWithoutExt_of_base _ _ (base_of_directory d b hsb), if_neg hnd]
    · rw [getFileNameWithoutExt_of_base _ _ (base_of_plain b hsb), if_neg hnd]
  · intro d b hsb hdb
    have hmem : slash ∉ dot :: b := by
      simp only [List.mem_cons, not_or]
      exact ⟨hsd, hsb⟩
    have hl : lastIndex (dot :: b) dot = 0 := by
      have := lastIndex_append_cons [] b dot hdb
      simpa using this
    have hnd : ¬ lastIndex (dot :: b) dot > 0 := by rw [hl]; decide
    have e1 : d ++ [slash] ++ [dot] ++ b = d ++ slash :: (dot :: b) := by simp
    have e2 : [dot] ++ b = dot :: b := rfl
    constructor
    · rw [e1, e2, getFileNameWithoutExt_of_base _ _ (base_of_directory d _ hmem), if_neg hnd]
    · rw [e2, getFileNameWithoutExt_of_base _ _ (base_of_plain _ hmem), if_neg hnd]

/-- Witness of C23: the path `d/s.e` gives `s`. -/
theorem getFileNameWithoutExt_result_witness :
    getFileNameWithoutExt ([100] ++ [slash] ++ [115] ++ [dot] ++ [101]) = .returned [115] :=
  getFileNameWithoutExt_result.2.1 [100] [115] [101] (by decide) (by decide) (by decide)
    (by decide)

theorem appendKeys_eq {V : Type} (atoi : GoString → Option Int) (ids : List Int)
    (order : List (GoString × V)) :
    appendKeys atoi ids order = ids ++ integerKeys atoi order := by
  induction order generalizing ids with
  | nil => simp [appendKeys, integerKeys]
  | cons e t ih =>
    obtain ⟨key, v⟩ := e
    cases h : atoi key with
    | none => simp [appendKeys, integerKeys, h, ih]
    | some id => simp [appendKeys, integerKeys, h, ih]

theorem summarizeVisualization_fields (atoi : GoString → Option Int) (R : GoRange)
    (state : Int × FurniInfo) (vis : NitroVisualization) :
    (summarizeVisualization atoi R state vis).2.Name = state.2.Name
      ∧ (summarizeVisualization atoi R state vis).2.Directions
          = state.2.Directions ++ integerKeys atoi (R _ vis.Directions)
      ∧ (summarizeVisualization atoi R state vis).2.Colors
          = state.2.Colors ++ integerKeys atoi (R _ vis.Colors)
      ∧ (summarizeVisualization atoi R state vis).2.States
          = state.2.States ++ integerKeys atoi (R _ vis.Animations)
      ∧ (summarizeVisualization atoi R state vis).2.HasAnimation
          = (state.2.HasAnimation || decide (vis.Animations ≠ [])) := by
  obtain ⟨maxSize, info⟩ := state
  have hlen : (vis.Animations.length > 0) ↔ vis.Animations ≠ [] := List.length_pos
  by_cases hs : vis.Size > maxSize <;> by_cases ha : vis.Animations ≠ [] <;>
    simp [summarizeVisualization, hs, ha, hlen, appendKeys_eq]

theorem summarizeVisualization_size (atoi : GoString → Option Int) (R : GoRange)
    (state : Int × FurniInfo) (vis : NitroVisualization) :
    (vis.Size > state.1 →
        (summarizeVisualization atoi R state vis).1 = vis.Size
          ∧ (summarizeVisualization atoi R state vis).2.Size = vis.Size
          ∧ (summarizeVisualization atoi R state vis).2.LayerCount = vis.LayerCount)
      ∧ (¬ vis.Size > state.1 →
        (summarizeVisualization atoi R state vis).1 = state.1
          ∧ (summarizeVisualization atoi R state vis).2.Size = state.2.Size
          ∧ (summarizeVisualization atoi R state vis).2.LayerCount = state.2.LayerCount) := by
  obtain ⟨maxSize, info⟩ := state
  have hlen : (vis.Animations.length > 0) ↔ vis.Animations ≠ [] := List.length_pos
  by_cases hs : vis.Size > maxSize <;> by_cases ha : vis.Animations ≠ [] <;>
    simp [summarizeVisualization, hs, ha, hlen]

theorem foldl_summarize_fields (atoi : GoString → Option Int) (R : GoRange)
    (vs : List NitroVisualization) (state : Int × FurniInfo) :
    (vs.foldl (summarizeVisualization atoi R) state).2.Name = state.2.Name
      ∧ (vs.foldl (summarizeVisualization atoi R) state).2.Directions
          = state.2.Directions ++ vs.flatMap (fun vis => integerKeys atoi (R _ vis.Directions))
      ∧ (vs.foldl (summarizeVisualization atoi R) state).2.Colors
          = state.2.Colors ++ vs.flatMap (fun vis => integerKeys atoi (R _ vis.Colors))
      ∧ (vs.foldl (summarizeVisualization atoi R) state).2.States
          = state.2.States ++ vs.flatMap (fun vis => integerKeys atoi (R _ vis.Animations))
      ∧ (vs.foldl (summarizeVisualization atoi R) state).2.HasAnimation
          = (state.2.HasAnimation || vs.any (fun vis => decide (vis.Animations ≠ []))) := by
  induction vs generalizing state with
  | nil => simp
  | cons v t ih =>
    obtain ⟨h1, h2, h3, h4, h5⟩ := summarizeVisualization_fields atoi R state v
    obtain ⟨i1, i2, i3, i4, i5⟩ := ih (summarizeVisualization atoi R state v)
    simp only [List.foldl_cons, List.flatMap_cons, List.any_cons]
    refine ⟨by rw [i1, h1], by rw [i2, h2, List.append_assoc], by rw [i3, h3, List.append_assoc],
      by rw [i4, h4, List.append_assoc], by rw [i5, h5, Bool.or_assoc]⟩

theorem foldl_summarize_size (atoi : GoString → Option Int) (R : GoRange)
    (vs : List NitroVisualization) (state : Int × FurniInfo) :
    state.1 ≤ (vs.foldl (summarizeVisualization atoi R) state).1
      ∧ (∀ v ∈ vs, v.Size ≤ (vs.foldl (summarizeVisualization atoi R) state).1)
      ∧ ((∀ v ∈ vs, v.Size ≤ state.1) →
          (vs.foldl (summarizeVisualization atoi R) state).1 = state.1
            ∧ (vs.foldl (summarizeVisualization atoi R) state).2.Size = state.2.Size
            ∧ (vs.foldl (summarizeVisualization atoi R) state).2.LayerCount = state.2.LayerCount)
      ∧ ((∃ v ∈ vs, state.1 < v.Size) →
          state.1 < (vs.foldl (summarizeVisualization atoi R) state).1
            ∧ ∃ before v after, vs = before ++ v :: after
              ∧ v.Size = (vs.foldl (summarizeVisualization atoi R) state).1
              ∧ (∀ u ∈ before, u.Size < v.Size)
              ∧ (vs.foldl (summarizeVisualization atoi R) state).2.Size = v.Size
              ∧ (vs.foldl (summarizeVisualization atoi R) state).2.LayerCount = v.LayerCount) := by
  induction vs generalizing state with
  | nil =>
    refine ⟨Int.le_refl _, by simp, fun _ => ⟨rfl, rfl, rfl⟩, ?_⟩
    rintro ⟨v, hv, _⟩
    simp at hv
  | cons w t ih =>
    obtain ⟨hgt, hle⟩ := summarizeVisualization_size atoi R state w
    obtain ⟨i1, i2, i3, i4⟩ := ih (summarizeVisualization atoi R state w)
    simp only [List.foldl_cons]
    by_cases hw : w.Size > state.1
    · obtain ⟨s1, s2, s3⟩ := hgt hw
      rw [s1] at i1 i3 i4
      refine ⟨by omega, ?_, ?_, ?_⟩
      · intro v hv
        rcases List.mem_cons.1 hv with rfl | hv
        · exact i1
        · exact i2 v hv
      · intro hall
        have := hall w (List.mem_cons_self _ _)
        omega
      · intro _
        by_cases hex : ∃ v ∈ t, w.Size < v.Size
        · obtain ⟨hlt, before, v, after, rfl, hv, hb, hS, hL⟩ := i4 hex
          refine ⟨by omega, w :: before, v, after, rfl, hv, ?_, hS, hL⟩
          intro u hu
          rcases List.mem_cons.1 hu with rfl | hu
          · omega
          · exact hb u hu
        · have hall : ∀ v ∈ t, v.Size ≤ w.Size := by
            intro v hv
            by_contra hc
            exact hex ⟨v, hv, by omega⟩
          obtain ⟨e1, e2, e3⟩ := i3 hall
          refine ⟨by omega, [], w, t, rfl, by omega, by simp, by rw [e2, s2], by rw [e3, s3]⟩
    · obtain ⟨s1, s2, s3⟩ := hle hw
      rw [s1] at i1 i3 i4
      refine ⟨i1, ?_, ?_, ?_⟩
      · intro v hv
        rcases List.mem_cons.1 hv with rfl | hv
        · omega
        · exact i2 v hv
      · intro hall
        obtain ⟨e1, e2, e3⟩ := i3 (fun v hv => hall v (List.mem_cons_of_mem _ hv))
        exact ⟨e1, by rw [e2, s2], by rw [e3, s3]⟩
      · rintro ⟨v, hv, hlt⟩
        have hex : ∃ v ∈ t, state.1 < v.Size := by
          rcases List.mem_cons.1 hv with rfl | hv
          · omega
          · exact ⟨v, hv, hlt⟩
        obtain ⟨hlt', before, v', after, rfl, hv', hb, hS, hL⟩ := i4 hex
        refine ⟨hlt', w :: before, v', after, rfl, hv', ?_, hS, hL⟩
        intro u hu
        rcases List.mem_cons.1 hu with rfl | hu
        · omega
        · exact hb u hu

theorem sortInts_sorted (l : List Int) : (sortInts l).Sorted (fun a b => a ≤ b) :=
  List.sorted_insertionSort _ l

theorem sortInts_perm (l : List Int) : (sortInts l).Perm l := List.perm_insertionSort _ l

theorem sortInts_eq_nil (l : List Int) : sortInts l = [] ↔ l = [] := by
  constructor
  · intro h
    have := (sortInts_perm l).length_eq
    rw [h] at this
    exact List.length_eq_zero.1 this.symm
  · intro h
    rw [h]
    rfl

theorem sortInts_congr {l₁ l₂ : List Int} (h : l₁.Perm l₂) : sortInts l₁ = sortInts l₂ :=
  List.eq_of_perm_of_sorted ((sortInts_perm l₁).trans (h.trans (sortInts_perm l₂).symm))
    (sortInts_sorted l₁) (sortInts_sorted l₂)

theorem summarize_fields (atoi : GoString → Option Int) (R : GoRange) (furni : NitroFurni)
    (info : FurniInfo) :
    (summarize atoi R furni info).Name
        = (furni.Visualizations.foldl (summarizeVisualization atoi R) (0, info)).2.Name
      ∧ (summarize atoi R furni info).Size
        = (furni.Visualizations.foldl (summarizeVisualization atoi R) (0, info)).2.Size
      ∧ (summarize atoi R furni info).LayerCount
        = (furni.Visualizations.foldl (summarizeVisualization atoi R) (0, info)).2.LayerCount
      ∧ (summarize atoi R furni info).HasAnimation
        = (furni.Visualizations.foldl (summarizeVisualization atoi R) (0, info)).2.HasAnimation
      ∧ (summarize atoi R furni info).States
        = (if (furni.Visualizations.foldl (summarizeVisualization atoi R) (0, info)).2.States = []
            then [0]
            else sortInts
              (furni.Visualizations.foldl (summarizeVisualization atoi R) (0, info)).2.States)
      ∧ (summarize atoi R furni info).Colors
        = (if (furni.Visualizations.foldl (summarizeVisualization atoi R) (0, info)).2.Colors = []
            then [0]
            else sortInts
              (furni.Visualizations.foldl (summarizeVisualization atoi R) (0, info)).2.Colors)
      ∧ (summarize atoi R furni info).Directions
        = (if (furni.Visualizations.foldl (summarizeVisualization atoi R) (0, info)).2.Directions
              ≠ [] then
            sortInts
              (furni.Visualizations.foldl (summarizeVisualization atoi R) (0, info)).2.Directions
          else if furni.Logic.Model.Directions ≠ [] then sortInts furni.Logic.Model.Directions
          else [0, 2, 4, 6]) := by
  simp only [summarize]
  generalize (furni.Visualizations.foldl (summarizeVisualization atoi R) (0, info)).2 = st
  have h4 : sortInts [0, 2, 4, 6] = [0, 2, 4, 6] := by decide
  have hn : ∀ l : List Int, (sortInts l).length = 0 ↔ l = [] := fun l => by
    rw [List.length_eq_zero, sortInts_eq_nil]
  by_cases hd : st.Directions = [] <;> by_cases hm : furni.Logic.Model.Directions = [] <;>
    by_cases hs : st.States = [] <;> by_cases hc : st.Colors = [] <;>
    simp [hd, hm, hs, hc, h4, hn, sortInts_eq_nil, List.length_eq_zero, List.length_pos]

theorem processNitroArchive_of_document {P : Type} (J : Json P) (atoi : GoString → Option Int)
    (R : GoRange) (order : List (GoString × NitroFile)) (furni : NitroFurni) (name : GoString)
    (hdoc : searchFurniData J order none = .returned (some furni, name)) :
    processNitroArchive J atoi R order
      = .returned (summarize atoi R furni
          { Name := name, Directions := [], States := [], Colors := [], Size := 0,
            LayerCount := 0, HasAnimation := false }, none) := by
  simp only [processNitroArchive, hdoc]

theorem integerKeys_perm {V : Type} (atoi : GoString → Option Int)
    {m order : List (GoString × V)} (h : RangeOf m order) :
    (integerKeys atoi order).Perm (integerKeys atoi m) :=
  List.Perm.filterMap _ h

theorem flatMap_integerKeys_perm {V : Type} (atoi : GoString → Option Int) (R : GoRange)
    (hR : R.OK) (field : NitroVisualization → List (GoString × V))
    (vs : List NitroVisualization) :
    (vs.flatMap (fun vis => integerKeys atoi (R _ (field vis)))).Perm
      (vs.flatMap (fun vis => integerKeys atoi (field vis))) := by
  induction vs with
  | nil => simp
  | cons v t ih =>
    simp only [List.flatMap_cons]
    exact (integerKeys_perm atoi (hR _ (field v))).append ih

theorem perm_nil_iff {l₁ l₂ : List Int} (h : l₁.Perm l₂) : l₁ = [] ↔ l₂ = [] := by
  constructor
  · intro e
    rw [e] at h
    exact List.perm_nil.1 h.symm
  · intro e
    rw [e] at h
    exact List.perm_nil.1 h

theorem sum_count_eq_countP (keys : NitroVisualization → List Int) (d : Int)
    (vs : List NitroVisualization) (h : ∀ vis ∈ vs, (keys vis).Nodup) :
    (vs.map (fun vis => (keys vis).count d)).sum
      = vs.countP (fun vis => decide (d ∈ keys vis)) := by
  induction vs with
  | nil => rfl
  | cons v t ih =>
    have hv := h v (List.mem_cons_self _ _)
    have ht := ih (fun vis hvis => h vis (List.mem_cons_of_mem _ hvis))
    rw [List.map_cons, List.sum_cons, ht, List.countP_cons, List.count_eq_of_nodup hv]
    by_cases hd : d ∈ keys v
    · simp only [hd, if_true, decide_True]
      omega
    · simp only [hd, if_false, decide_False, Bool.false_eq_true]
      omega

/-- C26 (amended).  Summary lists: when the search of `processNitroArchive` ends
with the document `furni`, the call returns no error and the lists
`Directions`, `States` and `Colors` are non-empty and ascending.  `States`
(`Colors`) is the sorted concatenation, over the visualizations, of the
animation (color) keys that `strconv.Atoi` converts, or `[0]` when there is
none.  `Directions` is the sorted concatenation of the converted direction
keys, else the sorted `logic.model.directions`, else `[0, 2, 4, 6]`.  Sorting
keeps every occurrence: a direction occurs once for every direction key that
converts to it, and so as often as there are visualizations that have it when
no two direction keys of one visualization convert to the same integer. -/
theorem summary_lists {P : Type} (J : Json P) (atoi : GoString → Option Int) (R : GoRange)
    (order : List (GoString × NitroFile)) (furni : NitroFurni) (name : GoString)
    (hR : R.OK) (hdoc : searchFurniData J order none = .returned (some furni, name)) :
    ∃ info, processNitroArchive J atoi R order = .returned (info, none)
      ∧ info.Directions ≠ [] ∧ info.States ≠ [] ∧ info.Colors ≠ []
      ∧ info.Directions.Sorted (fun a b => a ≤ b)
      ∧ info.States.Sorted (fun a b => a ≤ b)
      ∧ info.Colors.Sorted (fun a b => a ≤ b)
      ∧ info.States
          = (if furni.Visualizations.flatMap (fun vis => integerKeys atoi vis.Animations) = []
              then [0]
              else sortInts
                (furni.Visualizations.flatMap (fun vis => integerKeys atoi vis.Animations)))
      ∧ info.Colors
          = (if furni.Visualizations.flatMap (fun vis => integerKeys atoi vis.Colors) = []
              then [0]
              else sortInts
                (furni.Visualizations.flatMap (fun vis => integerKeys atoi vis.Colors)))
      ∧ info.Directions
          = (if furni.Visualizations.flatMap (fun vis => integerKeys atoi vis.Directions) ≠ []
              then sortInts
                (furni.Visualizations.flatMap (fun vis => integerKeys atoi vis.Directions))
              else if furni.Logic.Model.Directions ≠ [] then
                sortInts furni.Logic.Model.Directions
              else [0, 2, 4, 6])
      ∧ (∀ l : List Int, (sortInts l).Sorted (fun a b => a ≤ b) ∧ (sortInts l).Perm l)
      ∧ (furni.Visualizations.flatMap (fun vis => integerKeys atoi vis.Directions) ≠ [] →
          ∀ d : Int, info.Directions.count d
            = (furni.Visualizations.map
                (fun vis => (integerKeys atoi vis.Directions).count d)).sum)
      ∧ (furni.Visualizations.flatMap (fun vis => integerKeys atoi vis.Directions) ≠ [] →
          (∀ vis ∈ furni.Visualizations, (integerKeys atoi vis.Directions).Nodup) →
          ∀ d : Int, info.Directions.count d
            = furni.Visualizations.countP
                (fun vis => decide (d ∈ integerKeys atoi vis.Directions))) := by
  refine ⟨_, processNitroArchive_of_document J atoi R order furni name hdoc, ?_⟩
  obtain ⟨-, -, -, -, hS, hC, hD⟩ := summarize_fields atoi R furni
    { Name := name, Directions := [], States := [], Colors := [], Size := 0,
      LayerCount := 0, HasAnimation := false }
  obtain ⟨-, fD, fC, fS, -⟩ := foldl_summarize_fields atoi R furni.Visualizations
    (0, { Name := name, Directions := [], States := [], Colors := [], Size := 0,
          LayerCount := 0, HasAnimation := false })
  simp only [List.nil_append] at fD fC fS
  have pD := flatMap_integerKeys_perm atoi R hR (fun vis => vis.Directions) furni.Visualizations
  have pC := flatMap_integerKeys_perm atoi R hR (fun vis => vis.Colors) furni.Visualizations
  have pS := flatMap_integerKeys_perm atoi R hR (fun vis => vis.Animations) furni.Visualizations
  simp only [fS, perm_nil_iff pS, sortInts_congr pS] at hS
  simp only [fC, perm_nil_iff pC, sortInts_congr pC] at hC
  simp only [fD, ne_eq, perm_nil_iff pD, sortInts_congr pD] at hD
  have h4 : List.Sorted (fun a b : Int => a ≤ b) [0, 2, 4, 6] := by decide
  have h0 : List.Sorted (fun a b : Int => a ≤ b) [0] := List.sorted_singleton 0
  have ne_sort : ∀ l : List Int, l ≠ [] → sortInts l ≠ [] := fun l hl h =>
    hl ((sortInts_eq_nil l).1 h)
  have hcount : furni.Visualizations.flatMap (fun vis => integerKeys atoi vis.Directions) ≠ [] →
      ∀ d : Int, (summarize atoi R furni
          { Name := name, Directions := [], States := [], Colors := [], Size := 0,
            LayerCount := 0, HasAnimation := false }).Directions.count d
        = (furni.Visualizations.map
            (fun vis => (integerKeys atoi vis.Directions).count d)).sum := by
    intro hne d
    rw [hD, if_pos hne, (sortInts_perm _).count_eq, List.count_flatMap]
    rfl
  refine ⟨?_, ?_, ?_, ?_, ?_, ?_, hS, hC, hD, fun l => ⟨sortInts_sorted l, sortInts_perm l⟩,
    hcount, ?_⟩
  · rw [hD]
    split
    · rename_i h
      exact ne_sort _ h
    · split
      · rename_i h
        exact ne_sort _ h
      · simp
  · rw [hS]
    split
    · simp
    · rename_i h
      exact ne_sort _ h
  · rw [hC]
    split
    · simp
    · rename_i h
      exact ne_sort _ h
  · rw [hD]
    split
    · exact sortInts_sorted _
    · split
      · exact sortInts_sorted _
      · exact h4
  · rw [hS]
    split
    · exact h0
    · exact sortInts_sorted _
  · rw [hC]
    split
    · exact h0
    · exact sortInts_sorted _
  · intro hne hnodup d
    rw [hcount hne d]
    exact sum_count_eq_countP (fun vis => integerKeys atoi vis.Directions) d _ hnodup

/-- Counterexample of C26 as stated: the only visualization of `repeatedFurni`
has the direction keys `2` and `02`, which both convert to 2; the direction 2
is present in one visualization and occurs twice in the summary. -/
theorem direction_of_repeated_key_occurs_twice :
    searchFurniData repeatedJson (oneDocument repeatedDocument) none
        = .returned (some repeatedFurni, [])
      ∧ repeatedFurni.Visualizations = [repeatedVisualization]
      ∧ repeatedVisualization.Directions.map Prod.fst = [[50], [48, 50]]
      ∧ decimalAtoi [50] = some 2
      ∧ decimalAtoi [48, 50] = some 2
      ∧ processNitroArchive repeatedJson decimalAtoi storedOrder (oneDocument repeatedDocument)
        = .returned ({ Name := [], Directions := [2, 2], States := [0], Colors := [0],
                       Size := 0, LayerCount := 0, HasAnimation := false }, none) := by
  decide

/-- Witness of C26 (amended): the archive that holds `summaryDocument`; the summary has
the directions 0 and 2, the state 1 and the default color 0. -/
theorem summary_lists_witness :
    GoRange.OK storedOrder
      ∧ searchFurniData summaryJson (oneDocument summaryDocument) none
        = .returned (some summaryFurni, [102])
      ∧ ∃ info, processNitroArchive summaryJson decimalAtoi storedOrder
            (oneDocument summaryDocument) = .returned (info, none)
          ∧ info.Directions = [0, 2] ∧ info.States = [1] ∧ info.Colors = [0] := by
  refine ⟨fun _ m => List.Perm.refl m, by decide, ?_⟩
  obtain ⟨info, h, -, -, -, -, -, -, hS, hC, hD, -⟩ :=
    summary_lists summaryJson decimalAtoi storedOrder (oneDocument summaryDocument)
      summaryFurni [102] (fun _ m => List.Perm.refl m) (by decide)
  exact ⟨info, h, hD.trans (by decide), hS.trans (by decide), hC.trans (by decide)⟩

/-- Counterexample of C27 as stated: the only visualization of `unsizedFurni`
has size 0 and declares five layers; it attains the largest size of the
document, and the summary has `LayerCount` 0. -/
theorem layer_count_without_positive_size :
    searchFurniData summaryJson (oneDocument unsizedDocument) none
        = .returned (some unsizedFurni, [])
      ∧ unsizedFurni.Visualizations = [unsizedVisualization]
      ∧ unsizedVisualization.Size = 0
      ∧ unsizedVisualization.LayerCount = 5
      ∧ processNitroArchive summaryJson decimalAtoi storedOrder (oneDocument unsizedDocument)
        = .returned ({ Name := [], Directions := [0, 2, 4, 6], States := [0], Colors := [0],
                       Size := 0, LayerCount := 0, HasAnimation := false }, none) := by
  decide

/-- C27 (amended).  Summary size: when the search of `processNitroArchive` ends
with the document `furni`, the call returns no error.  If some visualization
has a positive size, `Size` is the largest size among the visualizations and
`LayerCount` is the `layerCount` of the first visualization, in document
order, that attains it.  If none has, `Size` and `LayerCount` are 0.
`HasAnimation` is true exactly when some visualization has a non-empty
`animations` map. -/
theorem summary_size {P : Type} (J : Json P) (atoi : GoString → Option Int) (R : GoRange)
    (order : List (GoString × NitroFile)) (furni : NitroFurni) (name : GoString)
    (hdoc : searchFurniData J order none = .returned (some furni, name)) :
    ∃ info, processNitroArchive J atoi R order = .returned (info, none)
      ∧ ((∃ v ∈ furni.Visualizations, 0 < v.Size) →
          (∀ v ∈ furni.Visualizations, v.Size ≤ info.Size)
            ∧ ∃ before v after, furni.Visualizations = before ++ v :: after
              ∧ v.Size = info.Size
              ∧ (∀ u ∈ before, u.Size < info.Size)
              ∧ info.LayerCount = v.LayerCount)
      ∧ ((∀ v ∈ furni.Visualizations, v.Size ≤ 0) → info.Size = 0 ∧ info.LayerCount = 0)
      ∧ (info.HasAnimation = true ↔ ∃ v ∈ furni.Visualizations, v.Animations ≠ []) := by
  refine ⟨_, processNitroArchive_of_document J atoi R order furni name hdoc, ?_⟩
  obtain ⟨-, hSize, hCount, hAnim, -⟩ := summarize_fields atoi R furni
    { Name := name, Directions := [], States := [], Colors := [], Size := 0,
      LayerCount := 0, HasAnimation := false }
  obtain ⟨-, hall, hnone, hsome⟩ := foldl_summarize_size atoi R furni.Visualizations
    (0, { Name := name, Directions := [], States := [], Colors := [], Size := 0,
          LayerCount := 0, HasAnimation := false })
  obtain ⟨-, -, -, -, fA⟩ := foldl_summarize_fields atoi R furni.Visualizations
    (0, { Name := name, Directions := [], States := [], Colors := [], Size := 0,
          LayerCount := 0, HasAnimation := false })
  rw [hSize, hCount, hAnim]
  refine ⟨?_, ?_, ?_⟩
  · intro hpos
    obtain ⟨-, before, v, after, hsplit, hv, hbefore, hsz, hlc⟩ := hsome hpos
    refine ⟨?_, before, v, after, hsplit, hsz.symm, ?_, hlc⟩
    · intro u hu
      rw [hsz, hv]
      exact hall u hu
    · intro u hu
      rw [hsz]
      exact hbefore u hu
  · intro hle
    obtain ⟨-, h2, h3⟩ := hnone hle
    exact ⟨h2, h3⟩
  · rw [fA]
    simp

/-- Witness of C27 (amended): the archive that holds `summaryDocument`. -/
theorem summary_size_witness :
    searchFurniData summaryJson (oneDocument summaryDocument) none
        = .returned (some summaryFurni, [102])
      ∧ ∃ info, processNitroArchive summaryJson decimalAtoi storedOrder
            (oneDocument summaryDocument) = .returned (info, none)
          ∧ ((∃ v ∈ summaryFurni.Visualizations, 0 < v.Size) →
              (∀ v ∈ summaryFurni.Visualizations, v.Size ≤ info.Size)
                ∧ ∃ before v after, summaryFurni.Visualizations = before ++ v :: after
                  ∧ v.Size = info.Size
                  ∧ (∀ u ∈ before, u.Size < info.Size)
                  ∧ info.LayerCount = v.LayerCount)
          ∧ ((∀ v ∈ summaryFurni.Visualizations, v.Size ≤ 0) →
              info.Size = 0 ∧ info.LayerCount = 0)
          ∧ (info.HasAnimation = true ↔ ∃ v ∈ summaryFurni.Visualizations, v.Animations ≠ []) :=
  ⟨by decide, summary_size summaryJson decimalAtoi storedOrder (oneDocument summaryDocument)
    summaryFurni [102] (by decide)⟩

theorem searchFurniData_name {P : Type} (J : Json P) (order : List (GoString × NitroFile))
    (p q : Option NitroFurni) (name : GoString)
    (h : searchFurniData J order p = .returned (q, name)) :
    (name ≠ [] →
        ∃ entry ∈ order, hasSuffix entry.1 dotJson = true
          ∧ ∃ before furni, J.unmarshalPtr entry.2.Data before = (some furni, none)
            ∧ furni.Name = name ∧ q = some furni)
      ∧ (name = [] →
        ∀ entry ∈ order, hasSuffix entry.1 dotJson = true →
          ∃ before, (J.unmarshalPtr entry.2.Data before).2 ≠ none
            ∨ ∃ furni, J.unmarshalPtr entry.2.Data before = (some furni, none)
              ∧ furni.Name = []) := by
  induction order generalizing p with
  | nil =>
    simp only [searchFurniData, Run.returned.injEq, Prod.mk.injEq] at h
    refine ⟨fun hne => absurd h.2.symm hne, fun _ entry he => ?_⟩
    simp at he
  | cons e t ih =>
    obtain ⟨key, file⟩ := e
    unfold searchFurniData at h
    cases hs : hasSuffix key dotJson with
    | false =>
      rw [hs] at h
      simp only [Bool.false_eq_true, if_false] at h
      obtain ⟨i1, i2⟩ := ih p h
      refine ⟨fun hne => ?_, fun hn entry he hsuf => ?_⟩
      · obtain ⟨entry, he, rest⟩ := i1 hne
        exact ⟨entry, List.mem_cons_of_mem _ he, rest⟩
      · rcases List.mem_cons.1 he with rfl | he
        · rw [hs] at hsuf
          exact absurd hsuf (by simp)
        · exact i2 hn entry he hsuf
    | true =>
      rw [hs] at h
      simp only [if_true] at h
      rcases hu : J.unmarshalPtr file.Data p with ⟨p', err⟩
      rw [hu] at h
      cases err with
      | some e =>
        simp only at h
        obtain ⟨i1, i2⟩ := ih p' h
        refine ⟨fun hne => ?_, fun hn entry he hsuf => ?_⟩
        · obtain ⟨entry, he, rest⟩ := i1 hne
          exact ⟨entry, List.mem_cons_of_mem _ he, rest⟩
        · rcases List.mem_cons.1 he with rfl | he
          · exact ⟨p, Or.inl (by rw [hu]; simp)⟩
          · exact i2 hn entry he hsuf
      | none =>
        cases p' with
        | none => simp at h
        | some furni =>
          simp only at h
          by_cases hname : furni.Name = []
          · rw [if_neg (by simpa using hname)] at h
            obtain ⟨i1, i2⟩ := ih (some furni) h
            refine ⟨fun hne => ?_, fun hn entry he hsuf => ?_⟩
            · obtain ⟨entry, he, rest⟩ := i1 hne
              exact ⟨entry, List.mem_cons_of_mem _ he, rest⟩
            · rcases List.mem_cons.1 he with rfl | he
              · exact ⟨p, Or.inr ⟨furni, hu, hname⟩⟩
              · exact i2 hn entry he hsuf
          · rw [if_pos hname] at h
            simp only [Run.returned.injEq, Prod.mk.injEq] at h
            obtain ⟨hq, hn⟩ := h
            refine ⟨fun _ => ⟨(key, file), List.mem_cons_self _ _, hs, p, furni, hu, hn, hq.symm⟩,
              fun hnil => ?_⟩
            rw [← hn] at hnil
            exact absurd hnil hname

theorem searchFurniData_nil_name {P : Type} (J : Json P) (order : List (GoString × NitroFile))
    (p : Option NitroFurni) (name : GoString)
    (h : searchFurniData J order p = .returned (none, name)) : name = [] := by
  by_contra hne
  obtain ⟨_, _, _, _, furni, _, _, hq⟩ := (searchFurniData_name J order p none name h).1 hne
  exact Option.noConfusion hq

theorem processNitroArchive_no_error {P : Type} (J : Json P) (atoi : GoString → Option Int)
    (R : GoRange) (order : List (GoString × NitroFile)) (info : FurniInfo) (err : Option Error)
    (h : processNitroArchive J atoi R order = .returned (info, err)) : err = none := by
  unfold processNitroArchive at h
  rcases hs : searchFurniData J order none with ⟨q, name⟩ | _
  · rw [hs] at h
    cases q with
    | none =>
      simp only [Run.returned.injEq, Prod.mk.injEq] at h
      exact h.2.symm
    | some furni =>
      simp only [Run.returned.injEq, Prod.mk.injEq] at h
      exact h.2.symm
  · rw [hs] at h
    simp at h

theorem processNitroArchive_without_document {P : Type} (J : Json P)
    (atoi : GoString → Option Int) (R : GoRange) (order : List (GoString × NitroFile))
    (name : GoString) (h : searchFurniData J order none = .returned (none, name)) :
    processNitroArchive J atoi R order = .returned (emptyInfo, none) := by
  have hn := searchFurniData_nil_name J order none name h
  subst hn
  simp only [processNitroArchive, h, emptyInfo]

/-- Outside the panic: when the archive loads and the search ends, the call
returns a `FurniInfo` whose name is the name the search found, and the file
name without extension when it found none. -/
theorem processNitroFile_name {P : Type} (z : Zlib) (J : Json P) (atoi : GoString → Option Int)
    (R : GoRange) (fs : FileSystem) (filepath : GoString)
    (range : NitroArchive → List (GoString × NitroFile)) (archive : NitroArchive)
    (q : Option NitroFurni) (name : GoString)
    (hload : loadNitroArchive z fs filepath = .ok archive)
    (hsearch : searchFurniData J (range archive) none = .returned (q, name)) :
    ∃ info, processNitroFile z J atoi R fs filepath range = .returned (.ok info)
      ∧ (name ≠ [] → info.Name = name)
      ∧ (name = [] → getFileNameWithoutExt filepath = .returned info.Name) := by
  have harch : ∃ info₀, processNitroArchive J atoi R (range archive) = .returned (info₀, none)
      ∧ info₀.Name = name := by
    cases q with
    | none =>
      refine ⟨{ Name := name, Directions := [], States := [], Colors := [], Size := 0,
                LayerCount := 0, HasAnimation := false }, ?_, rfl⟩
      simp only [processNitroArchive, hsearch]
    | some furni =>
      refine ⟨_, processNitroArchive_of_document J atoi R _ furni name hsearch, ?_⟩
      rw [(summarize_fields atoi R furni _).1]
      exact (foldl_summarize_fields atoi R furni.Visualizations _).1
  obtain ⟨info₀, h₀, hname⟩ := harch
  obtain ⟨stem, hstem⟩ := getFileNameWithoutExt_returns filepath
  simp only [processNitroFile, hload, h₀, hname, hstem]
  by_cases hn : name = []
  · rw [if_pos hn]
    exact ⟨_, rfl, fun h => absurd hn h, fun _ => rfl⟩
  · rw [if_neg hn]
    exact ⟨_, rfl, fun _ => hname, fun h => absurd h hn⟩

/-- C28 (evaluation at the failing input).  An archive whose only entry is `a.json` with the content `null`:
`json.Unmarshal` returns no error and leaves `furniData` nil, the test
`furniData.Name != ""` dereferences it, and `processNitroArchive` panics
instead of returning. -/
theorem processNitroArchive_null_document_panics :
    hasSuffix aJson dotJson = true
      ∧ tinyJson.unmarshalPtr jsonNull none = (none, none)
      ∧ processNitroArchive tinyJson decimalAtoi storedOrder (oneDocument jsonNull) = .panicked := by
  decide

/-- C22 (evaluation at the failing input).  The file `c.nitro` with the only entry `a.json` of content `null`: the
archive loads, the file name without extension is `c`, and `processNitroFile`
panics instead of returning a `FurniInfo` of that name. -/
theorem processNitroFile_null_document_panics :
    loadNitroArchive storedZlib (fun _ => some nullDocumentBytes) cNitro
        = .ok { Files := oneDocument jsonNull }
      ∧ getFileNameWithoutExt cNitro = .returned [99]
      ∧ processNitroFile storedZlib tinyJson decimalAtoi storedOrder
          (fun _ => some nullDocumentBytes) cNitro (fun a => a.Files) = .panicked := by
  decide

end NitroEditor
